import Mathlib

/-!
Verification of the MathML-to-LaTeX converter (`mathml_to_latex.py`).

The development shallowly embeds the program's string-processing core:

* `convert_persian_digits` — the Persian/Arabic-Indic digit normalizer;
* `mathml_to_latex_element` — the tag-directed element transducer, embedded
  as a fuel-indexed total function returning `Option String` (`none` models a
  Python exception such as `IndexError`/`ValueError`);
* `normalize_identifiers` — the function-name spacing pass;
* `beautify_latex` — the LaTeX repair pass (the four `re.sub` steps and the
  final `strip`), embedded as explicit scanners over `List Char` mirroring
  leftmost, non-overlapping, greedy matching of the concrete regexes;
* the `$$`-count recovery step of `clean_html_and_convert_mathml`.

Strings are treated as sequences of Unicode code points (`List Char`),
matching Python `str` semantics.
-/

/-! ### Python character classes

`isPySpace` is the set of code points matched by `\s` in Python 3 `str`
regexes, which is the same set stripped by `str.strip()` (`str.isspace()`).
`isAsciiLetter` is the regex class `[a-zA-Z]`.
-/

def isPySpace (c : Char) : Bool :=
  c.toNat ∈ ([9, 10, 11, 12, 13, 28, 29, 30, 31, 32, 0x85, 0xa0, 0x1680,
    0x2000, 0x2001, 0x2002, 0x2003, 0x2004, 0x2005, 0x2006, 0x2007, 0x2008,
    0x2009, 0x200a, 0x2028, 0x2029, 0x202f, 0x205f, 0x3000] : List Nat)

def isAsciiLetter (c : Char) : Bool :=
  (0x61 ≤ c.toNat && c.toNat ≤ 0x7a) || (0x41 ≤ c.toNat && c.toNat ≤ 0x5a)

/-- Word character for the regex `\b` boundary: `[a-zA-Z0-9_]`.  (Python's
`\w` additionally matches non-ASCII word characters; the LaTeX strings the
identifier pass processes in the claims below are ASCII.) -/
def isWordChar (c : Char) : Bool :=
  isAsciiLetter c || (0x30 ≤ c.toNat && c.toNat ≤ 0x39) || c = '_'

/-- Python `str.strip()` on a character list: drop leading and trailing
whitespace. -/
def pyStripL (l : List Char) : List Char :=
  ((l.dropWhile isPySpace).reverse.dropWhile isPySpace).reverse

/-- Python `str.strip()`. -/
def pyStrip (s : String) : String := ⟨pyStripL s.data⟩

/-! ### `convert_persian_digits`

```python
def convert_persian_digits(s: str) -> str:
    persian = '۰۱۲۳۴۵۶۷۸۹'
    arabic  = '٠١٢٣٤٥٦٧٨٩'
    ascii_  = '0123456789'
    return s.translate(str.maketrans(persian + arabic, ascii_ * 2))
```
`str.maketrans(x, y)` maps `x[i] ↦ y[i]`; `translate` applies the table
character-wise, leaving unmapped characters unchanged. -/

def persianDigits : List Char := "۰۱۲۳۴۵۶۷۸۹".data
def arabicDigits : List Char := "٠١٢٣٤٥٦٧٨٩".data
def asciiDigits : List Char := "0123456789".data

def digitTable : List (Char × Char) :=
  (persianDigits ++ arabicDigits).zip (asciiDigits ++ asciiDigits)

def translateChar (c : Char) : Char := ((digitTable).lookup c).getD c

def convert_persian_digits (s : String) : String := ⟨s.data.map translateChar⟩

/-- Modelled from the spec's words (§4.1), for comparison with the code's
translation table: a Persian digit (U+06F0–U+06F9) or an Arabic-Indic digit
(U+0660–U+0669) is replaced by its ASCII digit equivalent index-for-index;
every other character passes through unchanged. -/
def digitSpecMap (c : Char) : Char :=
  if 0x6f0 ≤ c.toNat ∧ c.toNat ≤ 0x6f9 then Char.ofNat (c.toNat - 0x6f0 + 0x30)
  else if 0x660 ≤ c.toNat ∧ c.toNat ≤ 0x669 then Char.ofNat (c.toNat - 0x660 + 0x30)
  else c

/-! ### The `$$` recovery step of `clean_html_and_convert_mathml`

```python
    if text.count('$$') % 2 != 0:
        text = text.rstrip('$')
```
`str.count` counts non-overlapping occurrences scanning left to right;
`str.rstrip('$')` removes **all** trailing `'$'` characters. -/

/-- Python `text.count('$$')`: non-overlapping occurrences, leftmost first. -/
def ssCount : List Char → Nat
  | '$' :: '$' :: rest => ssCount rest + 1
  | _ :: rest => ssCount rest
  | [] => 0

/-- Python `text.rstrip('$')`: remove every trailing `'$'`. -/
def rstripDollar (l : List Char) : List Char :=
  (l.reverse.dropWhile (fun c => c = '$')).reverse

/-- Lines 284–285 of the source: strip trailing `'$'` characters iff the
`'$$'` count is odd. -/
def stripOddDelims (l : List Char) : List Char :=
  if ssCount l % 2 ≠ 0 then rstripDollar l else l

/-! ### The MathML element tree

An `ElementTree` node as the transducer consumes it: a raw tag (possibly
namespace-qualified), attributes, direct text (`None` and `''` are
indistinguishable to this program, which only reads `elem.text or ''`), and
the ordered child list. -/

inductive Element where
  | mk (tag : String) (attrs : List (String × String)) (text : String)
      (children : List Element)

def Element.tag : Element → String
  | .mk t _ _ _ => t

def Element.attrs : Element → List (String × String)
  | .mk _ a _ _ => a

def Element.text : Element → String
  | .mk _ _ x _ => x

def Element.children : Element → List Element
  | .mk _ _ _ c => c

/-- `get_tag`: `elem.tag.split('}')[-1]` — the segment after the last `'}'`
(the whole tag when no `'}'` occurs). -/
def get_tag (e : Element) : String :=
  ⟨e.tag.data.foldl (fun acc c => if c = '\x7d' then [] else acc ++ [c]) []⟩

/-- `elem.get(key, default)` on the attribute dictionary. -/
def attrGet (e : Element) (k d : String) : String := ((e.attrs).lookup k).getD d

/-- Python `''.join`. -/
def joinStr : List String → String
  | [] => ""
  | s :: rest => s ++ joinStr rest

/-- Python `sep.join`. -/
def pyJoin (sep : String) : List String → String
  | [] => ""
  | [a] => a
  | a :: b :: rest => a ++ sep ++ pyJoin sep (b :: rest)

/-- Python `s.startswith(p)`. -/
def startsWithStr (p s : String) : Bool := p.data.isPrefixOf s.data

/-- Python `p in s` for a single-character `p`. -/
def containsChar (s : String) (c : Char) : Bool := s.data.contains c

/-- One scanning pass of Python `str.replace`, with fuel (the initial fuel is
the string length, which bounds the number of scanning steps).  Never invoked
with an empty pattern (the source guards every call with `if sep:`). -/
def pyReplaceGo (pat rep : List Char) : Nat → List Char → List Char
  | _, [] => []
  | 0, l => l
  | f + 1, c :: rest =>
    if pat.isPrefixOf (c :: rest) ∧ pat ≠ [] then
      rep ++ pyReplaceGo pat rep f (List.drop (pat.length - 1) rest)
    else c :: pyReplaceGo pat rep f rest

/-- Python `s.replace(pat, rep)`: every non-overlapping occurrence, leftmost
first. -/
def pyReplace (s pat rep : String) : String :=
  ⟨pyReplaceGo pat.data rep.data s.data.length s.data⟩

/-- Python `str.lower()` restricted to ASCII (the recognized function names
and the characters compared against below are ASCII). -/
def asciiLower (s : String) : String := ⟨s.data.map Char.toLower⟩

/-- `matrix.rstrip(r'\\')`: remove every trailing backslash character. -/
def rstripBackslash (s : String) : String :=
  ⟨(s.data.reverse.dropWhile (fun c => c = '\\')).reverse⟩

/-- The character class of the `mtext` rule: ASCII alphanumerics and the
punctuation `+ - / * = ^ _ ( ) [ ] and both braces`. -/
def mtextAllowed (c : Char) : Bool :=
  isAsciiLetter c || (0x30 ≤ c.toNat && c.toNat ≤ 0x39) ||
    c ∈ (['+', '-', '/', '*', '=', '^', '_', '(', ')', '[', ']', '\x7b', '\x7d'] : List Char)

/-! ### Operator maps (lines 16–29 of the source) -/

def op_map : List (String × String) :=
  [("plus", "+"), ("minus", "-"), ("times", "\\times"), ("divide", "\\div"),
   ("power", "^"), ("root", "sqrt"), ("eq", "="), ("neq", "\\neq"),
   ("gt", ">"), ("lt", "<"), ("geq", "\\ge"), ("leq", "\\le")]

def mo_map : List (String × String) :=
  [("+", "+"), ("-", "-"), ("*", "\\cdot"), ("/", "/"), ("^", "^"), ("_", "_"),
   ("(", "("), (")", ")"), ("[", "["), ("]", "]"), ("\x7b", ""), ("\x7d", ""),
   ("×", "\\times"), ("÷", "\\div"), ("≠", "\\neq"), ("≤", "\\le"),
   ("≥", "\\ge"), ("±", "\\pm"), ("·", "\\cdot"), ("∞", "\\infty"),
   ("∑", "\\sum"), ("∏", "\\prod"), ("−", "-"), ("~", "\\sim"), ("ˆ", "\\hat")]

/-! ### The element transducer

`mathml_to_latex_element` is embedded as a fuel-indexed function; `none`
models an uncaught Python exception (`IndexError` of `children[i]` /
`args_l[i]` / `row_texts[0]` / `cols`-indexing, or the `ValueError` of
unpacking an empty `apply`).  The fuel only forces termination; with fuel
`sizeOf e` it never runs out (`mathml_fuel_adequate` below). -/

/-- Evaluate a Python list comprehension of fallible conversions: the result
list, or `none` if any element raises. -/
def omapM {α β : Type} (f : α → Option β) : List α → Option (List β)
  | [] => some []
  | a :: l =>
    match f a with
    | none => none
    | some b =>
      match omapM f l with
      | none => none
      | some bs => some (b :: bs)

/-- All strict descendants of `e` in document order (preorder) — the node set
an ElementTree `'.//'` path matches.  Fuel-indexed; complete once
`sizeOf e ≤ fuel + 1`. -/
def descFuel : Nat → Element → List Element
  | 0, _ => []
  | f + 1, e => e.children.flatMap (fun c => c :: descFuel f c)

/-- `elem.findall('.//mtr')`-style lookup: descendants with the given raw
tag, document order.  (ElementTree path matching uses the raw tag, unlike the
namespace-stripping `get_tag` dispatch.) -/
def findallDesc (desc : Element → List Element) (tagName : String) (e : Element) :
    List Element :=
  (desc e).filter (fun d => d.tag = tagName)

/-- The brace-group `mrow` pattern guard (lines 41–48): ≥ 3 children, first
child an `mo` with stripped text `'{'`, last an `mo` with stripped text
`'}'`. -/
def braceGroupTest (e : Element) : Bool :=
  3 ≤ e.children.length &&
  (match e.children.head? with
   | some f => get_tag f = "mo" && pyStrip f.text = "\x7b"
   | none => false) &&
  (match e.children.getLast? with
   | some l => get_tag l = "mo" && pyStrip l.text = "\x7d"
   | none => false)

/-- The determinant `mrow` pattern guard (lines 52–55): ≥ 4 children, first
and last `mo` with stripped text `'|'`, all middle children `mtable`. -/
def detTest (e : Element) : Bool :=
  4 ≤ e.children.length &&
  (match e.children.head? with
   | some f => get_tag f = "mo" && pyStrip f.text = "|"
   | none => false) &&
  (match e.children.getLast? with
   | some l => get_tag l = "mo" && pyStrip l.text = "|"
   | none => false) &&
  ((e.children.drop 1).dropLast.all (fun m => get_tag m = "mtable"))

/-- `elem[1:-1]`. -/
def middleChildren (e : Element) : List Element := (e.children.drop 1).dropLast

/-- Cell selection of the determinant branch (lines 66–67):
`row.find('mrow')` (a direct child) if present, else the row itself. -/
def detCell (row : Element) : Element :=
  match row.children.find? (fun m => m.tag = "mrow") with
  | some m => m
  | none => row

/-- Per-column cell fragments of the determinant branch (lines 61–68). -/
def detCols (conv : Element → Option String) (mtables : List Element) :
    Option (List (List String)) :=
  omapM (fun mt =>
    omapM (fun row => conv (detCell row)) (mt.children.filter (fun r => r.tag = "mtr")))
    mtables

/-- Rows of the determinant: row `i` takes the `i`-th cell of every column
(`col[i] for col in cols`), raising (`none`) when a column is shorter than
`cols[0]` (lines 70–72). -/
def detRows (cols : List (List String)) (n : Nat) : Option (List (List String)) :=
  omapM (fun i => omapM (fun col => col[i]?) cols) (List.range n)

/-- The `^`-merging scan of the generic `mrow` rule (lines 82–92): while at
least three fragments remain and the middle one is `'^'`, merge the triple
and advance three positions, else emit one fragment and advance one. -/
def mergePow : List String → String
  | [] => ""
  | [a] => a
  | [a, b] => a ++ b
  | a :: b :: c :: rest2 =>
    if b = "^" then a ++ "^\x7b" ++ c ++ "\x7d" ++ mergePow rest2
    else a ++ mergePow (b :: c :: rest2)

/-- Cell fragments of one `mfenced` table row (lines 180–183):
`row.findall('.//mtd') or list(row)`, each converted, joined by `' & '`. -/
def mfencedRow (conv : Element → Option String) (desc : Element → List Element)
    (row : Element) : Option String :=
  let cells := findallDesc desc "mtd" row
  let cells := if cells.isEmpty then row.children else cells
  (omapM conv cells).map (pyJoin " & ")

/-- Cell selection of the `mtable` branch (lines 222–223):
`row.find('.//mrow') or row` — an ElementTree element is falsy when it has no
children, so a found but childless `mrow` falls back to the row itself. -/
def mtableCell (desc : Element → List Element) (row : Element) : Element :=
  match (desc row).find? (fun d => d.tag = "mrow") with
  | some m => if m.children.isEmpty then row else m
  | none => row

/-- The transducer body, parameterized over the recursive converter `conv`
and the descendant enumerator `desc` (both supplied with one fuel step less
by `mathml_fuel`). -/
def mathml_body (conv : Element → Option String) (desc : Element → List Element)
    (e : Element) : Option String :=
  let tag := get_tag e
  match omapM conv e.children with
  | none => none
  | some children =>
    let text := convert_persian_digits (pyStrip e.text)
    if text = "" ∧ children = [] then some "" else
    if tag = "math" ∨ tag = "mstyle" then some (joinStr children) else
    if tag = "mrow" then
      if braceGroupTest e then
        some ("\\left\\\x7b" ++ joinStr ((children.drop 1).dropLast) ++ "\\right\\\x7d")
      else if detTest e then
        -- line 58 (`num_rows = max(...)`) is computed but never used and can
        -- raise nothing here (the middle children are a nonempty list); omitted.
        match detCols conv (middleChildren e) with
        | none => none
        | some cols =>
          match cols.head? with
          | none => none  -- `cols[0]`: unreachable, `detTest` forces ≥ 2 columns
          | some col0 =>
            match detRows cols col0.length with
            | none => none
            | some rows =>
              let matrix := joinStr (rows.map (fun cells => pyJoin " & " cells ++ " \\\\"))
              some ("\\left|\\begin\x7bmatrix\x7d" ++ rstripBackslash matrix
                ++ "\\end\x7bmatrix\x7d\\right|")
      else
        match children with
        | [c] => some c
        | [] => some ""
        | c1 :: c2 :: rest =>
          if rest = [] then
            if c1 = "-" then some ("-" ++ c2) else some (c1 ++ c2)
          else some (mergePow (c1 :: c2 :: rest))
    else
    if tag = "mi" then
      if text = "~" then some "\\sim"
      else if asciiLower text ∈ (["sin", "cos", "tan", "cot", "sec", "csc", "log", "ln"] : List String) then
        some ("\\" ++ asciiLower text)
      else if 1 < text.length then some ("\\mathrm\x7b" ++ text ++ "\x7d")
      else some text
    else
    if tag = "mn" then some text else
    if tag = "mo" then
      let op := ((mo_map).lookup text).getD text
      if startsWithStr "\\" op then some (op ++ "\x7b\x7d") else some op
    else
    if tag = "msup" then
      match children with
      | a :: b :: _ => some (a ++ "^\x7b" ++ b ++ "\x7d")
      | _ => none
    else
    if tag = "msub" then
      match children with
      | a :: b :: _ => some (a ++ "_\x7b" ++ b ++ "\x7d")
      | _ => none
    else
    if tag = "msubsup" then
      match children with
      | a :: b :: c :: _ => some (a ++ "_\x7b" ++ b ++ "\x7d^\x7b" ++ c ++ "\x7d")
      | _ => none
    else
    if tag = "mmultiscripts" then
      match children with
      | [] => none
      | base :: rest =>
        some (base ++
          (match rest with
           | s :: rest2 =>
             "_\x7b" ++ s ++ "\x7d" ++
               (match rest2 with
                | p :: _ => "^\x7b" ++ p ++ "\x7d"
                | [] => "")
           | [] => ""))
    else
    if tag = "apply" then
      match e.children with
      | [] => none  -- `op_elem, *args = list(elem)` raises ValueError
      | opE :: _ =>
        let opTag := get_tag opE
        let op := ((op_map).lookup opTag).getD ""
        -- `args_l = [mathml_to_latex_element(a) for a in args]` recomputes the
        -- conversions already held in `children[1:]`; the recomputation is
        -- deterministic, so the values coincide with `children.drop 1`.
        let argsL := children.drop 1
        (if op = "^" then
            match argsL with
            | a :: b :: _ => some (a ++ "^\x7b" ++ b ++ "\x7d")
            | _ => none
          else if op = "sqrt" then
            if opTag = "root" then
              match argsL with
              | a :: b :: _ => some ("\\sqrt[" ++ b ++ "]\x7b" ++ a ++ "\x7d")
              | _ => none
            else
              match argsL with
              | a :: _ => some ("\\sqrt\x7b" ++ a ++ "\x7d")
              | _ => none
          else some (pyJoin (" " ++ op ++ " ") argsL))
    else
    if tag = "mfrac" then
      match children with
      | a :: b :: _ => some ("\\frac\x7b" ++ a ++ "\x7d\x7b" ++ b ++ "\x7d")
      | _ => none
    else
    if tag = "msqrt" then
      match children with
      | a :: _ => some ("\\sqrt\x7b" ++ a ++ "\x7d")
      | _ => none
    else
    if tag = "mroot" then
      match children with
      | a :: b :: _ => some ("\\sqrt[" ++ b ++ "]\x7b" ++ a ++ "\x7d")
      | _ => none
    else
    if tag = "mover" then
      match children with
      | c0 :: c1 :: _ =>
        if pyStrip c1 ∈ (["\\hat", "^", "ˆ"] : List String) then
          some ("\\hat\x7b" ++ c0 ++ "\x7d")
        else if c0 = "\\rightarrow" then
          some ("\\overset\x7b" ++ c1 ++ "\x7d\x7b\\rightarrow\x7d")
        else some ("\\overset\x7b" ++ c1 ++ "\x7d\x7b" ++ c0 ++ "\x7d")
      | _ => none
    else
    if tag = "munder" then
      match children with
      | c0 :: c1 :: _ => some ("\\underset\x7b" ++ c1 ++ "\x7d\x7b" ++ c0 ++ "\x7d")
      | _ => none
    else
    if tag = "munderover" then
      match children with
      | base :: under :: over :: _ =>
        if under = "" ∧ over = "" then some base
        else if over = "" then some ("\\underset\x7b" ++ under ++ "\x7d\x7b" ++ base ++ "\x7d")
        else if under = "" then some ("\\overset\x7b" ++ over ++ "\x7d\x7b" ++ base ++ "\x7d")
        else some ("\\underset\x7b" ++ under ++ "\x7d\x7b\\overset\x7b" ++ over ++ "\x7d\x7b"
          ++ base ++ "\x7d\x7d")
      | _ => none
    else
    if tag = "mfenced" then
      let openf := attrGet e "open" "("
      let closef := attrGet e "close" ")"
      let sep := attrGet e "sep" ", "
      let inner := joinStr children
      if startsWithStr "<mtable" inner then
        match omapM (mfencedRow conv desc) (findallDesc desc "mtr" e) with
        | none => none
        | some rowTexts =>
          let matrixBody := pyJoin " \\\\ " rowTexts
          -- `env_dict.get((openf, closef), 'matrix')`: the dict keys are the
          -- single strings '(', '[', '|', '||', '<', '{' but the lookup key is
          -- the *tuple* `(openf, closef)`, which never equals a string, so the
          -- default 'matrix' is always returned.
          some ("\\begin\x7bmatrix\x7d" ++ matrixBody ++ "\\end\x7bmatrix\x7d")
      else if openf ++ closef = "||" then
        some ("\\begin\x7bbmatrix\x7d" ++ inner ++ "\\end\x7bbmatrix\x7d")
      else if openf = "(" ∧ closef = ")" then
        let inner := if sep ≠ "" then pyReplace inner sep " & " else inner
        some ("\\begin\x7bpmatrix\x7d" ++ inner ++ "\\end\x7bpmatrix\x7d")
      else if openf = "[" ∧ closef = "]" then
        let inner := if sep ≠ "" then pyReplace inner sep " & " else inner
        some ("\\begin\x7bbmatrix\x7d" ++ inner ++ "\\end\x7bbmatrix\x7d")
      else if openf = "|" ∧ closef = "|" then
        let inner := if sep ≠ "" then pyReplace inner sep " & " else inner
        some ("\\begin\x7bVmatrix\x7d" ++ inner ++ "\\end\x7bVmatrix\x7d")
      else some (openf ++ inner ++ closef)
    else
    if tag = "mtable" then
      match omapM (fun row => conv (mtableCell desc row))
          (e.children.filter (fun r => r.tag = "mtr")) with
      | none => none
      | some rowTexts =>
        if rowTexts.any (fun r => containsChar r '⇒' || containsChar r '=') then
          some ("\\begin\x7bcases\x7d" ++ pyJoin " \\\\" rowTexts ++ "\\end\x7bcases\x7d")
        else if 1 < rowTexts.length then
          some ("\\begin\x7bmatrix\x7d" ++ pyJoin " \\\\" rowTexts ++ "\\end\x7bmatrix\x7d")
        else
          match rowTexts with
          | r :: _ => some r
          | [] => none  -- `row_texts[0]` raises IndexError
    else
    if tag = "mtext" then
      let content := convert_persian_digits (if text = "" then joinStr children else text)
      if content ≠ "" ∧ content.data.all mtextAllowed then some content
      else some ("\\text\x7b" ++ content ++ "\x7d")
    else some (text ++ joinStr children)

def mathml_fuel : Nat → Element → Option String
  | 0, _ => none
  | fuel + 1, e => mathml_body (mathml_fuel fuel) (descFuel fuel) e

mutual
/-- Node count of an element tree; the fuel `mathml_to_latex_element` runs
the body with (the derived `SizeOf` of the nested inductive has no
executable code). -/
def esize : Element → Nat
  | .mk _ _ _ cs => 1 + esizeL cs
/-- Node count of a forest. -/
def esizeL : List Element → Nat
  | [] => 0
  | c :: t => esize c + esizeL t
end

/-- All strict descendants of `e`, document order (`'.//'`). -/
def descendants (e : Element) : List Element := descFuel (esize e) e

/-- The tag-directed element transducer `mathml_to_latex_element`. -/
def mathml_to_latex_element (e : Element) : Option String :=
  mathml_fuel (esize e) e

/-! ### The repair and identifier passes -/


def isWL (c : Char) : Bool := isPySpace c || isAsciiLetter c


/-- `fix_broken_commands`: the span a match of `\\(?:\s*[a-zA-Z]+\s*)\x7b2,\x7d`
covers after the backslash is the maximal run of whitespace-or-letters, and it
matches exactly when that run holds at least two letters; the replacement
deletes the whitespace of the span. -/
def normRun (run : List Char) : List Char :=
  let letters := run.filter isAsciiLetter
  if 2 ≤ letters.length then letters else run


def f1go : Nat → List Char → List Char
  | _, [] => []
  | 0, l => l
  | fuel + 1, c :: rest =>
    if c = '\\' then
      '\\' :: (normRun (rest.takeWhile isWL) ++ f1go fuel (rest.dropWhile isWL))
    else c :: f1go fuel rest


def f1 (l : List Char) : List Char := f1go l.length l


def f2go : Nat → List Char → List Char
  | _, [] => []
  | 0, l => l
  | fuel + 1, c :: rest =>
    if c = '\\' ∧ ['s', 'i', 'm'].isPrefixOf rest then
      c :: 's' :: 'i' :: 'm' ::
        (match rest.drop 3 with
         | d :: rest2 =>
           if isAsciiLetter d then ' ' :: d :: f2go fuel rest2
           else f2go fuel (d :: rest2)
         | [] => [])
    else if c = '\\' ∧ ['n', 'e', 'g'].isPrefixOf rest then
      c :: 'n' :: 'e' :: 'g' ::
        (match rest.drop 3 with
         | d :: rest2 =>
           if isAsciiLetter d then ' ' :: d :: f2go fuel rest2
           else f2go fuel (d :: rest2)
         | [] => [])
    else c :: f2go fuel rest


def f2 (l : List Char) : List Char := f2go l.length l


def arrowWords : List (List Char) :=
  [['R','i','g','h','t','a','r','r','o','w'],
   ['r','i','g','h','t','a','r','r','o','w'],
   ['L','e','f','t','a','r','r','o','w'],
   ['l','e','f','t','r','i','g','h','t','a','r','r','o','w']]


def f3go : Nat → List Char → List Char
  | _, [] => []
  | 0, l => l
  | fuel + 1, c :: rest =>
    if c = '\\' then
      match arrowWords.find? (fun a => a.isPrefixOf rest) with
      | some a => ' ' :: '\\' :: (a ++ ' ' :: f3go fuel (rest.drop a.length))
      | none => '\\' :: f3go fuel rest
    else c :: f3go fuel rest


def f3 (l : List Char) : List Char := f3go l.length l


def f4go : Nat → List Char → List Char
  | _, [] => []
  | 0, l => l
  | _ + 1, [c] => [c]
  | fuel + 1, c1 :: c2 :: rest =>
    if isPySpace c1 ∧ isPySpace c2 then
      ' ' :: f4go fuel ((c2 :: rest).dropWhile isPySpace)
    else c1 :: f4go fuel (c2 :: rest)


def f4 (l : List Char) : List Char := f4go l.length l


def beautify_latex (s : String) : String :=
  ⟨pyStripL (f4 (f3 (f2 (f1 s.data))))⟩


/-- One fold step of `normalize_identifiers`: `re.sub(rf'\b\x7bfn\x7d([a-zA-Z])\b', ...)`
with `prevW` tracking whether the previous original character is a word
character (the `\b` assertion). -/
def subFnLetterGo (fn : List Char) : Bool → Nat → List Char → List Char
  | _, _, [] => []
  | _, 0, l => l
  | prevW, fuel + 1, c :: rest =>
    if ¬prevW ∧ fn.isPrefixOf (c :: rest) then
      match (c :: rest).drop fn.length with
      | d :: rest2 =>
        if isAsciiLetter d ∧ (rest2.head?.all (fun x => ¬isWordChar x)) then
          '\\' :: (fn ++ ' ' :: d :: subFnLetterGo fn true fuel rest2)
        else c :: subFnLetterGo fn (isWordChar c) fuel rest
      | [] => c :: subFnLetterGo fn (isWordChar c) fuel rest
    else c :: subFnLetterGo fn (isWordChar c) fuel rest


def subFnLetter (fn : List Char) (l : List Char) : List Char :=
  subFnLetterGo fn false l.length l


/-- `re.sub(rf'\b\x7bfn\x7d\s*\(', rf'\\\x7bfn\x7d(', text)`. -/
def subFnParenGo (fn : List Char) : Bool → Nat → List Char → List Char
  | _, _, [] => []
  | _, 0, l => l
  | prevW, fuel + 1, c :: rest =>
    if ¬prevW ∧ fn.isPrefixOf (c :: rest) ∧
        (((c :: rest).drop fn.length).dropWhile isPySpace).head? = some '(' then
      '\\' :: (fn ++ '(' ::
        subFnParenGo fn false fuel ((((c :: rest).drop fn.length).dropWhile isPySpace).tail))
    else c :: subFnParenGo fn (isWordChar c) fuel rest


def subFnParen (fn : List Char) (l : List Char) : List Char :=
  subFnParenGo fn false l.length l


def function_patterns : List (List Char) :=
  [['c','o','s'], ['s','i','n'], ['t','a','n'], ['c','o','t'],
   ['s','e','c'], ['c','s','c'], ['l','o','g'], ['l','n']]


def normalize_identifiers (s : String) : String :=
  ⟨function_patterns.foldl (fun t fn => subFnParen fn (subFnLetter fn t)) s.data⟩


-- ### rdrop toolkit

/-- `rdrop`: remove all trailing whitespace. -/
def rdrop (l : List Char) : List Char := (l.reverse.dropWhile isPySpace).reverse


-- ### normRun lemmas

def countL (R : List Char) : Nat := (R.filter isAsciiLetter).length


def lastOk (X : List Char) : Prop := ∀ c, X.getLast? = some c → isPySpace c = false


-- ### the merge-resplit state machine j

/-- Does an arrow command name start here? -/
def arrowAdjL (l : List Char) : Bool :=
  (arrowWords.find? (fun a => a.isPrefixOf l)).isSome


/-- Protection: at least two letters seen in the chunk opened by the last
backslash. -/
def protSt : Option Nat → Bool
  | some n => 2 ≤ n
  | none => false


def stepSt (st : Option Nat) (c : Char) : Option Nat :=
  if isWL c then
    match st with
    | some n => some (if isAsciiLetter c then n + 1 else n)
    | none => none
  else none


def jgo : Option Nat → List Char → List Char
  | _, [] => []
  | st, c :: rest =>
    if c = '\\' then
      (if arrowAdjL rest && !protSt st then ' ' :: '\\' :: jgo (some 0) rest
       else '\\' :: jgo (some 0) rest)
    else c :: jgo (stepSt st c) rest


def j (l : List Char) : List Char := jgo none l


-- ### chunk discipline P12

/-- A post-backslash run is benign: the repair pass leaves it unchanged, or it
opens with a letter no arrow word starts with. -/
def goodRun (run : List Char) : Prop :=
  normRun run = run ∨ run.head? = some 's' ∨ run.head? = some 'n'


def P12go : Nat → List Char → Prop
  | _, [] => True
  | 0, _ => True
  | fuel + 1, c :: w =>
    if c = '\\' then goodRun (w.takeWhile isWL) ∧ P12go fuel (w.dropWhile isWL)
    else P12go fuel w


def P12 (w : List Char) : Prop := P12go w.length w

/-- The tags whose rules read a fixed number of child fragments by index
(lines 118-127 and 144-170 of the source): the script, fraction, root and
over/under rules. -/
def fixed_arity_tags : List String :=
  ["msup", "msub", "msubsup", "mmultiscripts", "mfrac", "msqrt", "mroot",
   "mover", "munder", "munderover"]

/-- How many children each fixed-arity rule reads: `msubsup` and `munderover`
access `children[2]`, `mmultiscripts` and `msqrt` only `children[0]`, and the
remaining six rules access `children[1]`. -/
def arityOf (tag : String) : Nat :=
  if tag = "msubsup" ∨ tag = "munderover" then 3
  else if tag = "mmultiscripts" ∨ tag = "msqrt" then 1
  else 2

/-! ### Size and fuel adequacy -/

lemma esize_mk (t : String) (a : List (String × String)) (x : String) (cs : List Element) :
    esize (.mk t a x cs) = 1 + esizeL cs := by
  rw [esize]

lemma esize_pos (e : Element) : 1 ≤ esize e := by
  cases e with
  | mk t a x cs => rw [esize_mk]; omega

lemma esizeL_cons (c : Element) (t : List Element) :
    esizeL (c :: t) = esize c + esizeL t := by
  rw [esizeL]

lemma esize_le_of_mem {c : Element} {l : List Element} (h : c ∈ l) : esize c ≤ esizeL l := by
  induction l with
  | nil => cases h
  | cons a t ih =>
    rw [esizeL_cons]
    rcases List.mem_cons.mp h with rfl | h2
    · omega
    · have := ih h2; omega

lemma esize_child_lt {c : Element} {e : Element} (h : c ∈ e.children) :
    esize c < esize e := by
  cases e with
  | mk t a x cs =>
    rw [esize_mk]
    have := esize_le_of_mem (l := cs) h
    omega

lemma esize_detCell_le (row : Element) : esize (detCell row) ≤ esize row := by
  unfold detCell
  cases hf : row.children.find? (fun m => m.tag = "mrow") with
  | none => exact le_refl _
  | some m =>
    have hm : m ∈ row.children := List.mem_of_find?_eq_some hf
    exact le_of_lt (esize_child_lt hm)

lemma flatMap_congr {α β : Type} {l : List α} {f g : α → List β}
    (h : ∀ a ∈ l, f a = g a) : l.flatMap f = l.flatMap g := by
  induction l with
  | nil => rfl
  | cons a t ih =>
    simp only [List.flatMap_cons]
    rw [h a (List.mem_cons_self a t), ih fun b hb => h b (List.mem_cons_of_mem a hb)]

lemma mem_descFuel_lt {d e : Element} : ∀ {f : Nat}, d ∈ descFuel f e → esize d < esize e := by
  intro f
  induction f generalizing d e with
  | zero => intro h; simp [descFuel] at h
  | succ f ih =>
    intro h
    rw [descFuel] at h
    rcases List.mem_flatMap.mp h with ⟨c, hc, hd⟩
    rcases List.mem_cons.mp hd with rfl | hd2
    · exact esize_child_lt hc
    · exact lt_trans (ih hd2) (esize_child_lt hc)

lemma descFuel_adequate : ∀ {f g : Nat} (e : Element), esize e ≤ f + 1 → esize e ≤ g + 1 →
    descFuel f e = descFuel g e := by
  intro f
  induction f using Nat.strong_induction_on with
  | _ f ihf =>
    intro g e hf hg
    match f, g with
    | 0, 0 => rfl
    | 0, g + 1 =>
      cases e with
      | mk t a x cs =>
        rw [esize_mk] at hf
        have : esizeL cs = 0 := by omega
        have hcs : cs = [] := by
          cases cs with
          | nil => rfl
          | cons c t2 =>
            rw [esizeL_cons] at this
            have := esize_pos c
            omega
        subst hcs
        simp [descFuel, Element.children]
    | f + 1, 0 =>
      cases e with
      | mk t a x cs =>
        rw [esize_mk] at hg
        have : esizeL cs = 0 := by omega
        have hcs : cs = [] := by
          cases cs with
          | nil => rfl
          | cons c t2 =>
            rw [esizeL_cons] at this
            have := esize_pos c
            omega
        subst hcs
        simp [descFuel, Element.children]
    | f + 1, g + 1 =>
      rw [descFuel, descFuel]
      apply flatMap_congr
      intro c hc
      have hlt := esize_child_lt hc
      rw [ihf f (Nat.lt_succ_self f) (g := g) c (by omega) (by omega)]

lemma omapM_congr {α β : Type} {l : List α} {f g : α → Option β}
    (h : ∀ a ∈ l, f a = g a) : omapM f l = omapM g l := by
  induction l with
  | nil => rfl
  | cons a t ih =>
    unfold omapM
    rw [h a (List.mem_cons_self a t), ih fun b hb => h b (List.mem_cons_of_mem a hb)]

lemma detCols_congr {conv1 conv2 : Element → Option String} {mtables : List Element}
    (h : ∀ mt ∈ mtables, ∀ row ∈ mt.children, conv1 (detCell row) = conv2 (detCell row)) :
    detCols conv1 mtables = detCols conv2 mtables := by
  unfold detCols
  refine omapM_congr fun mt hmt => omapM_congr fun row hrow => ?_
  exact h mt hmt row (List.mem_of_mem_filter hrow)

lemma mfencedRow_congr {conv1 conv2 : Element → Option String}
    {desc1 desc2 : Element → List Element} {row : Element}
    (hd : desc1 row = desc2 row)
    (hc : ∀ cell, cell ∈ findallDesc desc2 "mtd" row ∨ cell ∈ row.children →
      conv1 cell = conv2 cell) :
    mfencedRow conv1 desc1 row = mfencedRow conv2 desc2 row := by
  unfold mfencedRow findallDesc
  rw [hd]
  by_cases hemp : ((desc2 row).filter (fun d => d.tag = "mtd")).isEmpty
  · simp only [hemp, if_true]
    exact congrArg _ (omapM_congr fun cell hcell => hc cell (Or.inr hcell))
  · simp only [hemp, if_false]
    exact congrArg _ (omapM_congr fun cell hcell => hc cell (Or.inl hcell))

lemma mtableCell_congr {desc1 desc2 : Element → List Element} {row : Element}
    (hd : desc1 row = desc2 row) : mtableCell desc1 row = mtableCell desc2 row := by
  unfold mtableCell
  rw [hd]

lemma esize_mtableCell_le (desc : Element → List Element) (row : Element)
    (hdsz : ∀ d ∈ desc row, esize d < esize row) :
    esize (mtableCell desc row) ≤ esize row := by
  unfold mtableCell
  cases hf : (desc row).find? (fun d => d.tag = "mrow") with
  | none => exact le_refl _
  | some m =>
    by_cases hemp : m.children.isEmpty
    · simp only [hemp, if_true]
      exact le_refl _
    · simp only [hemp, if_false]
      exact le_of_lt (hdsz m (List.mem_of_find?_eq_some hf))

lemma mathml_body_congr (conv1 conv2 : Element → Option String)
    (desc1 desc2 : Element → List Element) (e : Element)
    (hconv : ∀ x, esize x < esize e → conv1 x = conv2 x)
    (hdesc : ∀ x, esize x ≤ esize e → desc1 x = desc2 x)
    (hdsz : ∀ x d, esize x ≤ esize e → d ∈ desc2 x → esize d < esize x) :
    mathml_body conv1 desc1 e = mathml_body conv2 desc2 e := by
  have hch : omapM conv1 e.children = omapM conv2 e.children :=
    omapM_congr fun c hc => hconv c (esize_child_lt hc)
  have hdet : detCols conv1 (middleChildren e) = detCols conv2 (middleChildren e) := by
    apply detCols_congr
    intro mt hmt row hrow
    have hmt2 : mt ∈ e.children := by
      unfold middleChildren at hmt
      exact List.drop_subset 1 e.children (List.dropLast_subset _ hmt)
    have : esize (detCell row) ≤ esize row := esize_detCell_le row
    have : esize row < esize mt := esize_child_lt hrow
    have : esize mt < esize e := esize_child_lt hmt2
    exact hconv _ (by omega)
  have hrowsEq : findallDesc desc1 "mtr" e = findallDesc desc2 "mtr" e := by
    unfold findallDesc; rw [hdesc e (le_refl _)]
  have hfenced : omapM (mfencedRow conv1 desc1) (findallDesc desc1 "mtr" e)
      = omapM (mfencedRow conv2 desc2) (findallDesc desc2 "mtr" e) := by
    rw [hrowsEq]
    apply omapM_congr
    intro row hrow
    have hrowmem : row ∈ desc2 e := by
      unfold findallDesc at hrow
      exact List.mem_of_mem_filter hrow
    have hrowlt : esize row < esize e := hdsz e row (le_refl _) hrowmem
    apply mfencedRow_congr (hdesc row (le_of_lt hrowlt))
    intro cell hcell
    rcases hcell with hin | hin
    · have : cell ∈ desc2 row := by
        unfold findallDesc at hin
        exact List.mem_of_mem_filter hin
      have : esize cell < esize row := hdsz row cell (le_of_lt hrowlt) this
      exact hconv cell (by omega)
    · have : esize cell < esize row := esize_child_lt hin
      exact hconv cell (by omega)
  have hmtable : omapM (fun row => conv1 (mtableCell desc1 row))
      (e.children.filter (fun r => r.tag = "mtr"))
      = omapM (fun row => conv2 (mtableCell desc2 row))
      (e.children.filter (fun r => r.tag = "mtr")) := by
    apply omapM_congr
    intro row hrow
    have hrowmem : row ∈ e.children := List.mem_of_mem_filter hrow
    have hrowlt : esize row < esize e := esize_child_lt hrowmem
    rw [mtableCell_congr (hdesc row (le_of_lt hrowlt))]
    apply hconv
    have : esize (mtableCell desc2 row) ≤ esize row := by
      apply esize_mtableCell_le
      intro d hd
      exact hdsz row d (le_of_lt hrowlt) hd
    omega
  unfold mathml_body
  rw [hch, hdet, hfenced, hmtable]

lemma mathml_fuel_adequate : ∀ {f g : Nat} (e : Element), esize e ≤ f → esize e ≤ g →
    mathml_fuel f e = mathml_fuel g e := by
  intro f
  induction f using Nat.strong_induction_on with
  | _ f ihf =>
    intro g e hf hg
    match f, g with
    | 0, _ => exact absurd hf (by have := esize_pos e; omega)
    | f + 1, 0 => exact absurd hg (by have := esize_pos e; omega)
    | f + 1, g + 1 =>
      rw [mathml_fuel, mathml_fuel]
      apply mathml_body_congr
      · intro x hx
        exact ihf f (Nat.lt_succ_self f) (g := g) x (by omega) (by omega)
      · intro x hx
        exact descFuel_adequate x (by omega) (by omega)
      · intro x d _ hd
        exact mem_descFuel_lt hd

/-- The recursion equation of the transducer, fuel-free. -/
lemma mathml_fix (e : Element) :
    mathml_to_latex_element e = mathml_body mathml_to_latex_element descendants e := by
  obtain ⟨k, hk⟩ : ∃ k, esize e = k + 1 := ⟨esize e - 1, by have := esize_pos e; omega⟩
  have h0 : mathml_to_latex_element e = mathml_fuel (k + 1) e := by
    rw [show mathml_to_latex_element e = mathml_fuel (esize e) e from rfl, hk]
  rw [h0, mathml_fuel]
  apply mathml_body_congr
  · intro x hx
    rw [show mathml_to_latex_element x = mathml_fuel (esize x) x from rfl]
    exact mathml_fuel_adequate x (by omega) (le_refl _)
  · intro x hx
    rw [show descendants x = descFuel (esize x) x from rfl]
    exact descFuel_adequate x (by omega) (by omega)
  · intro x d _ hd
    rw [show descendants x = descFuel (esize x) x from rfl] at hd
    exact mem_descFuel_lt hd

/-! ### Claim theorems: empty elements, under-supplied scripts, brace operators, singleton rows -/

lemma convert_persian_digits_eq_empty_iff (s : String) :
    convert_persian_digits s = "" ↔ s = "" := by
  cases s with
  | mk data =>
    unfold convert_persian_digits
    constructor
    · intro h
      have h2 : (data.map translateChar) = [] := congrArg String.data h
      have h3 : data = [] := by
        cases data with
        | nil => rfl
        | cons c t => simp at h2
      rw [h3]
    · intro h
      have h2 : data = [] := congrArg String.data h
      rw [h2]
      rfl

/-- C3 (amended): an element whose stripped direct text is empty and which has
no child elements converts to the empty string, whatever its tag. -/
theorem empty_element_converts_to_empty (e : Element)
    (ht : pyStrip e.text = "") (hc : e.children = []) :
    mathml_to_latex_element e = some "" := by
  rw [mathml_fix]
  unfold mathml_body
  rw [hc, ht]
  simp [omapM, convert_persian_digits]

theorem empty_element_witness : mathml_to_latex_element (.mk "msup" [] " " []) = some "" :=
  empty_element_converts_to_empty _ (by decide) rfl

/-- C3 counterexample to the claim as stated: an `msup` whose two children
both convert to the empty fragment (and whose own text is empty) yields
`"^{}"`, not the empty string. -/
theorem empty_children_msup_counterexample :
    mathml_to_latex_element (.mk "mi" [] "" []) = some "" ∧
    mathml_to_latex_element
      (.mk "msup" [] "" [.mk "mi" [] "" [], .mk "mi" [] "" []]) = some "^\x7b\x7d" ∧
    ("^\x7b\x7d" : String) ≠ "" := by
  refine ⟨by decide, by decide, by decide⟩

/-- C4 (amended): an element with a fixed-arity tag (`msup`, `msub`,
`msubsup`, `mmultiscripts`, `mfrac`, `msqrt`, `mroot`, `mover`, `munder`,
`munderover`) that has fewer children than its rule reads raises (an
IndexError from the out-of-range `children[i]`, or a child's own failure),
except in the one case where the element has empty stripped text and no
children at all, which the empty-element early return maps to `""`. -/
theorem fixed_arity_missing_child_raises (e : Element)
    (htag : get_tag e ∈ fixed_arity_tags)
    (hlen : e.children.length < arityOf (get_tag e))
    (hne : ¬(pyStrip e.text = "" ∧ e.children = [])) :
    mathml_to_latex_element e = none := by
  simp only [fixed_arity_tags, List.mem_cons, List.not_mem_nil, or_false] at htag
  rcases htag with h|h|h|h|h|h|h|h|h|h
  · rw [h] at hlen
    rw [show arityOf "msup" = 2 from rfl] at hlen
    rw [mathml_fix]
    unfold mathml_body
    rw [h]
    cases hch : e.children with
    | nil =>
      have htx : ¬ pyStrip e.text = "" := fun hx => hne ⟨hx, hch⟩
      simp [omapM, convert_persian_digits_eq_empty_iff, htx]
    | cons c t =>
      cases t with
      | nil =>
        cases hcc : mathml_to_latex_element c with
        | none => simp [omapM, hcc]
        | some v => simp [omapM, hcc]
      | cons d u =>
        exfalso
        rw [hch] at hlen
        simp only [List.length_cons] at hlen
        omega
  · rw [h] at hlen
    rw [show arityOf "msub" = 2 from rfl] at hlen
    rw [mathml_fix]
    unfold mathml_body
    rw [h]
    cases hch : e.children with
    | nil =>
      have htx : ¬ pyStrip e.text = "" := fun hx => hne ⟨hx, hch⟩
      simp [omapM, convert_persian_digits_eq_empty_iff, htx]
    | cons c t =>
      cases t with
      | nil =>
        cases hcc : mathml_to_latex_element c with
        | none => simp [omapM, hcc]
        | some v => simp [omapM, hcc]
      | cons d u =>
        exfalso
        rw [hch] at hlen
        simp only [List.length_cons] at hlen
        omega
  · rw [h] at hlen
    rw [show arityOf "msubsup" = 3 from rfl] at hlen
    rw [mathml_fix]
    unfold mathml_body
    rw [h]
    cases hch : e.children with
    | nil =>
      have htx : ¬ pyStrip e.text = "" := fun hx => hne ⟨hx, hch⟩
      simp [omapM, convert_persian_digits_eq_empty_iff, htx]
    | cons c t =>
      cases t with
      | nil =>
        cases hcc : mathml_to_latex_element c with
        | none => simp [omapM, hcc]
        | some v => simp [omapM, hcc]
      | cons d u =>
        have hu : u = [] := by
          rw [hch] at hlen
          simp only [List.length_cons] at hlen
          exact List.length_eq_zero.mp (by omega)
        subst hu
        cases hcc : mathml_to_latex_element c with
        | none => simp [omapM, hcc]
        | some v =>
          cases hcd : mathml_to_latex_element d with
          | none => simp [omapM, hcc, hcd]
          | some w => simp [omapM, hcc, hcd]
  · rw [h] at hlen
    rw [show arityOf "mmultiscripts" = 1 from rfl] at hlen
    rw [mathml_fix]
    unfold mathml_body
    rw [h]
    cases hch : e.children with
    | nil =>
      have htx : ¬ pyStrip e.text = "" := fun hx => hne ⟨hx, hch⟩
      simp [omapM, convert_persian_digits_eq_empty_iff, htx]
    | cons c t =>
      exfalso
      rw [hch] at hlen
      simp only [List.length_cons] at hlen
      omega
  · rw [h] at hlen
    rw [show arityOf "mfrac" = 2 from rfl] at hlen
    rw [mathml_fix]
    unfold mathml_body
    rw [h]
    cases hch : e.children with
    | nil =>
      have htx : ¬ pyStrip e.text = "" := fun hx => hne ⟨hx, hch⟩
      simp [omapM, convert_persian_digits_eq_empty_iff, htx]
    | cons c t =>
      cases t with
      | nil =>
        cases hcc : mathml_to_latex_element c with
        | none => simp [omapM, hcc]
        | some v => simp [omapM, hcc]
      | cons d u =>
        exfalso
        rw [hch] at hlen
        simp only [List.length_cons] at hlen
        omega
  · rw [h] at hlen
    rw [show arityOf "msqrt" = 1 from rfl] at hlen
    rw [mathml_fix]
    unfold mathml_body
    rw [h]
    cases hch : e.children with
    | nil =>
      have htx : ¬ pyStrip e.text = "" := fun hx => hne ⟨hx, hch⟩
      simp [omapM, convert_persian_digits_eq_empty_iff, htx]
    | cons c t =>
      exfalso
      rw [hch] at hlen
      simp only [List.length_cons] at hlen
      omega
  · rw [h] at hlen
    rw [show arityOf "mroot" = 2 from rfl] at hlen
    rw [mathml_fix]
    unfold mathml_body
    rw [h]
    cases hch : e.children with
    | nil =>
      have htx : ¬ pyStrip e.text = "" := fun hx => hne ⟨hx, hch⟩
      simp [omapM, convert_persian_digits_eq_empty_iff, htx]
    | cons c t =>
      cases t with
      | nil =>
        cases hcc : mathml_to_latex_element c with
        | none => simp [omapM, hcc]
        | some v => simp [omapM, hcc]
      | cons d u =>
        exfalso
        rw [hch] at hlen
        simp only [List.length_cons] at hlen
        omega
  · rw [h] at hlen
    rw [show arityOf "mover" = 2 from rfl] at hlen
    rw [mathml_fix]
    unfold mathml_body
    rw [h]
    cases hch : e.children with
    | nil =>
      have htx : ¬ pyStrip e.text = "" := fun hx => hne ⟨hx, hch⟩
      simp [omapM, convert_persian_digits_eq_empty_iff, htx]
    | cons c t =>
      cases t with
      | nil =>
        cases hcc : mathml_to_latex_element c with
        | none => simp [omapM, hcc]
        | some v => simp [omapM, hcc]
      | cons d u =>
        exfalso
        rw [hch] at hlen
        simp only [List.length_cons] at hlen
        omega
  · rw [h] at hlen
    rw [show arityOf "munder" = 2 from rfl] at hlen
    rw [mathml_fix]
    unfold mathml_body
    rw [h]
    cases hch : e.children with
    | nil =>
      have htx : ¬ pyStrip e.text = "" := fun hx => hne ⟨hx, hch⟩
      simp [omapM, convert_persian_digits_eq_empty_iff, htx]
    | cons c t =>
      cases t with
      | nil =>
        cases hcc : mathml_to_latex_element c with
        | none => simp [omapM, hcc]
        | some v => simp [omapM, hcc]
      | cons d u =>
        exfalso
        rw [hch] at hlen
        simp only [List.length_cons] at hlen
        omega
  · rw [h] at hlen
    rw [show arityOf "munderover" = 3 from rfl] at hlen
    rw [mathml_fix]
    unfold mathml_body
    rw [h]
    cases hch : e.children with
    | nil =>
      have htx : ¬ pyStrip e.text = "" := fun hx => hne ⟨hx, hch⟩
      simp [omapM, convert_persian_digits_eq_empty_iff, htx]
    | cons c t =>
      cases t with
      | nil =>
        cases hcc : mathml_to_latex_element c with
        | none => simp [omapM, hcc]
        | some v => simp [omapM, hcc]
      | cons d u =>
        have hu : u = [] := by
          rw [hch] at hlen
          simp only [List.length_cons] at hlen
          exact List.length_eq_zero.mp (by omega)
        subst hu
        cases hcc : mathml_to_latex_element c with
        | none => simp [omapM, hcc]
        | some v =>
          cases hcd : mathml_to_latex_element d with
          | none => simp [omapM, hcc, hcd]
          | some w => simp [omapM, hcc, hcd]

theorem fixed_arity_missing_child_witness :
    mathml_to_latex_element
      (.mk "munderover" [] "" [.mk "mn" [] "1" [], .mk "mn" [] "2" []]) = none :=
  fixed_arity_missing_child_raises _ (by decide) (by decide)
    (fun h => by simp [Element.children] at h)

/-- C4 counterexample to the claim as stated: `<msup></msup>` (no children,
empty text) is an under-supplied fixed-arity element, yet the transducer
returns `""` instead of raising. -/
theorem msup_empty_no_raise_counterexample :
    mathml_to_latex_element (.mk "msup" [] "" []) = some "" := by decide

/-- C10: an `mo` element (no children) whose stripped text is `'{'` or `'}'`
converts to the empty string: the glyph map sends both braces to the empty
token, which does not start with a backslash. -/
theorem mo_brace_empty (attrs : List (String × String)) (txt : String)
    (h : pyStrip txt = "\x7b" ∨ pyStrip txt = "\x7d") :
    mathml_to_latex_element (.mk "mo" attrs txt []) = some "" := by
  rw [mathml_fix]
  unfold mathml_body
  rcases h with h | h
  · have h1 : convert_persian_digits "\x7b" = "\x7b" := by decide
    have h2 : List.lookup "\x7b" mo_map = some "" := by decide
    have h3 : startsWithStr "\\" "" = false := by decide
    have h4 : ¬ ("\x7b" : String) = "" := by decide
    simp [omapM, Element.text, Element.children, h, h1, h2, h3, h4,
      show get_tag (Element.mk "mo" attrs txt []) = "mo" from rfl]
  · have h1 : convert_persian_digits "\x7d" = "\x7d" := by decide
    have h2 : List.lookup "\x7d" mo_map = some "" := by decide
    have h3 : startsWithStr "\\" "" = false := by decide
    have h4 : ¬ ("\x7d" : String) = "" := by decide
    simp [omapM, Element.text, Element.children, h, h1, h2, h3, h4,
      show get_tag (Element.mk "mo" attrs txt []) = "mo" from rfl]

theorem mo_brace_empty_witness :
    mathml_to_latex_element (.mk "mo" [] " \x7b " []) = some "" :=
  mo_brace_empty [] " \x7b " (Or.inl (by decide))

/-- C8: an `mrow` with exactly one child elides the row: the output is the
child's fragment unchanged (whenever the child converts at all). -/
theorem mrow_singleton_elision (e c : Element) (f : String)
    (htag : get_tag e = "mrow") (hch : e.children = [c])
    (hc : mathml_to_latex_element c = some f) :
    mathml_to_latex_element e = some f := by
  rw [mathml_fix]
  unfold mathml_body
  rw [htag, hch]
  have hb : braceGroupTest e = false := by
    simp [braceGroupTest, hch]
  have hd : detTest e = false := by
    simp [detTest, hch]
  simp [omapM, hc, hb, hd]

theorem mrow_singleton_elision_witness :
    mathml_to_latex_element (.mk "mrow" [] "" [.mk "mi" [] "zz" []]) =
      some "\\mathrm\x7bzz\x7d" :=
  mrow_singleton_elision _ _ _ (by decide) rfl (by decide)

lemma joinStr_pair (a b : String) : joinStr [a, b] = a ++ b := by
  show a ++ (b ++ "") = a ++ b
  rw [String.append_empty]

/-- C2 (amended): an `mfenced` with no attributes (so the defaults
`open='('`, `close=')'`, `sep=', '` apply) and exactly two children whose
fragments are `a` and `b` yields a `pmatrix` wrapping the plain
concatenation `a ++ b` with every occurrence of `', '` replaced by
`' & '` — the child fragments are not joined by any separator. -/
theorem mfenced_pmatrix_amended (txt a b : String) (c1 c2 : Element)
    (h1 : mathml_to_latex_element c1 = some a)
    (h2 : mathml_to_latex_element c2 = some b)
    (hm : startsWithStr "<mtable" (a ++ b) = false) :
    mathml_to_latex_element (.mk "mfenced" [] txt [c1, c2]) =
      some ("\\begin\x7bpmatrix\x7d" ++ pyReplace (a ++ b) ", " " & "
        ++ "\\end\x7bpmatrix\x7d") := by
  rw [mathml_fix]
  unfold mathml_body
  have hj : joinStr [a, b] = a ++ b := joinStr_pair a b
  simp [omapM, h1, h2, Element.children, Element.text,
    show get_tag (Element.mk "mfenced" [] txt [c1, c2]) = "mfenced" from rfl,
    attrGet, Element.attrs, hj, hm]

theorem mfenced_pmatrix_amended_witness :
    mathml_to_latex_element
        (.mk "mfenced" [] "" [.mk "mi" [] "x" [], .mk "mi" [] "y" []]) =
      some ("\\begin\x7bpmatrix\x7d" ++ pyReplace ("x" ++ "y") ", " " & "
        ++ "\\end\x7bpmatrix\x7d") :=
  mfenced_pmatrix_amended "" "x" "y" _ _ (by decide) (by decide) (by decide)

/-- C2 counterexample to the claim as stated: `<mfenced><mi>x</mi><mi>y</mi></mfenced>`
has two children with fragments `x` and `y`, yet the output is
`\begin\x7bpmatrix\x7dxy\end\x7bpmatrix\x7d` — no `' & '` separator is
inserted between the fragments. -/
theorem mfenced_pmatrix_counterexample :
    mathml_to_latex_element
        (.mk "mfenced" [] "" [.mk "mi" [] "x" [], .mk "mi" [] "y" []]) =
      some "\\begin\x7bpmatrix\x7dxy\\end\x7bpmatrix\x7d" ∧
    ("\\begin\x7bpmatrix\x7dxy\\end\x7bpmatrix\x7d" : String) ≠
      "\\begin\x7bpmatrix\x7dx & y\\end\x7bpmatrix\x7d" := by
  constructor
  · decide
  · decide

lemma omapM_map {α β : Type} (f : α → Option β) (g : α → β) :
    ∀ (l : List α), (∀ x ∈ l, f x = some (g x)) → omapM f l = some (l.map g)
  | [], _ => rfl
  | x :: rest, h => by
    have hx : f x = some (g x) := h x (List.mem_cons_self x rest)
    have hr : omapM f rest = some (rest.map g) :=
      omapM_map f g rest (fun y hy => h y (List.mem_cons_of_mem x hy))
    simp [omapM, hx, hr]

lemma map_range_pair : ∀ (L1 L2 : List String), L1.length = L2.length →
    (List.range L1.length).map (fun i => [L1.getD i "", L2.getD i ""]) =
      List.zipWith (fun x y => [x, y]) L1 L2
  | [], [], _ => rfl
  | [], y :: ys, h => by simp at h
  | x :: xs, [], h => by simp at h
  | x :: xs, y :: ys, h => by
    have h' : xs.length = ys.length := by simpa using h
    have ih := map_range_pair xs ys h'
    simp only [List.length_cons, List.range_succ_eq_map, List.map_cons, List.map_map]
    simp only [List.getD_cons_zero, List.zipWith_cons_cons]
    refine congrArg (fun t => [x, y] :: t) ?h
    rw [show ((fun i => [(x :: xs).getD i "", (y :: ys).getD i ""]) ∘ (fun i => i + 1))
        = (fun i => [xs.getD i "", ys.getD i ""]) from funext (fun i => by
          simp [Function.comp, List.getD_cons_succ])]
    exact ih

lemma detRows_pair (L1 L2 : List String) (h : L1.length = L2.length) :
    detRows [L1, L2] L1.length =
      some (List.zipWith (fun x y => [x, y]) L1 L2) := by
  unfold detRows
  rw [omapM_map (g := fun i => [L1.getD i "", L2.getD i ""])]
  · rw [map_range_pair L1 L2 h]
  · intro i hi
    rw [List.mem_range] at hi
    have hi2 : i < L2.length := h ▸ hi
    have e1 : L1[i]? = some (L1.getD i "") := by
      rw [List.getElem?_eq_getElem hi, List.getD_eq_getElem L1 "" hi]
    have e2 : L2[i]? = some (L2.getD i "") := by
      rw [List.getElem?_eq_getElem hi2, List.getD_eq_getElem L2 "" hi2]
    simp only [omapM, e1, e2]

lemma rstrip_rows : ∀ (R : List String), R ≠ [] →
    rstripBackslash (joinStr (R.map (fun r => r ++ " \\\\"))) =
      pyJoin " \\\\" R ++ " "
  | [], h => absurd rfl h
  | [r], _ => by
    show rstripBackslash (r ++ " \\\\" ++ "") = r ++ " "
    rw [String.append_empty]
    apply String.ext
    show ((r.data ++ [' ', '\\', '\\']).reverse.dropWhile (fun c => c = '\\')).reverse
      = r.data ++ [' ']
    rw [List.reverse_append]
    simp [List.dropWhile]
  | r :: r2 :: rest, _ => by
    have ih := rstrip_rows (r2 :: rest) (by simp)
    show rstripBackslash ((r ++ " \\\\") ++ joinStr ((r2 :: rest).map (fun r => r ++ " \\\\")))
      = (r ++ " \\\\" ++ pyJoin " \\\\" (r2 :: rest)) ++ " "
    apply String.ext
    show (((r ++ " \\\\").data ++ (joinStr ((r2 :: rest).map (fun r => r ++ " \\\\"))).data).reverse.dropWhile
        (fun c => c = '\\')).reverse
      = ((r ++ " \\\\" ++ pyJoin " \\\\" (r2 :: rest)) ++ " ").data
    rw [List.reverse_append, List.dropWhile_append]
    have hne : ((joinStr ((r2 :: rest).map (fun r => r ++ " \\\\"))).data.reverse.dropWhile
        (fun c => c = '\\')) = ((pyJoin " \\\\" (r2 :: rest) ++ " ").data).reverse := by
      have := congrArg (fun s => s.data.reverse) ih
      simp only [rstripBackslash] at this
      simpa using this
    rw [hne]
    rw [if_neg (by simp_all)]
    simp [String.data_append, List.reverse_append]

/-- C6: an `mrow` of shape `[mo('|'), mtable, mtable, mo('|')]` whose two
column tables yield cell-fragment lists `L1` and `L2` of equal length
produces a `matrix` environment whose `i`-th row is `L1[i] & L2[i]`, the
rows separated by `' \\'`, wrapped in `\left| ... \right|` (a trailing
space remains where `rstrip` removed the final row separator's
backslashes). -/
theorem mrow_determinant (attrs : List (String × String))
    (txt o1 o2 w1 w2 : String) (p1 p2 mt1 mt2 : Element) (L1 L2 : List String)
    (hp1t : get_tag p1 = "mo") (hp1x : pyStrip p1.text = "|")
    (hp2t : get_tag p2 = "mo") (hp2x : pyStrip p2.text = "|")
    (ht1 : get_tag mt1 = "mtable") (ht2 : get_tag mt2 = "mtable")
    (hc1 : mathml_to_latex_element p1 = some o1)
    (hm1 : mathml_to_latex_element mt1 = some w1)
    (hm2 : mathml_to_latex_element mt2 = some w2)
    (hc2 : mathml_to_latex_element p2 = some o2)
    (hcols : detCols mathml_to_latex_element [mt1, mt2] = some [L1, L2])
    (hlen : L1.length = L2.length) (hne : L1 ≠ []) :
    mathml_to_latex_element (.mk "mrow" attrs txt [p1, mt1, mt2, p2]) =
      some ("\\left|\\begin\x7bmatrix\x7d"
        ++ (pyJoin " \\\\" (List.zipWith (fun x y => x ++ " & " ++ y) L1 L2) ++ " ")
        ++ "\\end\x7bmatrix\x7d\\right|") := by
  rw [mathml_fix]
  unfold mathml_body
  have hch : omapM mathml_to_latex_element [p1, mt1, mt2, p2] = some [o1, w1, w2, o2] := by
    simp [omapM, hc1, hm1, hm2, hc2]
  have hbg : braceGroupTest (Element.mk "mrow" attrs txt [p1, mt1, mt2, p2]) = false := by
    simp [braceGroupTest, Element.children, hp1x]
  have hdt : detTest (Element.mk "mrow" attrs txt [p1, mt1, mt2, p2]) = true := by
    simp [detTest, Element.children, List.getLast?, hp1t, hp1x, hp2t, hp2x, ht1, ht2]
  have hmid : middleChildren (Element.mk "mrow" attrs txt [p1, mt1, mt2, p2])
      = [mt1, mt2] := rfl
  have hRne : List.zipWith (fun x y => x ++ " & " ++ y) L1 L2 ≠ [] := by
    intro hz
    have := congrArg List.length hz
    rw [List.length_zipWith, ← hlen, Nat.min_self] at this
    exact hne (List.eq_nil_of_length_eq_zero this)
  have hmapz : (List.zipWith (fun x y => [x, y]) L1 L2).map
        (fun cells => pyJoin " & " cells ++ " \\\\")
      = (List.zipWith (fun x y => x ++ " & " ++ y) L1 L2).map
        (fun r => r ++ " \\\\") := by
    rw [List.map_zipWith, List.map_zipWith]
    simp [pyJoin]
  simp only [Element.children, Element.text, hch,
    show get_tag (Element.mk "mrow" attrs txt [p1, mt1, mt2, p2]) = "mrow" from rfl,
    hbg, hdt, hmid, hcols]
  simp only [List.head?, List.length_cons]
  rw [detRows_pair L1 L2 hlen]
  simp only [hmapz, rstrip_rows _ hRne]
  simp [String.append_assoc]

theorem mrow_determinant_witness :
    mathml_to_latex_element (.mk "mrow" [] ""
      [ .mk "mo" [] "|" [],
        .mk "mtable" [] ""
          [ .mk "mtr" [] "" [.mk "mtd" [] "" [.mk "mi" [] "a" []]],
            .mk "mtr" [] "" [.mk "mtd" [] "" [.mk "mi" [] "c" []]] ],
        .mk "mtable" [] ""
          [ .mk "mtr" [] "" [.mk "mtd" [] "" [.mk "mi" [] "b" []]],
            .mk "mtr" [] "" [.mk "mtd" [] "" [.mk "mi" [] "d" []]] ],
        .mk "mo" [] "|" [] ]) =
      some ("\\left|\\begin\x7bmatrix\x7d"
        ++ (pyJoin " \\\\"
            (List.zipWith (fun x y => x ++ " & " ++ y) ["a", "c"] ["b", "d"]) ++ " ")
        ++ "\\end\x7bmatrix\x7d\\right|") :=
  mrow_determinant [] "" "|" "|"
    "\\begin\x7bmatrix\x7da \\\\c\\end\x7bmatrix\x7d"
    "\\begin\x7bmatrix\x7db \\\\d\\end\x7bmatrix\x7d"
    _ _ _ _ ["a", "c"] ["b", "d"]
    (by decide) (by decide) (by decide) (by decide) (by decide) (by decide)
    (by decide) (by decide) (by decide) (by decide) (by decide) (by decide)
    (by decide)

/-! ### The digit normalizer (C9) -/

lemma char_toNat_inj {a b : Char} (h : a.toNat = b.toNat) : a = b :=
  Char.eq_of_val_eq (UInt32.eq_of_toBitVec_eq (BitVec.eq_of_toNat_eq h))

lemma lookup_none_of_ne (c : Char) (l : List (Char × Char))
    (h : ∀ p ∈ l, c ≠ p.1) : l.lookup c = none := by
  induction l with
  | nil => rfl
  | cons p t ih =>
    have h1 : c ≠ p.1 := h p (List.mem_cons_self p t)
    have : (c == p.1) = false := beq_false_of_ne h1
    simp only [List.lookup, this]
    exact ih fun q hq => h q (List.mem_cons_of_mem p hq)

lemma translateChar_eq (c : Char) : translateChar c = digitSpecMap c := by
  by_cases h1 : 0x6f0 ≤ c.toNat ∧ c.toNat ≤ 0x6f9
  · have h10 : c.toNat = 0x6f0 ∨ c.toNat = 0x6f1 ∨ c.toNat = 0x6f2 ∨ c.toNat = 0x6f3 ∨
        c.toNat = 0x6f4 ∨ c.toNat = 0x6f5 ∨ c.toNat = 0x6f6 ∨ c.toNat = 0x6f7 ∨
        c.toNat = 0x6f8 ∨ c.toNat = 0x6f9 := by omega
    rcases h10 with h|h|h|h|h|h|h|h|h|h
    · rw [show c = '۰' from char_toNat_inj (by rw [h]; decide)]; decide
    · rw [show c = '۱' from char_toNat_inj (by rw [h]; decide)]; decide
    · rw [show c = '۲' from char_toNat_inj (by rw [h]; decide)]; decide
    · rw [show c = '۳' from char_toNat_inj (by rw [h]; decide)]; decide
    · rw [show c = '۴' from char_toNat_inj (by rw [h]; decide)]; decide
    · rw [show c = '۵' from char_toNat_inj (by rw [h]; decide)]; decide
    · rw [show c = '۶' from char_toNat_inj (by rw [h]; decide)]; decide
    · rw [show c = '۷' from char_toNat_inj (by rw [h]; decide)]; decide
    · rw [show c = '۸' from char_toNat_inj (by rw [h]; decide)]; decide
    · rw [show c = '۹' from char_toNat_inj (by rw [h]; decide)]; decide
  · by_cases h2 : 0x660 ≤ c.toNat ∧ c.toNat ≤ 0x669
    · have h10 : c.toNat = 0x660 ∨ c.toNat = 0x661 ∨ c.toNat = 0x662 ∨ c.toNat = 0x663 ∨
          c.toNat = 0x664 ∨ c.toNat = 0x665 ∨ c.toNat = 0x666 ∨ c.toNat = 0x667 ∨
          c.toNat = 0x668 ∨ c.toNat = 0x669 := by omega
      rcases h10 with h|h|h|h|h|h|h|h|h|h
      · rw [show c = '٠' from char_toNat_inj (by rw [h]; decide)]; decide
      · rw [show c = '١' from char_toNat_inj (by rw [h]; decide)]; decide
      · rw [show c = '٢' from char_toNat_inj (by rw [h]; decide)]; decide
      · rw [show c = '٣' from char_toNat_inj (by rw [h]; decide)]; decide
      · rw [show c = '٤' from char_toNat_inj (by rw [h]; decide)]; decide
      · rw [show c = '٥' from char_toNat_inj (by rw [h]; decide)]; decide
      · rw [show c = '٦' from char_toNat_inj (by rw [h]; decide)]; decide
      · rw [show c = '٧' from char_toNat_inj (by rw [h]; decide)]; decide
      · rw [show c = '٨' from char_toNat_inj (by rw [h]; decide)]; decide
      · rw [show c = '٩' from char_toNat_inj (by rw [h]; decide)]; decide
    · have hnone : digitTable.lookup c = none := by
        apply lookup_none_of_ne
        intro p hp
        fin_cases hp <;> (intro heq; rw [heq] at h1 h2; first | exact h1 (by decide) | exact h2 (by decide))
      unfold translateChar digitSpecMap
      rw [hnone, if_neg h1, if_neg h2]
      rfl

/-- C9: the digit normalizer is a length-preserving character map replacing
each Persian digit (U+06F0 - U+06F9) and each Arabic-Indic digit
(U+0660 - U+0669) by its ASCII equivalent index-for-index and leaving every
other character unchanged; being a total map, it has no failure modes. -/
theorem convert_persian_digits_spec (s : String) :
    (convert_persian_digits s).length = s.length ∧
    ∀ i (h1 : i < (convert_persian_digits s).data.length) (h2 : i < s.data.length),
      (convert_persian_digits s).data.get ⟨i, h1⟩ = digitSpecMap (s.data.get ⟨i, h2⟩) := by
  constructor
  · simp only [convert_persian_digits, String.length, List.length_map]
  · intro i h1 h2
    simp only [convert_persian_digits, List.get_eq_getElem, List.getElem_map, translateChar_eq]

theorem convert_persian_digits_spec_witness :
    (convert_persian_digits "۵a٣").length = ("۵a٣" : String).length ∧
    (convert_persian_digits "۵a٣").data.get ⟨0, by decide⟩ =
      digitSpecMap (("۵a٣" : String).data.get ⟨0, by decide⟩) :=
  ⟨(convert_persian_digits_spec "۵a٣").1,
   (convert_persian_digits_spec "۵a٣").2 0 (by decide) (by decide)⟩

/-! ### The dollar-delimiter recovery step (C7) -/

lemma head_dropWhile_not {p : Char → Bool} {r : List Char} {c : Char}
    (h : (r.dropWhile p).head? = some c) : p c = false := by
  induction r with
  | nil => simp at h
  | cons a t ih =>
    by_cases hp : p a
    · rw [List.dropWhile_cons, if_pos hp] at h; exact ih h
    · rw [List.dropWhile_cons, if_neg hp] at h
      simp at h; subst h; simpa using hp

/-- C7 counterexample to the claim as stated: `"$$a$$$$"` holds an odd number
(three) of non-overlapping `$$` occurrences, and the recovery step strips the
whole trailing dollar run, not exactly one `$$` delimiter. -/
theorem C7_counterexample :
    ssCount ("$$a$$$$").data % 2 = 1 ∧
    stripOddDelims ("$$a$$$$").data ≠ ("$$a$$").data := by decide

/-- C7 (amended): when the serialized text holds an odd number of
non-overlapping `$$` occurrences, the recovery step removes exactly the
maximal trailing run of `'$'` characters (so the result no longer ends in
`'$'`); with an even count the text is returned unchanged. -/
theorem C7_amended (l : List Char) :
    (ssCount l % 2 ≠ 0 →
      ∃ k, l = stripOddDelims l ++ List.replicate k '$' ∧
        (stripOddDelims l).getLast? ≠ some '$') ∧
    (ssCount l % 2 = 0 → stripOddDelims l = l) := by
  constructor
  · intro hodd
    have hs : stripOddDelims l = rstripDollar l := if_pos hodd
    rw [hs]
    set p : Char → Bool := fun c => c = '$' with hp
    refine ⟨(l.reverse.takeWhile p).length, ?_, ?_⟩
    · conv_lhs => rw [← l.reverse_reverse, ← List.takeWhile_append_dropWhile (p := p) (l := l.reverse)]
      rw [List.reverse_append]
      unfold rstripDollar
      congr 1
      have hall : ∀ c ∈ l.reverse.takeWhile p, c = '$' := by
        intro c hc
        have := List.mem_takeWhile_imp hc
        simpa [hp] using this
      rw [List.eq_replicate_of_mem hall]
      simp
    · unfold rstripDollar
      rw [List.getLast?_reverse]
      intro hcon
      have := head_dropWhile_not hcon
      simp [hp] at this
  · intro heven
    exact if_neg (by omega)

theorem C7_amended_witness :
    (∃ k, ("$$$").data = stripOddDelims ("$$$").data ++ List.replicate k '$' ∧
        (stripOddDelims ("$$$").data).getLast? ≠ some '$') ∧
    stripOddDelims ("$$ab$$").data = ("$$ab$$").data :=
  ⟨(C7_amended ("$$$").data).1 (by decide), (C7_amended ("$$ab$$").data).2 (by decide)⟩

/-! ### The repair-pass development (C5) -/


-- ### generic toolkit

lemma tkW_app {p : Char → Bool} {A : List Char} (B : List Char) (h : A.all p) :
    (A ++ B).takeWhile p = A ++ B.takeWhile p := by
  induction A with
  | nil => simp
  | cons a A ih =>
    simp only [List.all_cons, Bool.and_eq_true] at h
    simp [List.takeWhile_cons, h.1, ih h.2]


lemma dpW_app {p : Char → Bool} {A : List Char} (B : List Char) (h : A.all p) :
    (A ++ B).dropWhile p = B.dropWhile p := by
  induction A with
  | nil => simp
  | cons a A ih =>
    simp only [List.all_cons, Bool.and_eq_true] at h
    simp [List.dropWhile_cons, h.1, ih h.2]


lemma tkW_stop {p : Char → Bool} {B : List Char}
    (h : B = [] ∨ ∃ b bs, B = b :: bs ∧ p b = false) : B.takeWhile p = [] := by
  rcases h with rfl | ⟨b, bs, rfl, hb⟩
  · rfl
  · simp [List.takeWhile_cons, hb]


lemma dpW_stop {p : Char → Bool} {B : List Char}
    (h : B = [] ∨ ∃ b bs, B = b :: bs ∧ p b = false) : B.dropWhile p = B := by
  rcases h with rfl | ⟨b, bs, rfl, hb⟩
  · rfl
  · simp [List.dropWhile_cons, hb]


lemma dpW_len_le (p : Char → Bool) : ∀ (l : List Char), (l.dropWhile p).length ≤ l.length
  | [] => le_rfl
  | c :: rest => by
    rw [List.dropWhile_cons]
    split
    · exact le_trans (dpW_len_le p rest) (Nat.le_succ _)
    · exact le_rfl


-- ### fuel adequacy and recursion equations

lemma f1go_adequate : ∀ (f g : Nat) (l : List Char),
    l.length ≤ f → l.length ≤ g → f1go f l = f1go g l := by
  intro f
  induction f with
  | zero =>
    intro g l hf _
    have hl : l = [] := by cases l with | nil => rfl | cons a t => simp at hf
    subst hl
    cases g <;> rfl
  | succ f ih =>
    intro g l hf hg
    cases l with
    | nil => cases g <;> rfl
    | cons c rest =>
      cases g with
      | zero => simp at hg
      | succ g =>
        simp only [f1go]
        by_cases hc : c = '\\'
        · simp only [if_pos hc]
          have hd := dpW_len_le isWL rest
          simp only [List.length_cons] at hf hg
          rw [ih g (rest.dropWhile isWL) (by omega) (by omega)]
        · simp only [if_neg hc]
          simp only [List.length_cons] at hf hg
          rw [ih g rest (by omega) (by omega)]


lemma f1_nil : f1 [] = [] := rfl


lemma f1_bs (t : List Char) :
    f1 ('\\' :: t) = '\\' :: (normRun (t.takeWhile isWL) ++ f1 (t.dropWhile isWL)) := by
  show f1go (t.length + 1) ('\\' :: t) = _
  simp only [f1go, if_pos rfl]
  rw [f1go_adequate t.length (t.dropWhile isWL).length (t.dropWhile isWL)
    (dpW_len_le isWL t) le_rfl]
  rfl


lemma f1_cons {c : Char} (t : List Char) (hc : c ≠ '\\') :
    f1 (c :: t) = c :: f1 t := by
  show f1go (t.length + 1) (c :: t) = _
  simp only [f1go, if_neg hc]
  rfl


lemma f2go_adequate : ∀ (f g : Nat) (l : List Char),
    l.length ≤ f → l.length ≤ g → f2go f l = f2go g l := by
  intro f
  induction f with
  | zero =>
    intro g l hf _
    have hl : l = [] := by cases l with | nil => rfl | cons a t => simp at hf
    subst hl
    cases g <;> rfl
  | succ f ih =>
    intro g l hf hg
    cases l with
    | nil => cases g <;> rfl
    | cons c rest =>
      cases g with
      | zero => simp at hg
      | succ g =>
        simp only [f2go]
        simp only [List.length_cons] at hf hg
        have hlen3 : (rest.drop 3).length ≤ rest.length := by
          simp only [List.length_drop]; omega
        congr 1
        · cases hdr : rest.drop 3 with
          | nil => simp
          | cons d rest2 =>
            have h2 : rest2.length + 1 ≤ rest.length := by
              have := congrArg List.length hdr
              simp [List.length_drop] at this ⊢
              omega
            simp only
            split
            · rw [ih g rest2 (by omega) (by omega)]
            · rw [ih g (d :: rest2) (by simp; omega) (by simp; omega)]
        · congr 1
          · cases hdr : rest.drop 3 with
            | nil => simp
            | cons d rest2 =>
              have h2 : rest2.length + 1 ≤ rest.length := by
                have := congrArg List.length hdr
                simp [List.length_drop] at this ⊢
                omega
              simp only
              split
              · rw [ih g rest2 (by omega) (by omega)]
              · rw [ih g (d :: rest2) (by simp; omega) (by simp; omega)]
          · rw [ih g rest (by omega) (by omega)]


lemma f2go_step (fuel : Nat) (c : Char) (rest : List Char) :
    f2go (fuel + 1) (c :: rest) =
      if c = '\\' ∧ ['s', 'i', 'm'].isPrefixOf rest then
        c :: 's' :: 'i' :: 'm' ::
          (match rest.drop 3 with
           | d :: rest2 =>
             if isAsciiLetter d then ' ' :: d :: f2go fuel rest2
             else f2go fuel (d :: rest2)
           | [] => [])
      else if c = '\\' ∧ ['n', 'e', 'g'].isPrefixOf rest then
        c :: 'n' :: 'e' :: 'g' ::
          (match rest.drop 3 with
           | d :: rest2 =>
             if isAsciiLetter d then ' ' :: d :: f2go fuel rest2
             else f2go fuel (d :: rest2)
           | [] => [])
      else c :: f2go fuel rest := rfl


lemma f2_nil : f2 [] = [] := rfl


lemma f2_cons {c : Char} (t : List Char) (hc : c ≠ '\\') :
    f2 (c :: t) = c :: f2 t := by
  show f2go (t.length + 1) (c :: t) = _
  rw [f2go_step]
  rw [if_neg (show ¬(c = '\\' ∧ ['s', 'i', 'm'].isPrefixOf t = true) from fun h => hc h.1)]
  rw [if_neg (show ¬(c = '\\' ∧ ['n', 'e', 'g'].isPrefixOf t = true) from fun h => hc h.1)]
  rfl


lemma f2_bs_sim_letter {d : Char} (r2 : List Char) (hd : isAsciiLetter d = true) :
    f2 ('\\' :: 's' :: 'i' :: 'm' :: d :: r2) =
      '\\' :: 's' :: 'i' :: 'm' :: ' ' :: d :: f2 r2 := by
  show f2go (r2.length + 4 + 1) _ = _
  rw [f2go_step]
  rw [if_pos (show ('\\' = '\\' ∧
    (['s', 'i', 'm'].isPrefixOf ('s' :: 'i' :: 'm' :: d :: r2)) = true) from ⟨rfl, rfl⟩)]
  rw [show List.drop 3 ('s' :: 'i' :: 'm' :: d :: r2) = d :: r2 from rfl]
  simp only [if_pos hd]
  rw [f2go_adequate (r2.length + 4) r2.length r2 (by omega) le_rfl]
  rfl


lemma f2_bs_sim_noletter (t : List Char) (hp : ['s', 'i', 'm'].isPrefixOf t)
    (hnol : ∀ d r2, t.drop 3 = d :: r2 → isAsciiLetter d = false) :
    f2 ('\\' :: t) = '\\' :: 's' :: 'i' :: 'm' :: f2 (t.drop 3) := by
  show f2go (t.length + 1) _ = _
  rw [f2go_step]
  rw [if_pos ⟨rfl, hp⟩]
  cases hdr : t.drop 3 with
  | nil => rfl
  | cons d r2 =>
    have h2 : r2.length + 1 ≤ t.length := by
      have := congrArg List.length hdr
      simp only [List.length_drop, List.length_cons] at this
      omega
    simp only [if_neg (show ¬ isAsciiLetter d = true by rw [hnol d r2 hdr]; exact Bool.false_ne_true)]
    rw [f2go_adequate t.length (d :: r2).length (d :: r2) (by simp; omega) le_rfl]
    rfl


lemma f2_bs_neg_letter {d : Char} (r2 : List Char) (hd : isAsciiLetter d = true) :
    f2 ('\\' :: 'n' :: 'e' :: 'g' :: d :: r2) =
      '\\' :: 'n' :: 'e' :: 'g' :: ' ' :: d :: f2 r2 := by
  show f2go (r2.length + 4 + 1) _ = _
  rw [f2go_step]
  rw [if_neg (show ¬('\\' = '\\' ∧ (['s', 'i', 'm'].isPrefixOf ('n' :: 'e' :: 'g' :: d :: r2)) = true)
    from fun h => by simpa using h.2)]
  rw [if_pos (show ('\\' = '\\' ∧
    (['n', 'e', 'g'].isPrefixOf ('n' :: 'e' :: 'g' :: d :: r2)) = true) from ⟨rfl, rfl⟩)]
  rw [show List.drop 3 ('n' :: 'e' :: 'g' :: d :: r2) = d :: r2 from rfl]
  simp only [if_pos hd]
  rw [f2go_adequate (r2.length + 4) r2.length r2 (by omega) le_rfl]
  rfl


lemma f2_bs_neg_noletter (t : List Char) (hp : ['n', 'e', 'g'].isPrefixOf t)
    (hnol : ∀ d r2, t.drop 3 = d :: r2 → isAsciiLetter d = false) :
    f2 ('\\' :: t) = '\\' :: 'n' :: 'e' :: 'g' :: f2 (t.drop 3) := by
  show f2go (t.length + 1) _ = _
  rw [f2go_step]
  have hs : ¬ ('\\' = '\\' ∧ (['s', 'i', 'm'].isPrefixOf t) = true) := by
    intro h
    obtain ⟨u, rfl⟩ := List.isPrefixOf_iff_prefix.mp h.2
    obtain ⟨v, hv⟩ := List.isPrefixOf_iff_prefix.mp hp
    simp at hv
  rw [if_neg hs, if_pos ⟨rfl, hp⟩]
  cases hdr : t.drop 3 with
  | nil => rfl
  | cons d r2 =>
    have h2 : r2.length + 1 ≤ t.length := by
      have := congrArg List.length hdr
      simp only [List.length_drop, List.length_cons] at this
      omega
    simp only [if_neg (show ¬ isAsciiLetter d = true by rw [hnol d r2 hdr]; exact Bool.false_ne_true)]
    rw [f2go_adequate t.length (d :: r2).length (d :: r2) (by simp; omega) le_rfl]
    rfl


lemma f2_bs_other (t : List Char) (hs : ¬ ['s', 'i', 'm'].isPrefixOf t)
    (hn : ¬ ['n', 'e', 'g'].isPrefixOf t) :
    f2 ('\\' :: t) = '\\' :: f2 t := by
  show f2go (t.length + 1) _ = _
  rw [f2go_step]
  rw [if_neg (show ¬('\\' = '\\' ∧ (['s', 'i', 'm'].isPrefixOf t) = true) from fun h => hs h.2)]
  rw [if_neg (show ¬('\\' = '\\' ∧ (['n', 'e', 'g'].isPrefixOf t) = true) from fun h => hn h.2)]
  rfl


lemma f3go_step (fuel : Nat) (c : Char) (rest : List Char) :
    f3go (fuel + 1) (c :: rest) =
      if c = '\\' then
        match arrowWords.find? (fun a => a.isPrefixOf rest) with
        | some a => ' ' :: '\\' :: (a ++ ' ' :: f3go fuel (rest.drop a.length))
        | none => '\\' :: f3go fuel rest
      else c :: f3go fuel rest := rfl


lemma f3go_adequate : ∀ (f g : Nat) (l : List Char),
    l.length ≤ f → l.length ≤ g → f3go f l = f3go g l := by
  intro f
  induction f with
  | zero =>
    intro g l hf _
    have hl : l = [] := by cases l with | nil => rfl | cons a t => simp at hf
    subst hl
    cases g <;> rfl
  | succ f ih =>
    intro g l hf hg
    cases l with
    | nil => cases g <;> rfl
    | cons c rest =>
      cases g with
      | zero => simp at hg
      | succ g =>
        rw [f3go_step, f3go_step]
        simp only [List.length_cons] at hf hg
        by_cases hc : c = '\\'
        · simp only [if_pos hc]
          cases hfind : arrowWords.find? (fun a => a.isPrefixOf rest) with
          | some a =>
            have hdl : (rest.drop a.length).length ≤ rest.length := by
              simp only [List.length_drop]; omega
            show ' ' :: '\\' :: (a ++ ' ' :: f3go f (rest.drop a.length)) =
              ' ' :: '\\' :: (a ++ ' ' :: f3go g (rest.drop a.length))
            rw [ih g (rest.drop a.length) (by omega) (by omega)]
          | none =>
            show '\\' :: f3go f rest = '\\' :: f3go g rest
            rw [ih g rest (by omega) (by omega)]
        · simp only [if_neg hc]
          rw [ih g rest (by omega) (by omega)]


lemma f3_nil : f3 [] = [] := rfl


lemma f3_cons {c : Char} (t : List Char) (hc : c ≠ '\\') :
    f3 (c :: t) = c :: f3 t := by
  show f3go (t.length + 1) (c :: t) = _
  rw [f3go_step, if_neg hc]
  rfl


lemma f3_bs_none (t : List Char)
    (h : arrowWords.find? (fun a => a.isPrefixOf t) = none) :
    f3 ('\\' :: t) = '\\' :: f3 t := by
  show f3go (t.length + 1) ('\\' :: t) = _
  rw [f3go_step, if_pos rfl, h]
  rfl


lemma f3_bs_some {a : List Char} (t : List Char)
    (h : arrowWords.find? (fun x => x.isPrefixOf t) = some a) :
    f3 ('\\' :: t) = ' ' :: '\\' :: (a ++ ' ' :: f3 (t.drop a.length)) := by
  show f3go (t.length + 1) ('\\' :: t) = _
  rw [f3go_step, if_pos rfl, h]
  show ' ' :: '\\' :: (a ++ ' ' :: f3go t.length (t.drop a.length)) = _
  rw [f3go_adequate t.length (t.drop a.length).length (t.drop a.length)
    (by simp only [List.length_drop]; omega) le_rfl]
  rfl


lemma f4go_step (fuel : Nat) (c1 c2 : Char) (rest : List Char) :
    f4go (fuel + 1) (c1 :: c2 :: rest) =
      if isPySpace c1 ∧ isPySpace c2 then
        ' ' :: f4go fuel ((c2 :: rest).dropWhile isPySpace)
      else c1 :: f4go fuel (c2 :: rest) := rfl


lemma f4go_adequate : ∀ (f g : Nat) (l : List Char),
    l.length ≤ f → l.length ≤ g → f4go f l = f4go g l := by
  intro f
  induction f with
  | zero =>
    intro g l hf _
    have hl : l = [] := by cases l with | nil => rfl | cons a t => simp at hf
    subst hl
    cases g <;> rfl
  | succ f ih =>
    intro g l hf hg
    cases l with
    | nil => cases g <;> rfl
    | cons c rest =>
      cases g with
      | zero => simp at hg
      | succ g =>
        cases rest with
        | nil => rfl
        | cons c2 rest2 =>
          rw [f4go_step, f4go_step]
          simp only [List.length_cons] at hf hg
          by_cases hsp : isPySpace c ∧ isPySpace c2
          · simp only [if_pos hsp]
            have hdl := dpW_len_le isPySpace (c2 :: rest2)
            simp only [List.length_cons] at hdl
            rw [ih g ((c2 :: rest2).dropWhile isPySpace) (by omega) (by omega)]
          · simp only [if_neg hsp]
            rw [ih g (c2 :: rest2) (by simp; omega) (by simp; omega)]


lemma f4_nil : f4 [] = [] := rfl


lemma f4_one (c : Char) : f4 [c] = [c] := rfl


lemma f4_pair_sp {c1 c2 : Char} (rest : List Char)
    (h1 : isPySpace c1 = true) (h2 : isPySpace c2 = true) :
    f4 (c1 :: c2 :: rest) = ' ' :: f4 ((c2 :: rest).dropWhile isPySpace) := by
  show f4go (rest.length + 1 + 1) _ = _
  rw [f4go_step, if_pos ⟨h1, h2⟩]
  have hdl := dpW_len_le isPySpace (c2 :: rest)
  simp only [List.length_cons] at hdl
  rw [f4go_adequate (rest.length + 1) ((c2 :: rest).dropWhile isPySpace).length
    ((c2 :: rest).dropWhile isPySpace) (by omega) le_rfl]
  rfl


lemma f4_pair_nonsp {c1 c2 : Char} (rest : List Char)
    (h : ¬(isPySpace c1 = true ∧ isPySpace c2 = true)) :
    f4 (c1 :: c2 :: rest) = c1 :: f4 (c2 :: rest) := by
  show f4go (rest.length + 1 + 1) _ = _
  rw [f4go_step, if_neg h]
  rfl


-- ### character-class facts

lemma sp_not_letter {c : Char} (h : isPySpace c = true) : isAsciiLetter c = false := by
  simp [isPySpace] at h
  simp only [isAsciiLetter, Bool.or_eq_false_iff, Bool.and_eq_false_iff,
    decide_eq_false_iff_not, not_le]
  omega


lemma bs_not_WL : isWL '\\' = false := by decide


lemma WL_ne_bs {c : Char} (h : isWL c = true) : c ≠ '\\' := by
  intro hc; rw [hc] at h; exact absurd h (by decide)


lemma letter_WL {c : Char} (h : isAsciiLetter c = true) : isWL c = true := by
  simp [isWL, h]


lemma sp_WL {c : Char} (h : isPySpace c = true) : isWL c = true := by
  simp [isWL, h]


lemma WL_cases {c : Char} (h : isWL c = true) :
    isPySpace c = true ∨ isAsciiLetter c = true := by
  simp only [isWL, Bool.or_eq_true] at h
  exact h


-- ### copy and head lemmas

lemma f1_copy {A : List Char} (B : List Char) (h : ∀ c ∈ A, c ≠ '\\') :
    f1 (A ++ B) = A ++ f1 B := by
  induction A with
  | nil => simp
  | cons a A ih =>
    rw [List.cons_append, f1_cons _ (h a (List.mem_cons_self a A)),
      ih (fun c hc => h c (List.mem_cons_of_mem a hc))]
    rfl


lemma f2_copy {A : List Char} (B : List Char) (h : ∀ c ∈ A, c ≠ '\\') :
    f2 (A ++ B) = A ++ f2 B := by
  induction A with
  | nil => simp
  | cons a A ih =>
    rw [List.cons_append, f2_cons _ (h a (List.mem_cons_self a A)),
      ih (fun c hc => h c (List.mem_cons_of_mem a hc))]
    rfl


lemma f3_copy {A : List Char} (B : List Char) (h : ∀ c ∈ A, c ≠ '\\') :
    f3 (A ++ B) = A ++ f3 B := by
  induction A with
  | nil => simp
  | cons a A ih =>
    rw [List.cons_append, f3_cons _ (h a (List.mem_cons_self a A)),
      ih (fun c hc => h c (List.mem_cons_of_mem a hc))]
    rfl


lemma f1_id {A : List Char} (h : ∀ c ∈ A, c ≠ '\\') : f1 A = A := by
  have := f1_copy (A := A) [] h
  simpa [show f1 [] = [] from rfl] using this


lemma f2_id {A : List Char} (h : ∀ c ∈ A, c ≠ '\\') : f2 A = A := by
  have := f2_copy (A := A) [] h
  simpa [show f2 [] = [] from rfl] using this


lemma f3_id {A : List Char} (h : ∀ c ∈ A, c ≠ '\\') : f3 A = A := by
  have := f3_copy (A := A) [] h
  simpa [show f3 [] = [] from rfl] using this


lemma f1_head : ∀ (l : List Char), (f1 l).head? = l.head? := by
  intro l
  cases l with
  | nil => rfl
  | cons c t =>
    by_cases hc : c = '\\'
    · subst hc; rw [f1_bs]; rfl
    · rw [f1_cons _ hc]; rfl


lemma f2_head : ∀ (l : List Char), (f2 l).head? = l.head? := by
  intro l
  cases l with
  | nil => rfl
  | cons c t =>
    by_cases hc : c = '\\'
    · subst hc
      by_cases hs : ['s', 'i', 'm'].isPrefixOf t
      · cases hdr : t.drop 3 with
        | nil =>
          rw [f2_bs_sim_noletter t hs (by intro d r2 hcon; rw [hcon] at hdr; cases hdr)]
          rfl
        | cons d r2 =>
          by_cases hd : isAsciiLetter d = true
          · obtain ⟨u, rfl⟩ := List.isPrefixOf_iff_prefix.mp hs
            have : u = d :: r2 := by simpa using hdr
            subst this
            show (f2 ('\\' :: 's' :: 'i' :: 'm' :: d :: r2)).head? = _
            rw [f2_bs_sim_letter r2 hd]
            rfl
          · rw [f2_bs_sim_noletter t hs (by
              intro d' r2' hcon
              rw [hcon] at hdr
              cases hdr
              exact Bool.eq_false_iff.mpr hd)]
            rfl
      · by_cases hn : ['n', 'e', 'g'].isPrefixOf t
        · cases hdr : t.drop 3 with
          | nil =>
            rw [f2_bs_neg_noletter t hn (by intro d r2 hcon; rw [hcon] at hdr; cases hdr)]
            rfl
          | cons d r2 =>
            by_cases hd : isAsciiLetter d = true
            · obtain ⟨u, rfl⟩ := List.isPrefixOf_iff_prefix.mp hn
              have : u = d :: r2 := by simpa using hdr
              subst this
              show (f2 ('\\' :: 'n' :: 'e' :: 'g' :: d :: r2)).head? = _
              rw [f2_bs_neg_letter r2 hd]
              rfl
            · rw [f2_bs_neg_noletter t hn (by
                intro d' r2' hcon
                rw [hcon] at hdr
                cases hdr
                exact Bool.eq_false_iff.mpr hd)]
              rfl
        · rw [f2_bs_other t hs hn]
          rfl
    · rw [f2_cons _ hc]; rfl


lemma f1_ne_nil {l : List Char} (h : l ≠ []) : f1 l ≠ [] := by
  intro hf
  have := f1_head l
  rw [hf] at this
  cases l with
  | nil => exact h rfl
  | cons c t => simp at this


lemma f2_ne_nil {l : List Char} (h : l ≠ []) : f2 l ≠ [] := by
  intro hf
  have := f2_head l
  rw [hf] at this
  cases l with
  | nil => exact h rfl
  | cons c t => simp at this


-- ### f4 structure lemmas

lemma f4_cons_nonsp {c : Char} (X : List Char) (hc : isPySpace c = false) :
    f4 (c :: X) = c :: f4 X := by
  cases X with
  | nil => rfl
  | cons d Y =>
    exact f4_pair_nonsp Y (fun h => by rw [hc] at h; exact Bool.false_ne_true h.1)


lemma f4_copy_nonsp {A : List Char} (B : List Char) (h : ∀ c ∈ A, isPySpace c = false) :
    f4 (A ++ B) = A ++ f4 B := by
  induction A with
  | nil => simp
  | cons a A ih =>
    rw [List.cons_append, f4_cons_nonsp _ (h a (List.mem_cons_self a A)),
      ih (fun c hc => h c (List.mem_cons_of_mem a hc))]
    rfl


lemma f4_id_nonsp {A : List Char} (h : ∀ c ∈ A, isPySpace c = false) : f4 A = A := by
  have := f4_copy_nonsp (A := A) [] h
  simpa [show f4 [] = [] from rfl] using this


lemma f4_sp_step {d : Char} (X : List Char) (hd : isPySpace d = true) :
    ∃ hd2, f4 (d :: X) = hd2 :: f4 (X.dropWhile isPySpace) ∧ isPySpace hd2 = true := by
  cases X with
  | nil => exact ⟨d, rfl, hd⟩
  | cons e Y =>
    by_cases he : isPySpace e = true
    · refine ⟨' ', ?_, by decide⟩
      rw [f4_pair_sp Y hd he]
    · refine ⟨d, ?_, hd⟩
      rw [f4_pair_nonsp Y (fun h => he h.2)]
      rw [List.dropWhile_cons_of_neg (by simp [he])]


lemma f4_headSp : ∀ (X : List Char),
    (f4 X).head?.elim false isPySpace = X.head?.elim false isPySpace := by
  intro X
  cases X with
  | nil => rfl
  | cons c Y =>
    by_cases hc : isPySpace c = true
    · obtain ⟨hd2, heq, hsp⟩ := f4_sp_step Y hc
      rw [heq]
      simp [hsp, hc]
    · rw [f4_cons_nonsp _ (Bool.eq_false_iff.mpr hc)]
      rfl


lemma f4_ne_nil {c : Char} (X : List Char) : f4 (c :: X) ≠ [] := by
  by_cases hc : isPySpace c = true
  · obtain ⟨hd2, heq, _⟩ := f4_sp_step X hc
    rw [heq]
    exact List.cons_ne_nil _ _
  · rw [f4_cons_nonsp _ (Bool.eq_false_iff.mpr hc)]
    exact List.cons_ne_nil _ _


lemma f4_cons_congr {X Y : List Char} (c : Char) (h : f4 X = f4 Y) :
    f4 (c :: X) = f4 (c :: Y) := by
  by_cases hc : isPySpace c = true
  · have hhead := f4_headSp X
    rw [h, f4_headSp Y] at hhead
    cases X with
    | nil =>
      cases Y with
      | nil => rfl
      | cons e Z => exact absurd h.symm (f4_ne_nil Z)
    | cons d Xt =>
      cases Y with
      | nil => exact absurd h (f4_ne_nil Xt)
      | cons e Z =>
        simp only [List.head?_cons, Option.elim_some] at hhead
        by_cases hd : isPySpace d = true
        · have he : isPySpace e = true := by rw [hhead]; exact hd
          rw [f4_pair_sp Xt hc hd, f4_pair_sp Z hc he]
          obtain ⟨h1, e1, _⟩ := f4_sp_step Xt hd
          obtain ⟨h2, e2, _⟩ := f4_sp_step Z he
          rw [e1, e2] at h
          have := congrArg List.tail h
          simp only [List.tail_cons] at this
          rw [List.dropWhile_cons_of_pos hd, List.dropWhile_cons_of_pos he]
          rw [this]
        · have he : isPySpace e = false := by
            cases hee : isPySpace e
            · rfl
            · rw [hee] at hhead; exact absurd hhead.symm hd
          rw [f4_pair_nonsp Xt (fun hh => hd hh.2),
            f4_pair_nonsp Z (fun hh => by rw [he] at hh; exact Bool.false_ne_true hh.2)]
          rw [h]
  · have hc' : isPySpace c = false := Bool.eq_false_iff.mpr hc
    rw [f4_cons_nonsp _ hc', f4_cons_nonsp _ hc', h]


lemma f4_append_congr {X Y : List Char} (A : List Char) (h : f4 X = f4 Y) :
    f4 (A ++ X) = f4 (A ++ Y) := by
  induction A with
  | nil => simpa using h
  | cons a A ih => exact f4_cons_congr a ih


lemma f4_spcons (Z : List Char) : f4 (' ' :: Z) = ' ' :: f4 (Z.dropWhile isPySpace) := by
  cases Z with
  | nil => rfl
  | cons e Y =>
    by_cases he : isPySpace e = true
    · rw [f4_pair_sp Y (by decide) he, List.dropWhile_cons_of_pos he]
    · rw [f4_pair_nonsp Y (fun hh => he hh.2),
        List.dropWhile_cons_of_neg (by simp [he])]


lemma pyStripL_eq (l : List Char) : pyStripL l = rdrop (l.dropWhile isPySpace) := rfl


lemma rdrop_app_sp {W : List Char} (X : List Char) (h : ∀ c ∈ W, isPySpace c = true) :
    rdrop (X ++ W) = rdrop X := by
  unfold rdrop
  rw [List.reverse_append]
  have hall : W.reverse.all isPySpace = true :=
    List.all_eq_true.mpr (fun c hc => h c (List.mem_reverse.mp hc))
  rw [dpW_app (p := isPySpace) (A := W.reverse) X.reverse hall]


lemma rdrop_app {X Y : List Char} (h : rdrop Y ≠ []) :
    rdrop (X ++ Y) = X ++ rdrop Y := by
  unfold rdrop at *
  rw [List.reverse_append, List.dropWhile_append]
  have hne : (Y.reverse.dropWhile isPySpace).isEmpty = false := by
    rw [List.isEmpty_eq_false]
    intro hcon
    rw [hcon] at h
    exact h rfl
  rw [if_neg (by rw [hne]; exact Bool.false_ne_true)]
  rw [List.reverse_append, List.reverse_reverse]


lemma rdrop_spec (l : List Char) :
    ∃ W, l = rdrop l ++ W ∧ ∀ c ∈ W, isPySpace c = true := by
  refine ⟨(l.reverse.takeWhile isPySpace).reverse, ?_, ?_⟩
  · unfold rdrop
    rw [← List.reverse_append, List.takeWhile_append_dropWhile, List.reverse_reverse]
  · intro c hc
    rw [List.mem_reverse] at hc
    exact List.mem_takeWhile_imp hc


lemma rdrop_last_nonsp (l : List Char) :
    rdrop l = [] ∨ ∃ A c, rdrop l = A ++ [c] ∧ isPySpace c = false := by
  unfold rdrop
  cases hdr : l.reverse.dropWhile isPySpace with
  | nil => exact Or.inl rfl
  | cons c T =>
    refine Or.inr ⟨T.reverse, c, by simp, ?_⟩
    have := List.head?_dropWhile_not isPySpace l.reverse
    rw [hdr] at this
    simpa using this


lemma rdrop_head {l : List Char} (h : rdrop l ≠ []) : (rdrop l).head? = l.head? := by
  obtain ⟨W, hW, _⟩ := rdrop_spec l
  conv_rhs => rw [hW]
  cases hr : rdrop l with
  | nil => exact absurd hr h
  | cons c T => rfl


lemma rdrop_nil_all_sp {l : List Char} (h : rdrop l = []) : ∀ c ∈ l, isPySpace c = true := by
  obtain ⟨W, hW, hsp⟩ := rdrop_spec l
  rw [h] at hW
  simp only [List.nil_append] at hW
  rw [hW]
  exact hsp


lemma rdrop_idem (l : List Char) : rdrop (rdrop l) = rdrop l := by
  cases hr : rdrop l with
  | nil => rfl
  | cons c T =>
    rcases rdrop_last_nonsp l with hnil | ⟨A, d, hAd, hd⟩
    · rw [hnil] at hr; cases hr
    · rw [← hr, hAd]
      rw [rdrop_app (Y := [d]) (by
        unfold rdrop
        simp [List.dropWhile_cons, hd])]
      unfold rdrop
      simp [List.dropWhile_cons, hd]


lemma rdrop_self_of_last {A : List Char} {c : Char} (hc : isPySpace c = false) :
    rdrop (A ++ [c]) = A ++ [c] := by
  unfold rdrop
  rw [List.reverse_append]
  simp only [List.reverse_cons, List.reverse_nil, List.nil_append, List.singleton_append,
    List.dropWhile_cons]
  rw [hc]
  simp


lemma rdrop_dropWhile_comm (l : List Char) :
    rdrop (l.dropWhile isPySpace) = (rdrop l).dropWhile isPySpace := by
  obtain ⟨W, hW, hsp⟩ := rdrop_spec l
  by_cases hnil : rdrop l = []
  · rw [hnil]
    have hall := rdrop_nil_all_sp hnil
    have : l.dropWhile isPySpace = [] := by
      rw [List.dropWhile_eq_nil_iff]
      exact fun c hc => hall c hc
    rw [this]
    rfl
  · conv_lhs => rw [hW]
    rw [List.dropWhile_append]
    by_cases hemp : ((rdrop l).dropWhile isPySpace).isEmpty = true
    · rw [if_pos hemp]
      rw [List.isEmpty_eq_true] at hemp
      rw [hemp]
      have hwnil : W.dropWhile isPySpace = [] := by
        rw [List.dropWhile_eq_nil_iff]
        exact fun c hc => hsp c hc
      rw [hwnil]
      rfl
    · rw [if_neg hemp]
      rw [rdrop_app_sp _ hsp]
      rcases rdrop_last_nonsp l with hn | ⟨A, d, hAd, hd⟩
      · exact absurd hn hnil
      · rw [hAd, List.dropWhile_append]
        by_cases hA : (A.dropWhile isPySpace).isEmpty = true
        · rw [if_pos hA]
          simp only [List.dropWhile_cons, hd]
          simp only [Bool.false_eq_true, if_false, List.dropWhile_nil]
          exact rdrop_self_of_last (A := []) hd
        · rw [if_neg hA]
          obtain ⟨A2, hA2⟩ : ∃ A2, A.dropWhile isPySpace = A2 := ⟨_, rfl⟩
          rw [hA2]
          exact rdrop_self_of_last hd


lemma normRun_eq (R : List Char) :
    normRun R = if 2 ≤ (R.filter isAsciiLetter).length then R.filter isAsciiLetter else R := rfl


lemma countL_def (R : List Char) : countL R = (R.filter isAsciiLetter).length := rfl


lemma normRun_letters (R : List Char) :
    (normRun R).filter isAsciiLetter = R.filter isAsciiLetter := by
  rw [normRun_eq]
  split
  · rw [List.filter_filter]
    simp
  · rfl


lemma normRun_countL (R : List Char) : countL (normRun R) = countL R := by
  unfold countL
  rw [normRun_letters]


lemma normRun_all_WL {R : List Char} (h : ∀ c ∈ R, isWL c = true) :
    ∀ c ∈ normRun R, isWL c = true := by
  intro c hc
  rw [normRun_eq] at hc
  split at hc
  · exact h c (List.mem_of_mem_filter hc)
  · exact h c hc


lemma normRun_idem (R : List Char) : normRun (normRun R) = normRun R := by
  rw [normRun_eq R]
  split
  · rw [normRun_eq]
    have hfix : (R.filter isAsciiLetter).filter isAsciiLetter = R.filter isAsciiLetter := by
      rw [List.filter_filter]; simp
    simp only [hfix]
    rw [if_pos (by assumption)]
  · rw [normRun_eq, if_neg (by assumption)]


lemma normRun_eq_of_letters {R R' : List Char}
    (h : R.filter isAsciiLetter = R'.filter isAsciiLetter) (h2 : 2 ≤ countL R) :
    normRun R = normRun R' := by
  rw [countL_def] at h2
  rw [normRun_eq, normRun_eq, if_pos h2, h, if_pos (by rw [← h]; exact h2)]


lemma normRun_big (R : List Char) (h2 : 2 ≤ countL R) :
    normRun R = R.filter isAsciiLetter := by
  rw [countL_def] at h2
  rw [normRun_eq, if_pos h2]


lemma normRun_small (R : List Char) (h2 : countL R < 2) : normRun R = R := by
  rw [countL_def] at h2
  rw [normRun_eq, if_neg (by omega)]


lemma stop_of_head {p : Char → Bool} {B : List Char}
    (h : ∀ b, B.head? = some b → p b = false) :
    B.takeWhile p = [] ∧ B.dropWhile p = B := by
  cases B with
  | nil => exact ⟨rfl, rfl⟩
  | cons b bs =>
    have hb := h b rfl
    exact ⟨by simp [List.takeWhile_cons, hb], by simp [List.dropWhile_cons, hb]⟩


lemma tkW_mem_WL {t : List Char} : ∀ c ∈ t.takeWhile isWL, isWL c = true :=
  fun _ hc => List.mem_takeWhile_imp hc


lemma dpW_head_not {t : List Char} :
    ∀ b, (t.dropWhile isWL).head? = some b → isWL b = false := by
  intro b hb
  have := List.head?_dropWhile_not isWL t
  rw [hb] at this
  simpa using this


/-- The two chunk projections of `f1` at a backslash. -/
lemma f1_chunk_split (t : List Char) :
    (normRun (t.takeWhile isWL) ++ f1 (t.dropWhile isWL)).takeWhile isWL
        = normRun (t.takeWhile isWL) ∧
    (normRun (t.takeWhile isWL) ++ f1 (t.dropWhile isWL)).dropWhile isWL
        = f1 (t.dropWhile isWL) := by
  have hWL : (normRun (t.takeWhile isWL)).all isWL :=
    List.all_eq_true.mpr (normRun_all_WL tkW_mem_WL)
  have hstop := stop_of_head (p := isWL) (B := f1 (t.dropWhile isWL)) (by
    intro b hb
    rw [f1_head] at hb
    exact dpW_head_not b hb)
  constructor
  · rw [tkW_app _ hWL, hstop.1, List.append_nil]
  · rw [dpW_app _ hWL, hstop.2]


/-- L-G: the command-repair scan is idempotent. -/
lemma f1_idem_aux : ∀ (n : Nat) (l : List Char), l.length ≤ n → f1 (f1 l) = f1 l := by
  intro n
  induction n with
  | zero =>
    intro l hl
    have : l = [] := by cases l with | nil => rfl | cons a t => simp at hl
    subst this
    rfl
  | succ n ih =>
    intro l hl
    cases l with
    | nil => rfl
    | cons c t =>
      by_cases hc : c = '\\'
      · subst hc
        rw [f1_bs]
        rw [f1_bs (normRun (t.takeWhile isWL) ++ f1 (t.dropWhile isWL))]
        rw [(f1_chunk_split t).1, (f1_chunk_split t).2]
        rw [normRun_idem]
        have hd := dpW_len_le isWL t
        simp only [List.length_cons] at hl
        rw [ih (t.dropWhile isWL) (by omega)]
      · rw [f1_cons _ hc, f1_cons _ hc]
        simp only [List.length_cons] at hl
        rw [ih t (by omega)]


lemma f1_idem (l : List Char) : f1 (f1 l) = f1 l := f1_idem_aux l.length l le_rfl


/-- `f2` preserves the leading whitespace-or-letter run. -/
lemma f2_front (X : List Char) :
    (f2 X).takeWhile isWL = X.takeWhile isWL ∧
    (f2 X).dropWhile isWL = f2 (X.dropWhile isWL) := by
  have hWL : ∀ c ∈ X.takeWhile isWL, c ≠ '\\' :=
    fun c hc => WL_ne_bs (List.mem_takeWhile_imp hc)
  have hsplit : f2 X = X.takeWhile isWL ++ f2 (X.dropWhile isWL) := by
    conv_lhs => rw [← List.takeWhile_append_dropWhile (p := isWL) (l := X)]
    exact f2_copy _ hWL
  have hstop := stop_of_head (p := isWL) (B := f2 (X.dropWhile isWL)) (by
    intro b hb
    rw [f2_head] at hb
    exact dpW_head_not b hb)
  constructor
  · rw [hsplit, tkW_app _ (List.all_eq_true.mpr tkW_mem_WL), hstop.1, List.append_nil]
  · rw [hsplit, dpW_app _ (List.all_eq_true.mpr tkW_mem_WL), hstop.2]


lemma isWL_s : isWL 's' = true := by decide

lemma isWL_i : isWL 'i' = true := by decide

lemma isWL_m : isWL 'm' = true := by decide

lemma isWL_n : isWL 'n' = true := by decide

lemma isWL_e : isWL 'e' = true := by decide

lemma isWL_g : isWL 'g' = true := by decide

lemma isWL_sp : isWL ' ' = true := by decide


lemma filter_sim_sp {d : Char} (hd : isAsciiLetter d = true) :
    List.filter isAsciiLetter ['s', 'i', 'm', ' ', d] = ['s', 'i', 'm', d] := by
  simp only [List.filter_cons, List.filter_nil,
    show isAsciiLetter 's' = true from by decide,
    show isAsciiLetter 'i' = true from by decide,
    show isAsciiLetter 'm' = true from by decide,
    show isAsciiLetter ' ' = false from by decide, hd]
  rfl


lemma filter_neg_sp {d : Char} (hd : isAsciiLetter d = true) :
    List.filter isAsciiLetter ['n', 'e', 'g', ' ', d] = ['n', 'e', 'g', d] := by
  simp only [List.filter_cons, List.filter_nil,
    show isAsciiLetter 'n' = true from by decide,
    show isAsciiLetter 'e' = true from by decide,
    show isAsciiLetter 'g' = true from by decide,
    show isAsciiLetter ' ' = false from by decide, hd]
  rfl


lemma filter_sim {d : Char} (hd : isAsciiLetter d = true) :
    List.filter isAsciiLetter ['s', 'i', 'm', d] = ['s', 'i', 'm', d] := by
  simp only [List.filter_cons, List.filter_nil,
    show isAsciiLetter 's' = true from by decide,
    show isAsciiLetter 'i' = true from by decide,
    show isAsciiLetter 'm' = true from by decide, hd]
  rfl


lemma filter_neg {d : Char} (hd : isAsciiLetter d = true) :
    List.filter isAsciiLetter ['n', 'e', 'g', d] = ['n', 'e', 'g', d] := by
  simp only [List.filter_cons, List.filter_nil,
    show isAsciiLetter 'n' = true from by decide,
    show isAsciiLetter 'e' = true from by decide,
    show isAsciiLetter 'g' = true from by decide, hd]
  rfl


lemma all_WL_sim_sp {d : Char} (hd : isAsciiLetter d = true) :
    (['s', 'i', 'm', ' ', d]).all isWL = true := by
  simp [isWL_s, isWL_i, isWL_m, isWL_sp, letter_WL hd]


lemma all_WL_neg_sp {d : Char} (hd : isAsciiLetter d = true) :
    (['n', 'e', 'g', ' ', d]).all isWL = true := by
  simp [isWL_n, isWL_e, isWL_g, isWL_sp, letter_WL hd]


lemma all_WL_sim {d : Char} (hd : isAsciiLetter d = true) :
    (['s', 'i', 'm', d]).all isWL = true := by
  simp [isWL_s, isWL_i, isWL_m, letter_WL hd]


lemma all_WL_neg {d : Char} (hd : isAsciiLetter d = true) :
    (['n', 'e', 'g', d]).all isWL = true := by
  simp [isWL_n, isWL_e, isWL_g, letter_WL hd]


/-- L-F : running the repair scan after the sim/neg spacing pass gives the
same result as running it directly. -/
lemma f1_f2_aux : ∀ (n : Nat) (l : List Char), l.length ≤ n → f1 (f2 l) = f1 l := by
  intro n
  induction n with
  | zero =>
    intro l hl
    have : l = [] := by cases l with | nil => rfl | cons a t => simp at hl
    subst this
    rfl
  | succ n ih =>
    intro l hl
    cases l with
    | nil => rfl
    | cons c t =>
      simp only [List.length_cons] at hl
      by_cases hc : c = '\\'
      · subst hc
        by_cases hs : ['s', 'i', 'm'].isPrefixOf t
        · obtain ⟨u, rfl⟩ := List.isPrefixOf_iff_prefix.mp hs
          have hdru : (['s', 'i', 'm'] ++ u).drop 3 = u := rfl
          have hlu : u.length + 3 ≤ n := by simp at hl; omega
          cases hu : u with
          | nil =>
            subst hu
            rw [f2_bs_sim_noletter _ hs (by intro d r2 hcon; rw [hdru] at hcon; cases hcon)]
            rfl
          | cons d r2 =>
            subst hu
            by_cases hd : isAsciiLetter d = true
            · show f1 (f2 ('\\' :: 's' :: 'i' :: 'm' :: d :: r2)) = _
              rw [f2_bs_sim_letter r2 hd]
              show f1 ('\\' :: (['s', 'i', 'm', ' ', d] ++ f2 r2)) =
                f1 ('\\' :: (['s', 'i', 'm', d] ++ r2))
              rw [f1_bs, f1_bs]
              rw [tkW_app (f2 r2) (all_WL_sim_sp hd), tkW_app r2 (all_WL_sim hd)]
              rw [dpW_app (f2 r2) (all_WL_sim_sp hd), dpW_app r2 (all_WL_sim hd)]
              rw [(f2_front r2).1, (f2_front r2).2]
              have hdw := dpW_len_le isWL r2
              rw [ih (r2.dropWhile isWL) (by simp at hl; omega)]
              have hnr : normRun (['s', 'i', 'm', ' ', d] ++ r2.takeWhile isWL)
                  = normRun (['s', 'i', 'm', d] ++ r2.takeWhile isWL) := by
                apply normRun_eq_of_letters
                · rw [List.filter_append, List.filter_append, filter_sim_sp hd, filter_sim hd]
                · rw [countL_def, List.filter_append, filter_sim_sp hd]
                  simp
              rw [hnr]
            · rw [f2_bs_sim_noletter _ hs (by
                intro d' r2' hcon
                rw [hdru] at hcon
                cases hcon
                exact Bool.eq_false_iff.mpr hd)]
              rw [hdru]
              show f1 ('\\' :: (['s', 'i', 'm'] ++ f2 (d :: r2))) =
                f1 ('\\' :: (['s', 'i', 'm'] ++ d :: r2))
              rw [f1_bs, f1_bs]
              rw [tkW_app (f2 (d :: r2)) (by decide), tkW_app (d :: r2) (by decide)]
              rw [dpW_app (f2 (d :: r2)) (by decide), dpW_app (d :: r2) (by decide)]
              rw [(f2_front (d :: r2)).1, (f2_front (d :: r2)).2]
              have hdw := dpW_len_le isWL (d :: r2)
              rw [ih ((d :: r2).dropWhile isWL) (by
                have ha : (d :: r2).length = r2.length + 1 := by simp
                simp at hl
                omega)]
        · by_cases hn : ['n', 'e', 'g'].isPrefixOf t
          · obtain ⟨u, rfl⟩ := List.isPrefixOf_iff_prefix.mp hn
            have hdru : (['n', 'e', 'g'] ++ u).drop 3 = u := rfl
            cases hu : u with
            | nil =>
              subst hu
              rw [f2_bs_neg_noletter _ hn (by intro d r2 hcon; rw [hdru] at hcon; cases hcon)]
              rfl
            | cons d r2 =>
              subst hu
              by_cases hd : isAsciiLetter d = true
              · show f1 (f2 ('\\' :: 'n' :: 'e' :: 'g' :: d :: r2)) = _
                rw [f2_bs_neg_letter r2 hd]
                show f1 ('\\' :: (['n', 'e', 'g', ' ', d] ++ f2 r2)) =
                  f1 ('\\' :: (['n', 'e', 'g', d] ++ r2))
                rw [f1_bs, f1_bs]
                rw [tkW_app (f2 r2) (all_WL_neg_sp hd), tkW_app r2 (all_WL_neg hd)]
                rw [dpW_app (f2 r2) (all_WL_neg_sp hd), dpW_app r2 (all_WL_neg hd)]
                rw [(f2_front r2).1, (f2_front r2).2]
                have hdw := dpW_len_le isWL r2
                rw [ih (r2.dropWhile isWL) (by simp at hl; omega)]
                have hnr : normRun (['n', 'e', 'g', ' ', d] ++ r2.takeWhile isWL)
                    = normRun (['n', 'e', 'g', d] ++ r2.takeWhile isWL) := by
                  apply normRun_eq_of_letters
                  · rw [List.filter_append, List.filter_append, filter_neg_sp hd, filter_neg hd]
                  · rw [countL_def, List.filter_append, filter_neg_sp hd]
                    simp
                rw [hnr]
              · rw [f2_bs_neg_noletter _ hn (by
                  intro d' r2' hcon
                  rw [hdru] at hcon
                  cases hcon
                  exact Bool.eq_false_iff.mpr hd)]
                rw [hdru]
                show f1 ('\\' :: (['n', 'e', 'g'] ++ f2 (d :: r2))) =
                  f1 ('\\' :: (['n', 'e', 'g'] ++ d :: r2))
                rw [f1_bs, f1_bs]
                rw [tkW_app (f2 (d :: r2)) (by decide), tkW_app (d :: r2) (by decide)]
                rw [dpW_app (f2 (d :: r2)) (by decide), dpW_app (d :: r2) (by decide)]
                rw [(f2_front (d :: r2)).1, (f2_front (d :: r2)).2]
                have hdw := dpW_len_le isWL (d :: r2)
                rw [ih ((d :: r2).dropWhile isWL) (by
                  have ha : (d :: r2).length = r2.length + 1 := by simp
                  simp at hl
                  omega)]
          · rw [f2_bs_other t hs hn, f1_bs, f1_bs]
            rw [(f2_front t).1, (f2_front t).2]
            have hdw := dpW_len_le isWL t
            rw [ih (t.dropWhile isWL) (by omega)]
      · rw [f2_cons _ hc, f1_cons _ hc, f1_cons _ hc]
        rw [ih t (by omega)]


lemma f1_f2 (l : List Char) : f1 (f2 l) = f1 l := f1_f2_aux l.length l le_rfl


-- ### L-A : f1 commutes with strip

lemma sp_ne_bs {c : Char} (h : isPySpace c = true) : c ≠ '\\' := by
  intro hc
  rw [hc] at h
  exact absurd h (by decide)


lemma dropWhile_sp_f1 (l : List Char) :
    (f1 l).dropWhile isPySpace = f1 (l.dropWhile isPySpace) := by
  have hsplit : f1 l = l.takeWhile isPySpace ++ f1 (l.dropWhile isPySpace) := by
    conv_lhs => rw [← List.takeWhile_append_dropWhile (p := isPySpace) (l := l)]
    exact f1_copy _ (fun c hc => sp_ne_bs (List.mem_takeWhile_imp hc))
  rw [hsplit, dpW_app _ (List.all_eq_true.mpr (fun c hc => List.mem_takeWhile_imp hc))]
  exact (stop_of_head (by
    intro b hb
    rw [f1_head] at hb
    have := List.head?_dropWhile_not isPySpace l
    rw [hb] at this
    simpa using this)).2


lemma rd_cons (c : Char) (rest : List Char) :
    rdrop (c :: rest) =
      if rdrop rest = [] then (if isPySpace c then [] else [c]) else c :: rdrop rest := by
  unfold rdrop
  rw [show (c :: rest).reverse = rest.reverse ++ [c] from by simp]
  rw [List.dropWhile_append]
  by_cases hemp : (rest.reverse.dropWhile isPySpace).isEmpty = true
  · rw [if_pos hemp]
    rw [List.isEmpty_eq_true] at hemp
    rw [if_pos (by rw [hemp]; rfl)]
    by_cases hsp : isPySpace c = true
    · rw [if_pos hsp]
      simp [List.dropWhile_cons, hsp]
    · rw [if_neg hsp]
      simp only [List.dropWhile_cons]
      rw [show isPySpace c = false from Bool.eq_false_iff.mpr hsp]
      simp
  · rw [if_neg hemp]
    have hne : List.dropWhile isPySpace rest.reverse ≠ [] := by
      intro hcon
      exact hemp (by rw [hcon]; rfl)
    rw [if_neg (by
      intro hcon
      exact hne (by simpa using congrArg List.reverse hcon))]
    simp


lemma rdrop_nil_of_all_sp {X : List Char} (h : ∀ c ∈ X, isPySpace c = true) :
    rdrop X = [] := by
  have := rdrop_app_sp (W := X) [] h
  simpa using this


lemma rdrop_mem {c : Char} {t : List Char} (hc : c ∈ rdrop t) : c ∈ t := by
  obtain ⟨W, hW, _⟩ := rdrop_spec t
  rw [hW]
  exact List.mem_append_left W hc


lemma rdrop_filter_letters (t : List Char) :
    (rdrop t).filter isAsciiLetter = t.filter isAsciiLetter := by
  obtain ⟨W, hW, hsp⟩ := rdrop_spec t
  conv_rhs => rw [hW]
  rw [List.filter_append]
  have : W.filter isAsciiLetter = [] := by
    rw [List.filter_eq_nil_iff]
    intro c hc
    rw [sp_not_letter (hsp c hc)]
    exact Bool.false_ne_true
  rw [this, List.append_nil]


lemma rdrop_id_nonsp {X : List Char} (h : ∀ c ∈ X, isPySpace c = false) :
    rdrop X = X := by
  cases hX : X.reverse with
  | nil =>
    have hXnil : X = [] := by simpa using congrArg List.reverse hX
    subst hXnil
    rfl
  | cons y ys =>
    unfold rdrop
    rw [hX, List.dropWhile_cons,
      h y (by rw [← List.mem_reverse, hX]; exact List.mem_cons_self y ys)]
    simp only [Bool.false_eq_true, if_false]
    rw [← hX, List.reverse_reverse]


lemma rdrop_f1 : ∀ (n : Nat) (l : List Char), l.length ≤ n → f1 (rdrop l) = rdrop (f1 l) := by
  intro n
  induction n with
  | zero =>
    intro l hl
    have : l = [] := by cases l with | nil => rfl | cons a t => simp at hl
    subst this
    rfl
  | succ n ih =>
    intro l hl
    cases l with
    | nil => rfl
    | cons c t =>
      simp only [List.length_cons] at hl
      by_cases hc : c = '\\'
      · subst hc
        rw [f1_bs]
        cases hrest : t.dropWhile isWL with
        | nil =>
          have htW : t.takeWhile isWL = t := by
            conv_rhs => rw [← List.takeWhile_append_dropWhile (p := isWL) (l := t)]
            rw [hrest, List.append_nil]
          by_cases hrd : rdrop t = []
          · rw [rd_cons, if_pos hrd]
            rw [show isPySpace '\\' = false from by decide]
            simp only [Bool.false_eq_true, if_false]
            have hsp := rdrop_nil_all_sp hrd
            have hnorm : normRun (t.takeWhile isWL) = t := by
              rw [htW, normRun_small]
              rw [countL_def]
              have : t.filter isAsciiLetter = [] := by
                rw [List.filter_eq_nil_iff]
                intro a ha
                rw [sp_not_letter (hsp a ha)]
                exact Bool.false_ne_true
              rw [this]
              simp
            rw [hnorm]
            rw [show f1 ['\\'] = '\\' :: (normRun [] ++ f1 []) from f1_bs []]
            rw [show f1 [] = [] from rfl, rd_cons]
            rw [if_pos (by
              apply rdrop_nil_of_all_sp
              intro a ha
              rw [List.append_nil] at ha
              exact hsp a ha)]
            rw [show isPySpace '\\' = false from by decide]
            rfl
          · rw [rd_cons, if_neg hrd]
            rw [f1_bs]
            have hWL : ∀ a ∈ rdrop t, isWL a = true := by
              intro a ha
              have hmem : a ∈ t.takeWhile isWL := by
                rw [htW]
                exact rdrop_mem ha
              exact List.mem_takeWhile_imp hmem
            have htk : (rdrop t).takeWhile isWL = rdrop t := by
              conv_rhs => rw [← List.takeWhile_append_dropWhile (p := isWL) (l := rdrop t)]
              rw [List.dropWhile_eq_nil_iff.mpr (fun a ha => hWL a ha), List.append_nil]
            have hdp : (rdrop t).dropWhile isWL = [] :=
              List.dropWhile_eq_nil_iff.mpr (fun a ha => hWL a ha)
            rw [htk, hdp]
            rw [show f1 [] = [] from rfl, List.append_nil, List.append_nil]
            rw [rd_cons]
            by_cases hbig : 2 ≤ countL (t.takeWhile isWL)
            · have hlet : normRun (t.takeWhile isWL) = t.filter isAsciiLetter := by
                rw [normRun_big _ hbig, htW]
              rw [hlet]
              have hnosp : ∀ a ∈ t.filter isAsciiLetter, isPySpace a = false := by
                intro a ha
                exact Bool.eq_false_iff.mpr (fun hsp =>
                  absurd (List.of_mem_filter ha) (by rw [sp_not_letter hsp]; exact Bool.false_ne_true))
              rw [if_neg (by
                intro hcon
                rw [rdrop_id_nonsp hnosp] at hcon
                have h2 : 2 ≤ (t.filter isAsciiLetter).length := by
                  rw [countL_def, htW] at hbig
                  exact hbig
                rw [hcon] at h2
                simp at h2)]
              rw [rdrop_id_nonsp hnosp]
              have : normRun (rdrop t) = t.filter isAsciiLetter := by
                rw [normRun_big, rdrop_filter_letters]
                rw [countL_def, rdrop_filter_letters, ← htW]
                rw [countL_def] at hbig
                exact hbig
              rw [this]
            · have hsmall : normRun (t.takeWhile isWL) = t := by
                rw [normRun_small _ (by omega), htW]
              rw [hsmall, if_neg hrd]
              have : normRun (rdrop t) = rdrop t := by
                apply normRun_small
                rw [countL_def, rdrop_filter_letters]
                rw [countL_def, htW] at hbig
                omega
              rw [this]
        | cons r0 rest' =>
          have hr0 : isWL r0 = false := by
            have := List.head?_dropWhile_not isWL t
            rw [hrest] at this
            simpa using this
          have hr0sp : isPySpace r0 = false := by
            cases hsp : isPySpace r0
            · rfl
            · rw [sp_WL hsp] at hr0; cases hr0
          have hrdrest : rdrop (r0 :: rest') ≠ [] := by
            intro hcon
            have := rdrop_nil_all_sp hcon r0 (List.mem_cons_self _ _)
            rw [hr0sp] at this
            cases this
          have hsplit_t : t = t.takeWhile isWL ++ (r0 :: rest') := by
            conv_lhs => rw [← List.takeWhile_append_dropWhile (p := isWL) (l := t)]
            rw [hrest]
          have hrdt : rdrop t = t.takeWhile isWL ++ rdrop (r0 :: rest') := by
            conv_lhs => rw [hsplit_t]
            exact rdrop_app hrdrest
          have hrdt_ne : rdrop t ≠ [] := by
            rw [hrdt]
            intro hcon
            rcases List.append_eq_nil.mp hcon with ⟨_, h2⟩
            exact hrdrest h2
          rw [rd_cons, if_neg hrdt_ne, f1_bs, hrdt]
          have hallWL : (t.takeWhile isWL).all isWL = true :=
            List.all_eq_true.mpr (fun a ha => List.mem_takeWhile_imp ha)
          rw [tkW_app _ hallWL, dpW_app _ hallWL]
          have hhead_rd : (rdrop (r0 :: rest')).head? = some r0 := by
            rw [rdrop_head hrdrest]
            rfl
          have hstop := stop_of_head (p := isWL) (B := rdrop (r0 :: rest')) (by
            intro b hb
            rw [hhead_rd] at hb
            cases hb
            exact hr0)
          rw [hstop.1, hstop.2, List.append_nil]
          have hlen2 : (r0 :: rest').length ≤ n := by
            have h2 : (r0 :: rest').length ≤ t.length := by
              conv_rhs => rw [hsplit_t]
              simp
            omega
          rw [ih (r0 :: rest') hlen2]
          have hf1ne : rdrop (f1 (r0 :: rest')) ≠ [] := by
            rw [← ih (r0 :: rest') hlen2]
            exact f1_ne_nil hrdrest
          rw [show '\\' :: (normRun (t.takeWhile isWL) ++ f1 (r0 :: rest'))
              = ('\\' :: normRun (t.takeWhile isWL)) ++ f1 (r0 :: rest') from rfl]
          rw [rdrop_app hf1ne]
          rfl
      · rw [f1_cons _ hc, rd_cons, rd_cons]
        by_cases hrd : rdrop t = []
        · rw [if_pos hrd]
          have hrdf : rdrop (f1 t) = [] := by
            rw [f1_id (fun a ha => sp_ne_bs (rdrop_nil_all_sp hrd a ha))]
            exact hrd
          rw [if_pos hrdf]
          by_cases hsp : isPySpace c = true
          · rw [if_pos hsp]
            rfl
          · rw [if_neg hsp, f1_cons _ hc]
            rfl
        · rw [if_neg hrd]
          have hf1rd : rdrop (f1 t) ≠ [] := by
            rw [← ih t (by omega)]
            exact f1_ne_nil hrd
          rw [if_neg hf1rd, f1_cons _ hc, ih t (by omega)]


lemma pyStripL_f1 (l : List Char) : f1 (pyStripL l) = pyStripL (f1 l) := by
  rw [pyStripL_eq, pyStripL_eq]
  rw [dropWhile_sp_f1 l]
  exact rdrop_f1 (l.dropWhile isPySpace).length _ le_rfl


-- ### L-B2 : f2 commutes with strip

lemma letter_not_sp {c : Char} (h : isAsciiLetter c = true) : isPySpace c = false := by
  cases hsp : isPySpace c
  · rfl
  · rw [sp_not_letter hsp] at h; cases h


lemma prefix_append_self (P X : List Char) : P.isPrefixOf (P ++ X) = true :=
  List.isPrefixOf_iff_prefix.mpr ⟨X, rfl⟩


lemma prefix_app_sp {P W : List Char} (hP : ∀ c ∈ P, isPySpace c = false)
    (hW : ∀ c ∈ W, isPySpace c = true) :
    ∀ (A : List Char), P.isPrefixOf (A ++ W) = P.isPrefixOf A := by
  induction P with
  | nil => intro A; simp [List.isPrefixOf]
  | cons p P ih =>
    intro A
    cases A with
    | nil =>
      simp only [List.nil_append]
      cases W with
      | nil => rfl
      | cons w W' =>
        have hpw : (p == w) = false := by
          rw [beq_eq_false_iff_ne]
          intro hcon
          have h1 := hP p (List.mem_cons_self _ _)
          have h2 := hW w (List.mem_cons_self _ _)
          rw [hcon, h2] at h1
          cases h1
        simp [List.isPrefixOf, hpw]
    | cons a A' =>
      simp only [List.cons_append]
      show (p == a && P.isPrefixOf (A' ++ W)) = (p == a && P.isPrefixOf A')
      rw [ih (fun c hc => hP c (List.mem_cons_of_mem p hc)) A']


lemma find?_congr {α : Type} {p q : α → Bool} :
    ∀ (l : List α), (∀ x ∈ l, p x = q x) → l.find? p = l.find? q := by
  intro l
  induction l with
  | nil => intro _; rfl
  | cons a l ih =>
    intro h
    rw [List.find?_cons, List.find?_cons, h a (List.mem_cons_self _ _),
      ih (fun x hx => h x (List.mem_cons_of_mem a hx))]


lemma f2_append_spW : ∀ (n : Nat) (A W : List Char), A.length ≤ n →
    (∀ c ∈ W, isPySpace c = true) → f2 (A ++ W) = f2 A ++ W := by
  intro n
  induction n with
  | zero =>
    intro A W hA hW
    have : A = [] := by cases A with | nil => rfl | cons a t => simp at hA
    subst this
    simpa using f2_id (fun c hc => sp_ne_bs (hW c hc))
  | succ n ih =>
    intro A W hA hW
    cases A with
    | nil => simpa using f2_id (fun c hc => sp_ne_bs (hW c hc))
    | cons c A' =>
      simp only [List.length_cons] at hA
      by_cases hc : c = '\\'
      · subst hc
        by_cases hs : ['s', 'i', 'm'].isPrefixOf A'
        · obtain ⟨u, rfl⟩ := List.isPrefixOf_iff_prefix.mp hs
          cases hu : u with
          | nil =>
            subst hu
            rw [show ('\\' :: (['s', 'i', 'm'] ++ []) ++ W) = '\\' :: (['s', 'i', 'm'] ++ W)
              from by simp]
            rw [f2_bs_sim_noletter (['s', 'i', 'm'] ++ W) (prefix_append_self _ _)
              (by
                intro d r2 hcon
                have hWc : W = d :: r2 := hcon
                subst hWc
                exact sp_not_letter (hW d (List.mem_cons_self _ _)))]
            rw [show (['s', 'i', 'm'] ++ W).drop 3 = W from rfl]
            rw [f2_id (fun c hc => sp_ne_bs (hW c hc))]
            have hL : f2 ('\\' :: (['s', 'i', 'm'] ++ [])) = '\\' :: 's' :: 'i' :: 'm' :: f2 [] := by
              have := f2_bs_sim_noletter (['s', 'i', 'm'] ++ ([] : List Char))
                (prefix_append_self _ _) (by intro d r2 hcon; cases hcon)
              simpa using this
            rw [hL]
            rfl
          | cons d r2 =>
            subst hu
            by_cases hd : isAsciiLetter d = true
            · have hL : f2 ('\\' :: (['s', 'i', 'm'] ++ d :: r2))
                  = '\\' :: 's' :: 'i' :: 'm' :: ' ' :: d :: f2 r2 := f2_bs_sim_letter r2 hd
              have hLW : f2 ('\\' :: (['s', 'i', 'm'] ++ d :: r2) ++ W)
                  = '\\' :: 's' :: 'i' :: 'm' :: ' ' :: d :: f2 (r2 ++ W) := by
                have := f2_bs_sim_letter (d := d) (r2 ++ W) hd
                simpa using this
              rw [hLW, hL, ih r2 W (by simp at hA; omega) hW]
              rfl
            · have hnol : isAsciiLetter d = false := Bool.eq_false_iff.mpr hd
              have hL : f2 ('\\' :: (['s', 'i', 'm'] ++ d :: r2))
                  = '\\' :: 's' :: 'i' :: 'm' :: f2 (d :: r2) := by
                have := f2_bs_sim_noletter (['s', 'i', 'm'] ++ d :: r2) (prefix_append_self _ _)
                  (by
                    intro d' r2' hcon
                    have hdd : d :: r2 = d' :: r2' := hcon
                    cases hdd
                    exact hnol)
                simpa using this
              have hLW : f2 ('\\' :: (['s', 'i', 'm'] ++ d :: r2) ++ W)
                  = '\\' :: 's' :: 'i' :: 'm' :: f2 (d :: r2 ++ W) := by
                have := f2_bs_sim_noletter (['s', 'i', 'm'] ++ (d :: r2 ++ W))
                  (prefix_append_self _ _)
                  (by
                    intro d' r2' hcon
                    have hdd : d :: (r2 ++ W) = d' :: r2' := hcon
                    cases hdd
                    exact hnol)
                simpa using this
              rw [hLW, hL, ih (d :: r2) W (by simp at hA ⊢; omega) hW]
              rfl
        · by_cases hn : ['n', 'e', 'g'].isPrefixOf A'
          · obtain ⟨u, rfl⟩ := List.isPrefixOf_iff_prefix.mp hn
            cases hu : u with
            | nil =>
              subst hu
              rw [show ('\\' :: (['n', 'e', 'g'] ++ []) ++ W) = '\\' :: (['n', 'e', 'g'] ++ W)
                from by simp]
              rw [f2_bs_neg_noletter (['n', 'e', 'g'] ++ W) (prefix_append_self _ _)
                (by
                  intro d r2 hcon
                  have hWc : W = d :: r2 := hcon
                  subst hWc
                  exact sp_not_letter (hW d (List.mem_cons_self _ _)))]
              rw [show (['n', 'e', 'g'] ++ W).drop 3 = W from rfl]
              rw [f2_id (fun c hc => sp_ne_bs (hW c hc))]
              have hL : f2 ('\\' :: (['n', 'e', 'g'] ++ []))
                  = '\\' :: 'n' :: 'e' :: 'g' :: f2 [] := by
                have := f2_bs_neg_noletter (['n', 'e', 'g'] ++ ([] : List Char))
                  (prefix_append_self _ _) (by intro d r2 hcon; cases hcon)
                simpa using this
              rw [hL]
              rfl
            | cons d r2 =>
              subst hu
              by_cases hd : isAsciiLetter d = true
              · have hL : f2 ('\\' :: (['n', 'e', 'g'] ++ d :: r2))
                    = '\\' :: 'n' :: 'e' :: 'g' :: ' ' :: d :: f2 r2 := f2_bs_neg_letter r2 hd
                have hLW : f2 ('\\' :: (['n', 'e', 'g'] ++ d :: r2) ++ W)
                    = '\\' :: 'n' :: 'e' :: 'g' :: ' ' :: d :: f2 (r2 ++ W) := by
                  have := f2_bs_neg_letter (d := d) (r2 ++ W) hd
                  simpa using this
                rw [hLW, hL, ih r2 W (by simp at hA; omega) hW]
                rfl
              · have hnol : isAsciiLetter d = false := Bool.eq_false_iff.mpr hd
                have hL : f2 ('\\' :: (['n', 'e', 'g'] ++ d :: r2))
                    = '\\' :: 'n' :: 'e' :: 'g' :: f2 (d :: r2) := by
                  have := f2_bs_neg_noletter (['n', 'e', 'g'] ++ d :: r2) (prefix_append_self _ _)
                    (by
                      intro d' r2' hcon
                      have hdd : d :: r2 = d' :: r2' := hcon
                      cases hdd
                      exact hnol)
                  simpa using this
                have hLW : f2 ('\\' :: (['n', 'e', 'g'] ++ d :: r2) ++ W)
                    = '\\' :: 'n' :: 'e' :: 'g' :: f2 (d :: r2 ++ W) := by
                  have := f2_bs_neg_noletter (['n', 'e', 'g'] ++ (d :: r2 ++ W))
                    (prefix_append_self _ _)
                    (by
                      intro d' r2' hcon
                      have hdd : d :: (r2 ++ W) = d' :: r2' := hcon
                      cases hdd
                      exact hnol)
                  simpa using this
                rw [hLW, hL, ih (d :: r2) W (by simp at hA ⊢; omega) hW]
                rfl
          · have hsync_s := prefix_app_sp (P := ['s', 'i', 'm'])
              (by intro x hx; fin_cases hx <;> decide) hW A'
            have hsync_n := prefix_app_sp (P := ['n', 'e', 'g'])
              (by intro x hx; fin_cases hx <;> decide) hW A'
            rw [List.cons_append,
              f2_bs_other _ (by rw [hsync_s]; exact hs) (by rw [hsync_n]; exact hn)]
            rw [ih A' W (by omega) hW, f2_bs_other _ hs hn]
            rfl
      · rw [List.cons_append, f2_cons _ hc, f2_cons _ hc, ih A' W (by omega) hW]
        rfl


lemma lastOk_append {A B : List Char} (hB : B ≠ []) (h : lastOk B) : lastOk (A ++ B) := by
  intro c hc
  rw [List.getLast?_append_of_ne_nil _ hB] at hc
  exact h c hc


lemma lastOk_append_inv {A B : List Char} (hB : B ≠ []) (h : lastOk (A ++ B)) : lastOk B := by
  intro c hc
  apply h c
  rw [List.getLast?_append_of_ne_nil _ hB]
  exact hc


lemma f2_last : ∀ (n : Nat) (A : List Char), A.length ≤ n → lastOk A → lastOk (f2 A) := by
  intro n
  induction n with
  | zero =>
    intro A hA h
    have : A = [] := by cases A with | nil => rfl | cons a t => simp at hA
    subst this
    exact h
  | succ n ih =>
    intro A hA h
    cases A with
    | nil => exact h
    | cons c A' =>
      simp only [List.length_cons] at hA
      by_cases hc : c = '\\'
      · subst hc
        by_cases hs : ['s', 'i', 'm'].isPrefixOf A'
        · obtain ⟨u, rfl⟩ := List.isPrefixOf_iff_prefix.mp hs
          cases hu : u with
          | nil =>
            subst hu
            have hL : f2 ('\\' :: (['s', 'i', 'm'] ++ [])) = ['\\', 's', 'i', 'm'] := by
              have := f2_bs_sim_noletter (['s', 'i', 'm'] ++ ([] : List Char))
                (prefix_append_self _ _) (by intro d r2 hcon; cases hcon)
              simpa using this
            rw [hL]
            intro c hc2
            have : c = 'm' := by symm; simpa using hc2
            subst this
            decide
          | cons d r2 =>
            subst hu
            by_cases hd : isAsciiLetter d = true
            · have hL : f2 ('\\' :: (['s', 'i', 'm'] ++ d :: r2))
                  = ['\\', 's', 'i', 'm', ' ', d] ++ f2 r2 := f2_bs_sim_letter r2 hd
              rw [hL]
              cases hr2 : r2 with
              | nil =>
                intro c hc2
                have : c = d := by
                  symm
                  simpa [show f2 ([] : List Char) = [] from rfl] using hc2
                subst this
                exact letter_not_sp hd
              | cons e r3 =>
                have hne : f2 r2 ≠ [] := by rw [hr2]; exact f2_ne_nil (by simp)
                rw [← hr2]
                apply lastOk_append hne
                apply ih r2 (by simp at hA; omega)
                exact lastOk_append_inv (A := ['\\', 's', 'i', 'm', d]) (by rw [hr2]; simp) h
            · have hnol : isAsciiLetter d = false := Bool.eq_false_iff.mpr hd
              have hL : f2 ('\\' :: (['s', 'i', 'm'] ++ d :: r2))
                  = ['\\', 's', 'i', 'm'] ++ f2 (d :: r2) := by
                have := f2_bs_sim_noletter (['s', 'i', 'm'] ++ d :: r2) (prefix_append_self _ _)
                  (by
                    intro d' r2' hcon
                    have hdd : d :: r2 = d' :: r2' := hcon
                    cases hdd
                    exact hnol)
                simpa using this
              rw [hL]
              apply lastOk_append (f2_ne_nil (by simp))
              apply ih (d :: r2) (by simp at hA ⊢; omega)
              exact lastOk_append_inv (A := ['\\', 's', 'i', 'm']) (by simp) h
        · by_cases hn : ['n', 'e', 'g'].isPrefixOf A'
          · obtain ⟨u, rfl⟩ := List.isPrefixOf_iff_prefix.mp hn
            cases hu : u with
            | nil =>
              subst hu
              have hL : f2 ('\\' :: (['n', 'e', 'g'] ++ [])) = ['\\', 'n', 'e', 'g'] := by
                have := f2_bs_neg_noletter (['n', 'e', 'g'] ++ ([] : List Char))
                  (prefix_append_self _ _) (by intro d r2 hcon; cases hcon)
                simpa using this
              rw [hL]
              intro c hc2
              have : c = 'g' := by symm; simpa using hc2
              subst this
              decide
            | cons d r2 =>
              subst hu
              by_cases hd : isAsciiLetter d = true
              · have hL : f2 ('\\' :: (['n', 'e', 'g'] ++ d :: r2))
                    = ['\\', 'n', 'e', 'g', ' ', d] ++ f2 r2 := f2_bs_neg_letter r2 hd
                rw [hL]
                cases hr2 : r2 with
                | nil =>
                  intro c hc2
                  have : c = d := by
                    symm
                    simpa [show f2 ([] : List Char) = [] from rfl] using hc2
                  subst this
                  exact letter_not_sp hd
                | cons e r3 =>
                  have hne : f2 r2 ≠ [] := by rw [hr2]; exact f2_ne_nil (by simp)
                  rw [← hr2]
                  apply lastOk_append hne
                  apply ih r2 (by simp at hA; omega)
                  exact lastOk_append_inv (A := ['\\', 'n', 'e', 'g', d]) (by rw [hr2]; simp) h
              · have hnol : isAsciiLetter d = false := Bool.eq_false_iff.mpr hd
                have hL : f2 ('\\' :: (['n', 'e', 'g'] ++ d :: r2))
                    = ['\\', 'n', 'e', 'g'] ++ f2 (d :: r2) := by
                  have := f2_bs_neg_noletter (['n', 'e', 'g'] ++ d :: r2) (prefix_append_self _ _)
                    (by
                      intro d' r2' hcon
                      have hdd : d :: r2 = d' :: r2' := hcon
                      cases hdd
                      exact hnol)
                  simpa using this
                rw [hL]
                apply lastOk_append (f2_ne_nil (by simp))
                apply ih (d :: r2) (by simp at hA ⊢; omega)
                exact lastOk_append_inv (A := ['\\', 'n', 'e', 'g']) (by simp) h
          · rw [f2_bs_other _ hs hn]
            cases hA' : A' with
            | nil =>
              intro c hc2
              have : c = '\\' := by
                symm
                simpa [show f2 ([] : List Char) = [] from rfl] using hc2
              subst this
              decide
            | cons e A'' =>
              have hne : f2 A' ≠ [] := by rw [hA']; exact f2_ne_nil (by simp)
              rw [← hA']
              apply lastOk_append (A := ['\\']) hne
              apply ih A' (by omega)
              rw [hA']
              rw [hA'] at h
              exact lastOk_append_inv (A := ['\\']) (by simp) h
      · rw [f2_cons _ hc]
        cases hA' : A' with
        | nil =>
          intro c2 hc2
          have : c2 = c := by
            symm
            simpa [show f2 ([] : List Char) = [] from rfl] using hc2
          rw [this]
          exact h c (by rw [hA']; rfl)
        | cons e A'' =>
          have hne : f2 A' ≠ [] := by rw [hA']; exact f2_ne_nil (by simp)
          rw [← hA']
          apply lastOk_append (A := [c]) hne
          apply ih A' (by omega)
          rw [hA']
          rw [hA'] at h
          exact lastOk_append_inv (A := [c]) (by simp) h


lemma rdrop_id_lastOk {X : List Char} (h : lastOk X) : rdrop X = X := by
  cases hX : X.reverse with
  | nil =>
    have hXnil : X = [] := by simpa using congrArg List.reverse hX
    subst hXnil
    rfl
  | cons y ys =>
    unfold rdrop
    have hy : X.getLast? = some y := by
      rw [← List.head?_reverse, hX]
      rfl
    rw [hX, List.dropWhile_cons, h y hy]
    simp only [Bool.false_eq_true, if_false]
    rw [← hX, List.reverse_reverse]


lemma dropWhile_sp_f2 (l : List Char) :
    (f2 l).dropWhile isPySpace = f2 (l.dropWhile isPySpace) := by
  have hsplit : f2 l = l.takeWhile isPySpace ++ f2 (l.dropWhile isPySpace) := by
    conv_lhs => rw [← List.takeWhile_append_dropWhile (p := isPySpace) (l := l)]
    exact f2_copy _ (fun c hc => sp_ne_bs (List.mem_takeWhile_imp hc))
  rw [hsplit, dpW_app _ (List.all_eq_true.mpr (fun c hc => List.mem_takeWhile_imp hc))]
  exact (stop_of_head (by
    intro b hb
    rw [f2_head] at hb
    have := List.head?_dropWhile_not isPySpace l
    rw [hb] at this
    simpa using this)).2


lemma rdrop_f2 (l : List Char) : f2 (rdrop l) = rdrop (f2 l) := by
  obtain ⟨W, hW, hsp⟩ := rdrop_spec l
  have hlast : lastOk (rdrop l) := by
    rcases rdrop_last_nonsp l with hn | ⟨A, c, hAc, hc⟩
    · rw [hn]; intro c hc2; cases hc2
    · rw [hAc]
      intro c2 hc2
      rw [List.getLast?_append_of_ne_nil _ (by simp)] at hc2
      have : c2 = c := by symm; simpa using hc2
      subst this
      exact hc
  conv_rhs => rw [hW]
  rw [f2_append_spW (rdrop l).length (rdrop l) W le_rfl hsp]
  rw [rdrop_app_sp _ hsp]
  rw [rdrop_id_lastOk (f2_last (rdrop l).length (rdrop l) le_rfl hlast)]


lemma pyStripL_f2 (l : List Char) : f2 (pyStripL l) = pyStripL (f2 l) := by
  rw [pyStripL_eq, pyStripL_eq]
  rw [dropWhile_sp_f2 l]
  exact rdrop_f2 _


-- ### f4 interaction lemmas

lemma dpW_append2 {p : Char → Bool} {B : List Char}
    (hB : ∀ b, B.head? = some b → p b = false) :
    ∀ (X : List Char), (X ++ B).dropWhile p = X.dropWhile p ++ B := by
  intro X
  induction X with
  | nil =>
    simp only [List.nil_append, List.dropWhile_nil]
    exact (stop_of_head hB).2
  | cons x X' ih =>
    simp only [List.cons_append, List.dropWhile_cons]
    split
    · exact ih
    · rfl


lemma f4_append_nonsp_head : ∀ (n : Nat) (A B : List Char), A.length ≤ n →
    (∀ b, B.head? = some b → isPySpace b = false) →
    f4 (A ++ B) = f4 A ++ f4 B := by
  intro n
  induction n with
  | zero =>
    intro A B hA _
    have : A = [] := by cases A with | nil => rfl | cons a t => simp at hA
    subst this
    rfl
  | succ n ih =>
    intro A B hA hB
    cases A with
    | nil => rfl
    | cons a1 A1 =>
      simp only [List.length_cons] at hA
      cases A1 with
      | nil =>
        cases B with
        | nil => simp [show f4 ([] : List Char) = [] from rfl]
        | cons b B' =>
          have hb : isPySpace b = false := hB b rfl
          show f4 (a1 :: b :: B') = f4 [a1] ++ f4 (b :: B')
          rw [f4_pair_nonsp B' (fun hh => by rw [hb] at hh; exact Bool.false_ne_true hh.2)]
          rfl
      | cons a2 A2 =>
        simp only [List.length_cons] at hA
        by_cases hsp : isPySpace a1 = true ∧ isPySpace a2 = true
        · show f4 (a1 :: a2 :: (A2 ++ B)) = _
          rw [f4_pair_sp _ hsp.1 hsp.2]
          rw [show ((a2 :: (A2 ++ B)) : List Char) = (a2 :: A2) ++ B from rfl]
          rw [dpW_append2 hB (a2 :: A2)]
          have hlen := dpW_len_le isPySpace (a2 :: A2)
          simp only [List.length_cons] at hlen
          rw [ih ((a2 :: A2).dropWhile isPySpace) B (by omega) hB]
          rw [f4_pair_sp _ hsp.1 hsp.2]
          rfl
        · show f4 (a1 :: a2 :: (A2 ++ B)) = _
          rw [f4_pair_nonsp _ hsp]
          rw [show ((a2 :: (A2 ++ B)) : List Char) = (a2 :: A2) ++ B from rfl]
          rw [ih (a2 :: A2) B (by simp; omega) hB]
          rw [f4_pair_nonsp _ hsp]
          rfl


lemma f4_mem : ∀ (n : Nat) (X : List Char), X.length ≤ n →
    ∀ c ∈ f4 X, c ∈ X ∨ c = ' ' := by
  intro n
  induction n with
  | zero =>
    intro X hX c hc
    have : X = [] := by cases X with | nil => rfl | cons a t => simp at hX
    subst this
    cases hc
  | succ n ih =>
    intro X hX c hc
    cases X with
    | nil => cases hc
    | cons x1 X1 =>
      simp only [List.length_cons] at hX
      cases X1 with
      | nil =>
        rw [f4_one] at hc
        left
        exact hc
      | cons x2 X2 =>
        simp only [List.length_cons] at hX
        by_cases hsp : isPySpace x1 = true ∧ isPySpace x2 = true
        · rw [f4_pair_sp _ hsp.1 hsp.2] at hc
          rcases List.mem_cons.mp hc with hsp2 | hc2
          · right; exact hsp2
          · have hlen := dpW_len_le isPySpace (x2 :: X2)
            simp only [List.length_cons] at hlen
            rcases ih ((x2 :: X2).dropWhile isPySpace) (by omega) c hc2 with hm | hs
            · left
              exact List.mem_cons_of_mem x1 ((List.dropWhile_sublist _).mem hm)
            · right; exact hs
        · rw [f4_pair_nonsp _ hsp] at hc
          rcases List.mem_cons.mp hc with h1 | hc2
          · left; rw [h1]; exact List.mem_cons_self _ _
          · rcases ih (x2 :: X2) (by simp; omega) c hc2 with hm | hs
            · left; exact List.mem_cons_of_mem x1 hm
            · right; exact hs


lemma f4_all_WL {X : List Char} (h : ∀ c ∈ X, isWL c = true) :
    ∀ c ∈ f4 X, isWL c = true := by
  intro c hc
  rcases f4_mem X.length X le_rfl c hc with hm | hs
  · exact h c hm
  · rw [hs]; decide


lemma filter_letters_dpW_sp : ∀ (Z : List Char),
    (Z.dropWhile isPySpace).filter isAsciiLetter = Z.filter isAsciiLetter := by
  intro Z
  induction Z with
  | nil => rfl
  | cons z Z' ih =>
    rw [List.dropWhile_cons]
    split
    · rw [ih, List.filter_cons, sp_not_letter (by assumption)]
      simp
    · rfl


lemma f4_letters : ∀ (n : Nat) (X : List Char), X.length ≤ n →
    (f4 X).filter isAsciiLetter = X.filter isAsciiLetter := by
  intro n
  induction n with
  | zero =>
    intro X hX
    have : X = [] := by cases X with | nil => rfl | cons a t => simp at hX
    subst this
    rfl
  | succ n ih =>
    intro X hX
    cases X with
    | nil => rfl
    | cons x1 X1 =>
      simp only [List.length_cons] at hX
      cases X1 with
      | nil => rfl
      | cons x2 X2 =>
        simp only [List.length_cons] at hX
        by_cases hsp : isPySpace x1 = true ∧ isPySpace x2 = true
        · have hR : List.filter isAsciiLetter (x1 :: x2 :: X2)
              = List.filter isAsciiLetter (x2 :: X2) := by
            rw [List.filter_cons, sp_not_letter hsp.1]
            simp
          rw [hR, f4_pair_sp _ hsp.1 hsp.2]
          have hlen := dpW_len_le isPySpace (x2 :: X2)
          simp only [List.length_cons] at hlen
          rw [List.filter_cons, show isAsciiLetter ' ' = false from by decide]
          simp only [Bool.false_eq_true, if_false]
          rw [ih ((x2 :: X2).dropWhile isPySpace) (by omega)]
          rw [filter_letters_dpW_sp]
        · rw [f4_pair_nonsp _ hsp]
          rw [List.filter_cons, List.filter_cons]
          rw [ih (x2 :: X2) (by simp; omega)]


lemma f4_countL (X : List Char) : countL (f4 X) = countL X := by
  rw [countL_def, countL_def, f4_letters X.length X le_rfl]


/-- L-B : the whitespace collapse commutes with the repair scan. -/
lemma f4_f1 : ∀ (n : Nat) (l : List Char), l.length ≤ n → f1 (f4 l) = f4 (f1 l) := by
  intro n
  induction n with
  | zero =>
    intro l hl
    have : l = [] := by cases l with | nil => rfl | cons a t => simp at hl
    subst this
    rfl
  | succ n ih =>
    intro l hl
    cases l with
    | nil => rfl
    | cons c t =>
      simp only [List.length_cons] at hl
      by_cases hc : c = '\\'
      · subst hc
        have hbs_nonsp : isPySpace '\\' = false := by decide
        rw [f4_cons_nonsp _ hbs_nonsp, f1_bs]
        have hsplit : t = t.takeWhile isWL ++ t.dropWhile isWL :=
          (List.takeWhile_append_dropWhile (p := isWL) (l := t)).symm
        have hBhead : ∀ b, (t.dropWhile isWL).head? = some b → isPySpace b = false := by
          intro b hb
          have hnw := dpW_head_not b hb
          cases hw : isPySpace b
          · rfl
          · rw [sp_WL hw] at hnw; cases hnw
        have hf4t : f4 t = f4 (t.takeWhile isWL) ++ f4 (t.dropWhile isWL) := by
          conv_lhs => rw [hsplit]
          exact f4_append_nonsp_head t.length _ _ (by
            have := congrArg List.length hsplit
            rw [List.length_append] at this
            omega) hBhead
        rw [hf4t]
        have hrunWL : ∀ a ∈ f4 (t.takeWhile isWL), isWL a = true :=
          f4_all_WL (fun a ha => List.mem_takeWhile_imp ha)
        have hstop2 := stop_of_head (p := isWL) (B := f4 (t.dropWhile isWL)) (by
          intro b hb
          cases hrest : t.dropWhile isWL with
          | nil => rw [hrest] at hb; cases hb
          | cons r0 rest' =>
            have hr0 : isPySpace r0 = false := by
              apply hBhead
              rw [hrest]
              rfl
            rw [hrest, f4_cons_nonsp _ hr0] at hb
            have : b = r0 := by symm; simpa using hb
            subst this
            have hnw := dpW_head_not b (by rw [hrest]; rfl)
            exact hnw)
        rw [f1_bs]
        rw [tkW_app _ (List.all_eq_true.mpr hrunWL), dpW_app _ (List.all_eq_true.mpr hrunWL)]
        rw [hstop2.1, hstop2.2, List.append_nil]
        rw [ih (t.dropWhile isWL) (by have := dpW_len_le isWL t; omega)]
        rw [f4_cons_nonsp _ hbs_nonsp]
        have hnormcomm : normRun (f4 (t.takeWhile isWL)) = f4 (normRun (t.takeWhile isWL)) := by
          by_cases hbig : 2 ≤ countL (t.takeWhile isWL)
          · rw [normRun_big _ (by rw [f4_countL]; exact hbig)]
            rw [normRun_big _ hbig]
            rw [f4_letters (t.takeWhile isWL).length _ le_rfl]
            rw [f4_id_nonsp (fun a ha => letter_not_sp (List.of_mem_filter ha))]
          · rw [normRun_small _ (by rw [f4_countL]; omega)]
            rw [normRun_small _ (by omega)]
        rw [hnormcomm]
        have hf1head : ∀ b, (f1 (t.dropWhile isWL)).head? = some b → isPySpace b = false := by
          intro b hb
          rw [f1_head] at hb
          exact hBhead b hb
        rw [f4_append_nonsp_head (normRun (t.takeWhile isWL)).length _ _ le_rfl hf1head]
      · cases t with
        | nil =>
          rw [f4_one, f1_cons _ hc]
          rw [show f1 ([] : List Char) = [] from rfl, f4_one]
        | cons c2 t' =>
          have hf1head : (f1 (c2 :: t')).head? = some c2 := by
            rw [f1_head]
            rfl
          obtain ⟨X, hX⟩ : ∃ X, f1 (c2 :: t') = c2 :: X := by
            cases hf : f1 (c2 :: t') with
            | nil => rw [hf] at hf1head; cases hf1head
            | cons y Y =>
              rw [hf] at hf1head
              have : y = c2 := by simpa using hf1head
              subst this
              exact ⟨Y, rfl⟩
          simp only [List.length_cons] at hl
          by_cases hsp : isPySpace c = true ∧ isPySpace c2 = true
          · rw [f4_pair_sp _ hsp.1 hsp.2]
            rw [f1_cons _ (show ' ' ≠ '\\' from by decide)]
            rw [ih ((c2 :: t').dropWhile isPySpace) (by
              have := dpW_len_le isPySpace (c2 :: t')
              simp only [List.length_cons] at this
              omega)]
            rw [← dropWhile_sp_f1]
            rw [f1_cons _ hc, hX]
            rw [f4_pair_sp _ hsp.1 hsp.2]
          · rw [f4_pair_nonsp _ hsp]
            rw [f1_cons _ hc, f1_cons _ hc]
            rw [ih (c2 :: t') (by simp only [List.length_cons]; omega)]
            rw [hX, f4_pair_nonsp _ (by
              intro hcon
              exact hsp ⟨hcon.1, hcon.2⟩)]


lemma f4_prefix_nonsp {P : List Char} (hP : ∀ c ∈ P, isPySpace c = false) :
    ∀ (X : List Char), P.isPrefixOf (f4 X) = P.isPrefixOf X := by
  induction P with
  | nil => intro X; simp [List.isPrefixOf]
  | cons p P' ih =>
    intro X
    have hp : isPySpace p = false := hP p (List.mem_cons_self _ _)
    cases X with
    | nil => rfl
    | cons x X' =>
      by_cases hx : isPySpace x = true
      · obtain ⟨hd2, heq, hsp2⟩ := f4_sp_step X' hx
        rw [heq]
        have h1 : (p == hd2) = false := by
          rw [beq_eq_false_iff_ne]
          intro hcon
          rw [hcon, hsp2] at hp
          cases hp
        have h2 : (p == x) = false := by
          rw [beq_eq_false_iff_ne]
          intro hcon
          rw [hcon, hx] at hp
          cases hp
        show (p == hd2 && _) = (p == x && _)
        rw [h1, h2]
        rfl
      · rw [f4_cons_nonsp _ (Bool.eq_false_iff.mpr hx)]
        show (p == x && P'.isPrefixOf (f4 X')) = (p == x && P'.isPrefixOf X')
        rw [ih (fun c hc => hP c (List.mem_cons_of_mem p hc)) X']


lemma f4_head_not_letter {Z : List Char}
    (h : ∀ b, Z.head? = some b → isAsciiLetter b = false) :
    ∀ b, (f4 Z).head? = some b → isAsciiLetter b = false := by
  intro b hb
  cases Z with
  | nil => cases hb
  | cons z Z' =>
    by_cases hz : isPySpace z = true
    · obtain ⟨hd2, heq, hsp2⟩ := f4_sp_step Z' hz
      rw [heq] at hb
      have : b = hd2 := by symm; simpa using hb
      subst this
      exact sp_not_letter hsp2
    · rw [f4_cons_nonsp _ (Bool.eq_false_iff.mpr hz)] at hb
      have : b = z := by symm; simpa using hb
      rw [this]
      exact h z rfl


/-- L-B3 : the whitespace collapse commutes with the sim/neg spacing pass. -/
lemma f4_f2 : ∀ (n : Nat) (l : List Char), l.length ≤ n → f2 (f4 l) = f4 (f2 l) := by
  intro n
  induction n with
  | zero =>
    intro l hl
    have : l = [] := by cases l with | nil => rfl | cons a t => simp at hl
    subst this
    rfl
  | succ n ih =>
    intro l hl
    cases l with
    | nil => rfl
    | cons c rest =>
      simp only [List.length_cons] at hl
      by_cases hc : c = '\\'
      · subst hc
        rw [f4_cons_nonsp _ (by decide)]
        by_cases hs : ['s', 'i', 'm'].isPrefixOf rest
        · obtain ⟨u, rfl⟩ := List.isPrefixOf_iff_prefix.mp hs
          have hsimns : ∀ c ∈ (['s', 'i', 'm'] : List Char), isPySpace c = false := by
            intro x hx; fin_cases hx <;> decide
          rw [f4_copy_nonsp _ hsimns]
          cases hu : u with
          | nil =>
            subst hu
            rw [show f4 ([] : List Char) = [] from rfl]
            have hL1 : f2 ('\\' :: (['s', 'i', 'm'] ++ ([] : List Char)))
                = ['\\', 's', 'i', 'm'] := by
              have := f2_bs_sim_noletter (['s', 'i', 'm'] ++ ([] : List Char))
                (prefix_append_self _ _) (by intro d r2 hcon; cases hcon)
              simpa using this
            rw [hL1]
            exact (f4_id_nonsp (by intro x hx; fin_cases hx <;> decide)).symm
          | cons d r2 =>
            subst hu
            by_cases hd : isAsciiLetter d = true
            · have hdns : isPySpace d = false := letter_not_sp hd
              rw [show f4 (d :: r2) = d :: f4 r2 from f4_cons_nonsp _ hdns]
              have hL : f2 ('\\' :: (['s', 'i', 'm'] ++ d :: f4 r2))
                  = '\\' :: 's' :: 'i' :: 'm' :: ' ' :: d :: f2 (f4 r2) :=
                f2_bs_sim_letter (f4 r2) hd
              rw [hL, ih r2 (by simp at hl; omega)]
              have hR : f2 ('\\' :: (['s', 'i', 'm'] ++ d :: r2))
                  = '\\' :: 's' :: 'i' :: 'm' :: ' ' :: d :: f2 r2 := f2_bs_sim_letter r2 hd
              rw [hR]
              rw [show ('\\' :: 's' :: 'i' :: 'm' :: ' ' :: d :: f2 r2)
                  = ['\\', 's', 'i', 'm'] ++ (' ' :: d :: f2 r2) from rfl]
              rw [f4_copy_nonsp _ (by intro x hx; fin_cases hx <;> decide)]
              rw [f4_pair_nonsp _ (fun hh => by rw [hdns] at hh; exact Bool.false_ne_true hh.2)]
              rw [f4_cons_nonsp _ hdns]
              rfl
            · have hnol : isAsciiLetter d = false := Bool.eq_false_iff.mpr hd
              have hLnol : ∀ d' r2', f4 (d :: r2) = d' :: r2' → isAsciiLetter d' = false := by
                intro d' r2' hcon
                apply f4_head_not_letter (Z := d :: r2) (by
                  intro b hb
                  have : b = d := by symm; simpa using hb
                  subst this
                  exact hnol)
                rw [hcon]
                rfl
              have hL : f2 ('\\' :: (['s', 'i', 'm'] ++ f4 (d :: r2)))
                  = '\\' :: 's' :: 'i' :: 'm' :: f2 (f4 (d :: r2)) := by
                have := f2_bs_sim_noletter (['s', 'i', 'm'] ++ f4 (d :: r2))
                  (prefix_append_self _ _)
                  (by
                    intro d' r2' hcon
                    exact hLnol d' r2' hcon)
                simpa using this
              rw [hL, ih (d :: r2) (by simp at hl ⊢; omega)]
              have hR : f2 ('\\' :: (['s', 'i', 'm'] ++ d :: r2))
                  = '\\' :: 's' :: 'i' :: 'm' :: f2 (d :: r2) := by
                have := f2_bs_sim_noletter (['s', 'i', 'm'] ++ d :: r2)
                  (prefix_append_self _ _)
                  (by
                    intro d' r2' hcon
                    have hdd : d :: r2 = d' :: r2' := hcon
                    cases hdd
                    exact hnol)
                simpa using this
              rw [hR]
              rw [show ('\\' :: 's' :: 'i' :: 'm' :: f2 (d :: r2))
                  = ['\\', 's', 'i', 'm'] ++ f2 (d :: r2) from rfl]
              rw [f4_copy_nonsp _ (by intro x hx; fin_cases hx <;> decide)]
              rfl
        · by_cases hn : ['n', 'e', 'g'].isPrefixOf rest
          · obtain ⟨u, rfl⟩ := List.isPrefixOf_iff_prefix.mp hn
            have hnegns : ∀ c ∈ (['n', 'e', 'g'] : List Char), isPySpace c = false := by
              intro x hx; fin_cases hx <;> decide
            rw [f4_copy_nonsp _ hnegns]
            cases hu : u with
            | nil =>
              subst hu
              rw [show f4 ([] : List Char) = [] from rfl]
              have hL1 : f2 ('\\' :: (['n', 'e', 'g'] ++ ([] : List Char)))
                  = ['\\', 'n', 'e', 'g'] := by
                have := f2_bs_neg_noletter (['n', 'e', 'g'] ++ ([] : List Char))
                  (prefix_append_self _ _) (by intro d r2 hcon; cases hcon)
                simpa using this
              rw [hL1]
              exact (f4_id_nonsp (by intro x hx; fin_cases hx <;> decide)).symm
            | cons d r2 =>
              subst hu
              by_cases hd : isAsciiLetter d = true
              · have hdns : isPySpace d = false := letter_not_sp hd
                rw [show f4 (d :: r2) = d :: f4 r2 from f4_cons_nonsp _ hdns]
                have hL : f2 ('\\' :: (['n', 'e', 'g'] ++ d :: f4 r2))
                    = '\\' :: 'n' :: 'e' :: 'g' :: ' ' :: d :: f2 (f4 r2) :=
                  f2_bs_neg_letter (f4 r2) hd
                rw [hL, ih r2 (by simp at hl; omega)]
                have hR : f2 ('\\' :: (['n', 'e', 'g'] ++ d :: r2))
                    = '\\' :: 'n' :: 'e' :: 'g' :: ' ' :: d :: f2 r2 := f2_bs_neg_letter r2 hd
                rw [hR]
                rw [show ('\\' :: 'n' :: 'e' :: 'g' :: ' ' :: d :: f2 r2)
                    = ['\\', 'n', 'e', 'g'] ++ (' ' :: d :: f2 r2) from rfl]
                rw [f4_copy_nonsp _ (by intro x hx; fin_cases hx <;> decide)]
                rw [f4_pair_nonsp _ (fun hh => by rw [hdns] at hh; exact Bool.false_ne_true hh.2)]
                rw [f4_cons_nonsp _ hdns]
                rfl
              · have hnol : isAsciiLetter d = false := Bool.eq_false_iff.mpr hd
                have hLnol : ∀ d' r2', f4 (d :: r2) = d' :: r2' → isAsciiLetter d' = false := by
                  intro d' r2' hcon
                  apply f4_head_not_letter (Z := d :: r2) (by
                    intro b hb
                    have : b = d := by symm; simpa using hb
                    subst this
                    exact hnol)
                  rw [hcon]
                  rfl
                have hL : f2 ('\\' :: (['n', 'e', 'g'] ++ f4 (d :: r2)))
                    = '\\' :: 'n' :: 'e' :: 'g' :: f2 (f4 (d :: r2)) := by
                  have := f2_bs_neg_noletter (['n', 'e', 'g'] ++ f4 (d :: r2))
                    (prefix_append_self _ _)
                    (by
                      intro d' r2' hcon
                      exact hLnol d' r2' hcon)
                  simpa using this
                rw [hL, ih (d :: r2) (by simp at hl ⊢; omega)]
                have hR : f2 ('\\' :: (['n', 'e', 'g'] ++ d :: r2))
                    = '\\' :: 'n' :: 'e' :: 'g' :: f2 (d :: r2) := by
                  have := f2_bs_neg_noletter (['n', 'e', 'g'] ++ d :: r2)
                    (prefix_append_self _ _)
                    (by
                      intro d' r2' hcon
                      have hdd : d :: r2 = d' :: r2' := hcon
                      cases hdd
                      exact hnol)
                  simpa using this
                rw [hR]
                rw [show ('\\' :: 'n' :: 'e' :: 'g' :: f2 (d :: r2))
                    = ['\\', 'n', 'e', 'g'] ++ f2 (d :: r2) from rfl]
                rw [f4_copy_nonsp _ (by intro x hx; fin_cases hx <;> decide)]
                rfl
          · have hs4 : ¬ ['s', 'i', 'm'].isPrefixOf (f4 rest) = true := by
              rw [f4_prefix_nonsp (by intro x hx; fin_cases hx <;> decide)]
              exact hs
            have hn4 : ¬ ['n', 'e', 'g'].isPrefixOf (f4 rest) = true := by
              rw [f4_prefix_nonsp (by intro x hx; fin_cases hx <;> decide)]
              exact hn
            rw [f2_bs_other _ hs4 hn4, f2_bs_other _ hs hn]
            rw [ih rest (by omega)]
            rw [f4_cons_nonsp _ (by decide)]
      · cases rest with
        | nil =>
          rw [f4_one, f2_cons _ hc]
          rw [show f2 ([] : List Char) = [] from rfl, f4_one]
        | cons c2 t' =>
          simp only [List.length_cons] at hl
          obtain ⟨Y, hY⟩ : ∃ Y, f2 (c2 :: t') = c2 :: Y := by
            have hh : (f2 (c2 :: t')).head? = some c2 := by rw [f2_head]; rfl
            cases hf : f2 (c2 :: t') with
            | nil => rw [hf] at hh; cases hh
            | cons y Y =>
              rw [hf] at hh
              have : y = c2 := by simpa using hh
              subst this
              exact ⟨Y, rfl⟩
          by_cases hsp : isPySpace c = true ∧ isPySpace c2 = true
          · rw [f4_pair_sp _ hsp.1 hsp.2]
            rw [f2_cons _ (show ' ' ≠ '\\' from by decide)]
            rw [ih ((c2 :: t').dropWhile isPySpace) (by
              have := dpW_len_le isPySpace (c2 :: t')
              simp only [List.length_cons] at this
              omega)]
            rw [← dropWhile_sp_f2]
            rw [f2_cons _ hc, hY]
            rw [f4_pair_sp _ hsp.1 hsp.2]
          · rw [f4_pair_nonsp _ hsp]
            rw [f2_cons _ hc, f2_cons _ hc]
            rw [ih (c2 :: t') (by simp only [List.length_cons]; omega)]
            rw [hY, f4_pair_nonsp _ (fun hh => hsp ⟨hh.1, hh.2⟩)]


lemma jgo_cons {c : Char} (st : Option Nat) (t : List Char) (hc : c ≠ '\\') :
    jgo st (c :: t) = c :: jgo (stepSt st c) t := by
  show jgo st (c :: t) = _
  simp only [jgo, if_neg hc]


lemma jgo_bs_ins (st : Option Nat) (t : List Char)
    (h : (arrowAdjL t && !protSt st) = true) :
    jgo st ('\\' :: t) = ' ' :: '\\' :: jgo (some 0) t := by
  simp only [jgo, if_pos rfl, h, if_true]


lemma jgo_bs_noins (st : Option Nat) (t : List Char)
    (h : (arrowAdjL t && !protSt st) = false) :
    jgo st ('\\' :: t) = '\\' :: jgo (some 0) t := by
  simp only [jgo, if_pos rfl, h]
  rfl


lemma jgo_walk {A : List Char} (hA : ∀ c ∈ A, isWL c = true) :
    ∀ (n : Nat) (B : List Char),
      jgo (some n) (A ++ B) = A ++ jgo (some (n + countL A)) B := by
  induction A with
  | nil => intro n B; simp [countL_def]
  | cons a A' ih =>
    intro n B
    have haWL : isWL a = true := hA a (List.mem_cons_self _ _)
    rw [List.cons_append, jgo_cons _ _ (WL_ne_bs haWL)]
    rw [show stepSt (some n) a = some (if isAsciiLetter a then n + 1 else n) from by
      simp [stepSt, haWL]]
    rw [ih (fun c hc => hA c (List.mem_cons_of_mem a hc))]
    have hstate : (if isAsciiLetter a then n + 1 else n) + countL A' = n + countL (a :: A') := by
      rw [countL_def, countL_def, List.filter_cons]
      by_cases hla : isAsciiLetter a = true
      · rw [if_pos hla, if_pos hla]
        simp only [List.length_cons]
        omega
      · rw [if_neg hla,
          if_neg (by rw [Bool.eq_false_iff.mpr hla]; exact Bool.false_ne_true)]
    rw [hstate]
    rfl


-- arrow word facts

lemma arrow_letters {a : List Char} (ha : a ∈ arrowWords) :
    ∀ c ∈ a, isAsciiLetter c = true := by
  fin_cases ha <;> (intro c hc; fin_cases hc <;> decide)


lemma arrow_nonsp {a : List Char} (ha : a ∈ arrowWords) :
    ∀ c ∈ a, isPySpace c = false :=
  fun c hc => letter_not_sp (arrow_letters ha c hc)


lemma arrow_find_self {a : List Char} (ha : a ∈ arrowWords) (X : List Char) :
    arrowWords.find? (fun x => x.isPrefixOf (a ++ X)) = some a := by
  fin_cases ha <;>
    simp [arrowWords, List.find?_cons, prefix_append_self, List.isPrefixOf]


/-- f3 copies a trailing whitespace block verbatim. -/
lemma f3_append_sp : ∀ (n : Nat) (A W : List Char), A.length ≤ n →
    (∀ c ∈ W, isPySpace c = true) → f3 (A ++ W) = f3 A ++ W := by
  intro n
  induction n with
  | zero =>
    intro A W hA hW
    have : A = [] := by cases A with | nil => rfl | cons a t => simp at hA
    subst this
    simpa using f3_id (fun c hc => sp_ne_bs (hW c hc))
  | succ n ih =>
    intro A W hA hW
    cases A with
    | nil => simpa using f3_id (fun c hc => sp_ne_bs (hW c hc))
    | cons c A' =>
      simp only [List.length_cons] at hA
      by_cases hc : c = '\\'
      · subst hc
        have hsync : ∀ a ∈ arrowWords, a.isPrefixOf (A' ++ W) = a.isPrefixOf A' :=
          fun a ha => prefix_app_sp (arrow_nonsp ha) hW A'
        cases hfind : arrowWords.find? (fun a => a.isPrefixOf A') with
        | none =>
          rw [List.cons_append, f3_bs_none _ (by rw [find?_congr _ hsync]; exact hfind)]
          rw [f3_bs_none _ hfind, ih A' W (by omega) hW]
          rfl
        | some a =>
          have haw : a ∈ arrowWords := List.mem_of_find?_eq_some hfind
          have hap : a.isPrefixOf A' = true := by
            have := List.find?_some hfind
            simpa using this
          obtain ⟨u, rfl⟩ := List.isPrefixOf_iff_prefix.mp hap
          rw [List.cons_append, f3_bs_some (a := a) _ (by
            rw [find?_congr _ hsync]
            exact hfind)]
          rw [f3_bs_some (a := a) _ hfind]
          rw [show ((a ++ u) ++ W : List Char) = a ++ (u ++ W) from by simp]
          rw [List.drop_left, List.drop_left]
          rw [ih u W (by simp at hA; omega) hW]
          simp
      · rw [List.cons_append, f3_cons _ hc, f3_cons _ hc, ih A' W (by omega) hW]
        rfl


lemma f4_twosp (Z : List Char) : f4 (' ' :: ' ' :: Z) = f4 (' ' :: Z) := by
  rw [f4_pair_sp _ (by decide) (by decide), f4_spcons]
  rw [List.dropWhile_cons_of_pos (by decide)]


lemma f4_sprun_congr {c : Char} {W : List Char} (hc : isPySpace c = true)
    (hW : ∀ x ∈ W, isPySpace x = true) (hne : W ≠ []) (Z : List Char) :
    f4 (c :: (W ++ Z)) = f4 (' ' :: Z) := by
  cases W with
  | nil => exact absurd rfl hne
  | cons w W' =>
    rw [List.cons_append, f4_pair_sp _ hc (hW w (List.mem_cons_self _ _))]
    rw [f4_spcons]
    congr 1
    show f4 (List.dropWhile isPySpace ((w :: W') ++ Z)) = _
    rw [dpW_app (p := isPySpace) (A := w :: W') Z (List.all_eq_true.mpr hW)]


/-- L-E : collapsing whitespace before the arrow-spacing pass changes nothing
once whitespace is collapsed afterwards. -/
lemma f4_f3_f4 : ∀ (n : Nat) (l : List Char), l.length ≤ n →
    f4 (f3 (f4 l)) = f4 (f3 l) := by
  intro n
  induction n with
  | zero =>
    intro l hl
    have : l = [] := by cases l with | nil => rfl | cons a t => simp at hl
    subst this
    rfl
  | succ n ih =>
    intro l hl
    cases l with
    | nil => rfl
    | cons c t =>
      simp only [List.length_cons] at hl
      by_cases hc : c = '\\'
      · subst hc
        rw [f4_cons_nonsp _ (by decide)]
        have hsync : ∀ a ∈ arrowWords, a.isPrefixOf (f4 t) = a.isPrefixOf t :=
          fun a ha => f4_prefix_nonsp (arrow_nonsp ha) t
        cases hfind : arrowWords.find? (fun a => a.isPrefixOf t) with
        | none =>
          rw [f3_bs_none _ (by rw [find?_congr _ hsync]; exact hfind)]
          rw [f3_bs_none _ hfind]
          exact f4_cons_congr '\\' (ih t (by omega))
        | some a =>
          have haw : a ∈ arrowWords := List.mem_of_find?_eq_some hfind
          have hap : a.isPrefixOf t = true := by
            have := List.find?_some hfind
            simpa using this
          obtain ⟨u, rfl⟩ := List.isPrefixOf_iff_prefix.mp hap
          rw [f3_bs_some (a := a) _ (by rw [find?_congr _ hsync]; exact hfind)]
          rw [f3_bs_some (a := a) _ hfind]
          rw [show f4 (a ++ u) = a ++ f4 u from f4_copy_nonsp _ (arrow_nonsp haw)]
          rw [List.drop_left, List.drop_left]
          have h0 : f4 (f3 (f4 u)) = f4 (f3 u) := ih u (by simp at hl; omega)
          have h1 := f4_append_congr ((' ' :: '\\' :: a) ++ [' ']) h0
          simpa [List.append_assoc] using h1
      · cases t with
        | nil =>
          rw [f4_one]
        | cons c2 t' =>
          simp only [List.length_cons] at hl
          by_cases hsp : isPySpace c = true ∧ isPySpace c2 = true
          · rw [f4_pair_sp _ hsp.1 hsp.2]
            rw [f3_cons _ (show ' ' ≠ '\\' from by decide)]
            have hIH := ih ((c2 :: t').dropWhile isPySpace) (by
              have := dpW_len_le isPySpace (c2 :: t')
              simp only [List.length_cons] at this
              omega)
            have hL := f4_cons_congr ' ' hIH
            rw [hL]
            rw [f3_cons _ hc]
            have hsplit : (c2 :: t') = (c2 :: t').takeWhile isPySpace
                ++ (c2 :: t').dropWhile isPySpace :=
              (List.takeWhile_append_dropWhile (p := isPySpace) (l := c2 :: t')).symm
            have hWsp : ∀ x ∈ (c2 :: t').takeWhile isPySpace, isPySpace x = true :=
              fun x hx => List.mem_takeWhile_imp hx
            have hWne : (c2 :: t').takeWhile isPySpace ≠ [] := by
              rw [List.takeWhile_cons_of_pos hsp.2]
              simp
            conv_rhs => rw [hsplit]
            rw [f3_copy _ (fun x hx => sp_ne_bs (hWsp x hx))]
            rw [f4_sprun_congr hsp.1 hWsp hWne]
          · rw [f4_pair_nonsp _ hsp]
            rw [f3_cons _ hc, f3_cons _ hc]
            exact f4_cons_congr c (ih (c2 :: t') (by simp only [List.length_cons]; omega))


lemma jgo_prefix_letters {a : List Char} (ha : ∀ c ∈ a, isAsciiLetter c = true) :
    ∀ (t : List Char) (st : Option Nat), a.isPrefixOf (jgo st t) = a.isPrefixOf t := by
  induction a with
  | nil => intro t st; simp [List.isPrefixOf]
  | cons x a' ih =>
    intro t st
    have hx : isAsciiLetter x = true := ha x (List.mem_cons_self _ _)
    cases t with
    | nil => rfl
    | cons c t' =>
      by_cases hc : c = '\\'
      · subst hc
        have hxbs : (x == '\\') = false := by
          rw [beq_eq_false_iff_ne]
          intro hcon
          rw [hcon] at hx
          exact absurd hx (by decide)
        have hxsp : (x == ' ') = false := by
          rw [beq_eq_false_iff_ne]
          intro hcon
          rw [hcon] at hx
          exact absurd hx (by decide)
        by_cases hins : (arrowAdjL t' && !protSt st) = true
        · rw [jgo_bs_ins _ _ hins]
          show (x == ' ' && _) = (x == '\\' && _)
          rw [hxbs, hxsp]
          rfl
        · rw [jgo_bs_noins _ _ (Bool.eq_false_iff.mpr hins)]
          show (x == '\\' && _) = (x == '\\' && _)
          rw [hxbs]
          rfl
      · rw [jgo_cons _ _ hc]
        show (x == c && (a'.isPrefixOf (jgo (stepSt st c) t'))) = (x == c && a'.isPrefixOf t')
        rw [ih (fun y hy => ha y (List.mem_cons_of_mem x hy)) t' (stepSt st c)]


lemma jgo_arrow_sync (t : List Char) (st : Option Nat) :
    arrowWords.find? (fun a => a.isPrefixOf (jgo st t))
      = arrowWords.find? (fun a => a.isPrefixOf t) :=
  find?_congr _ (fun _ ha => jgo_prefix_letters (arrow_letters ha) t st)


/-- L-J : the j-machine inserts spaces only where the arrow pass inserts its
own, so after arrow spacing and whitespace collapse it is invisible. -/
lemma f4_f3_j : ∀ (n : Nat) (u : List Char) (st : Option Nat), u.length ≤ n →
    f4 (f3 (jgo st u)) = f4 (f3 u) := by
  intro n
  induction n with
  | zero =>
    intro u st hu
    have : u = [] := by cases u with | nil => rfl | cons a t => simp at hu
    subst this
    rfl
  | succ n ih =>
    intro u st hu
    cases u with
    | nil => rfl
    | cons c t =>
      simp only [List.length_cons] at hu
      by_cases hc : c = '\\'
      · subst hc
        cases hfind : arrowWords.find? (fun a => a.isPrefixOf t) with
        | none =>
          have hadj : arrowAdjL t = false := by
            unfold arrowAdjL
            rw [hfind]
            rfl
          rw [jgo_bs_noins _ _ (by rw [hadj]; rfl)]
          rw [f3_bs_none _ (by rw [jgo_arrow_sync]; exact hfind)]
          rw [f3_bs_none _ hfind]
          exact f4_cons_congr '\\' (ih t (some 0) (by omega))
        | some a =>
          have haw : a ∈ arrowWords := List.mem_of_find?_eq_some hfind
          have hap : a.isPrefixOf t = true := by
            have := List.find?_some hfind
            simpa using this
          obtain ⟨u2, rfl⟩ := List.isPrefixOf_iff_prefix.mp hap
          have hwalk : jgo (some 0) (a ++ u2) = a ++ jgo (some (0 + countL a)) u2 :=
            jgo_walk (fun c hc2 => letter_WL (arrow_letters haw c hc2)) 0 u2
          have hfires : ∀ X, f3 ('\\' :: (a ++ X))
              = ' ' :: '\\' :: (a ++ ' ' :: f3 X) := by
            intro X
            rw [f3_bs_some (a := a) _ (arrow_find_self haw X), List.drop_left]
          have hIH : f4 (f3 (jgo (some (0 + countL a)) u2)) = f4 (f3 u2) :=
            ih u2 _ (by simp at hu; omega)
          have hcore : f4 ('\\' :: (a ++ ' ' :: f3 (jgo (some (0 + countL a)) u2)))
              = f4 ('\\' :: (a ++ ' ' :: f3 u2)) := by
            have h1 := f4_cons_congr ' ' hIH
            have h2 := f4_append_congr (('\\' :: a) ++ [' ']) hIH
            simpa [List.append_assoc] using h2
          by_cases hins : (arrowAdjL (a ++ u2) && !protSt st) = true
          · rw [jgo_bs_ins _ _ hins, hwalk]
            rw [f3_cons _ (show ' ' ≠ '\\' from by decide)]
            rw [hfires, hfires]
            show f4 (' ' :: ' ' :: ('\\' :: (a ++ ' ' :: f3 (jgo (some (0 + countL a)) u2))))
              = f4 (' ' :: ('\\' :: (a ++ ' ' :: f3 u2)))
            rw [f4_twosp]
            exact f4_cons_congr ' ' hcore
          · rw [jgo_bs_noins _ _ (Bool.eq_false_iff.mpr hins), hwalk, hfires, hfires]
            show f4 (' ' :: ('\\' :: (a ++ ' ' :: f3 (jgo (some (0 + countL a)) u2))))
              = f4 (' ' :: ('\\' :: (a ++ ' ' :: f3 u2)))
            exact f4_cons_congr ' ' hcore
      · rw [jgo_cons _ _ hc, f3_cons _ hc, f3_cons _ hc]
        exact f4_cons_congr c (ih t (stepSt st c) (by omega))


-- ### L-D : strip before the arrow pass is absorbed

lemma dpW_append3 {p : Char → Bool} {X : List Char} (B : List Char)
    (h : X.dropWhile p ≠ []) : (X ++ B).dropWhile p = X.dropWhile p ++ B := by
  induction X with
  | nil => exact absurd rfl h
  | cons x X' ih =>
    rw [List.cons_append, List.dropWhile_cons]
    by_cases hx : p x = true
    · rw [if_pos hx]
      rw [List.dropWhile_cons, if_pos hx] at h ⊢
      exact ih h
    · rw [if_neg hx]
      rw [List.dropWhile_cons, if_neg hx]
      rfl


lemma rdrop_cons_congr {X Y : List Char} (c : Char) (h : rdrop X = rdrop Y) :
    rdrop (c :: X) = rdrop (c :: Y) := by
  rw [rd_cons, rd_cons, h]


lemma f4_allsp {W : List Char} (hW : ∀ c ∈ W, isPySpace c = true) :
    ∀ c ∈ f4 W, isPySpace c = true := by
  intro c hc
  rcases f4_mem W.length W le_rfl c hc with hm | hs
  · exact hW c hm
  · rw [hs]; decide


lemma rdrop_f4_app_sp : ∀ (n : Nat) (Y W : List Char), Y.length ≤ n →
    (∀ c ∈ W, isPySpace c = true) → rdrop (f4 (Y ++ W)) = rdrop (f4 Y) := by
  intro n
  induction n with
  | zero =>
    intro Y W hY hW
    have : Y = [] := by cases Y with | nil => rfl | cons a t => simp at hY
    subst this
    simp only [List.nil_append]
    rw [rdrop_nil_of_all_sp (f4_allsp hW)]
    rfl
  | succ n ih =>
    intro Y W hY hW
    cases Y with
    | nil =>
      simp only [List.nil_append]
      rw [rdrop_nil_of_all_sp (f4_allsp hW)]
      rfl
    | cons y1 Y1 =>
      simp only [List.length_cons] at hY
      cases Y1 with
      | nil =>
        cases W with
        | nil => simp
        | cons w W' =>
          have hw : isPySpace w = true := hW w (List.mem_cons_self _ _)
          by_cases hy : isPySpace y1 = true
          · show rdrop (f4 (y1 :: w :: W')) = rdrop (f4 [y1])
            have hdp : (w :: W').dropWhile isPySpace = [] :=
              List.dropWhile_eq_nil_iff.mpr (fun c hc => hW c hc)
            rw [f4_pair_sp W' hy hw, hdp, f4_one]
            rw [rd_cons, rd_cons]
            simp [hy, show f4 ([] : List Char) = [] from rfl,
              show rdrop ([] : List Char) = [] from rfl,
              show isPySpace ' ' = true by decide]
          · show rdrop (f4 (y1 :: w :: W')) = rdrop (f4 [y1])
            rw [f4_pair_nonsp W' (fun hcon => hy hcon.1), f4_one]
            have hz : rdrop (f4 (w :: W')) = [] :=
              rdrop_nil_of_all_sp (f4_allsp (fun c hc => hW c hc))
            rw [rd_cons, hz, if_pos rfl]
            rw [rd_cons y1 []]
            rfl
      | cons y2 Y2 =>
        by_cases hpair : isPySpace y1 = true ∧ isPySpace y2 = true
        · show rdrop (f4 (y1 :: y2 :: (Y2 ++ W))) = rdrop (f4 (y1 :: y2 :: Y2))
          rw [f4_pair_sp (Y2 ++ W) hpair.1 hpair.2, f4_pair_sp Y2 hpair.1 hpair.2]
          apply rdrop_cons_congr
          cases hD : (y2 :: Y2).dropWhile isPySpace with
          | nil =>
            have hall : ∀ c ∈ y2 :: Y2, isPySpace c = true :=
              List.dropWhile_eq_nil_iff.mp hD
            have h2 : ((y2 :: Y2) ++ W).dropWhile isPySpace = [] :=
              List.dropWhile_eq_nil_iff.mpr (fun c hc => by
                rcases List.mem_append.mp hc with h | h
                · exact hall c h
                · exact hW c h)
            rw [show (y2 :: (Y2 ++ W)).dropWhile isPySpace
                = ((y2 :: Y2) ++ W).dropWhile isPySpace from rfl, h2]
          | cons d D' =>
            rw [show (y2 :: (Y2 ++ W)).dropWhile isPySpace
                = ((y2 :: Y2) ++ W).dropWhile isPySpace from rfl]
            rw [dpW_append3 W (by rw [hD]; exact List.cons_ne_nil _ _), hD]
            have hlen : (d :: D').length ≤ n := by
              have h1 := dpW_len_le isPySpace (y2 :: Y2)
              rw [hD] at h1
              simp only [List.length_cons] at h1 hY ⊢
              omega
            exact ih (d :: D') W hlen hW
        · show rdrop (f4 (y1 :: y2 :: (Y2 ++ W))) = rdrop (f4 (y1 :: y2 :: Y2))
          rw [f4_pair_nonsp (Y2 ++ W) hpair, f4_pair_nonsp Y2 hpair]
          exact rdrop_cons_congr y1 (ih (y2 :: Y2) W
            (by simp only [List.length_cons] at hY ⊢; omega) hW)


lemma dpsp_f4_dpsp (Z : List Char) :
    (f4 (Z.dropWhile isPySpace)).dropWhile isPySpace = (f4 Z).dropWhile isPySpace := by
  cases Z with
  | nil => rfl
  | cons z Z' =>
    by_cases hz : isPySpace z = true
    · obtain ⟨hd2, heq, hsp⟩ := f4_sp_step Z' hz
      rw [heq, List.dropWhile_cons_of_pos hsp, List.dropWhile_cons_of_pos hz]
    · rw [List.dropWhile_cons_of_neg (by simp [hz])]


lemma dpsp_f4_spfront {F : List Char} (Z : List Char) (hF : ∀ c ∈ F, isPySpace c = true) :
    (f4 (F ++ Z)).dropWhile isPySpace = (f4 Z).dropWhile isPySpace := by
  cases F with
  | nil => rfl
  | cons c F' =>
    have hc : isPySpace c = true := hF c (List.mem_cons_self _ _)
    obtain ⟨hd2, heq, hsp⟩ := f4_sp_step (F' ++ Z) hc
    show (f4 (c :: (F' ++ Z))).dropWhile isPySpace = _
    rw [heq, List.dropWhile_cons_of_pos hsp]
    rw [dpW_app (p := isPySpace) Z (List.all_eq_true.mpr
      (fun x hx => hF x (List.mem_cons_of_mem c hx)))]
    exact dpsp_f4_dpsp Z


lemma pyStripL_f4_pyStripL (x : List Char) :
    pyStripL (f4 (f3 (pyStripL x))) = pyStripL (f4 (f3 x)) := by
  obtain ⟨W, hW, hspW⟩ := rdrop_spec (x.dropWhile isPySpace)
  have hF : ∀ c ∈ x.takeWhile isPySpace, isPySpace c = true :=
    fun c hc => List.mem_takeWhile_imp hc
  have hFne : ∀ c ∈ x.takeWhile isPySpace, c ≠ '\\' :=
    fun c hc => sp_ne_bs (hF c hc)
  have hx3 : f3 x = x.takeWhile isPySpace ++ (f3 (pyStripL x) ++ W) := by
    conv_lhs => rw [← List.takeWhile_append_dropWhile (p := isPySpace) (l := x), hW]
    rw [f3_copy _ hFne, f3_append_sp (rdrop (x.dropWhile isPySpace)).length _ W le_rfl hspW]
    rfl
  rw [hx3]
  show rdrop ((f4 (f3 (pyStripL x))).dropWhile isPySpace)
      = rdrop ((f4 (x.takeWhile isPySpace ++ (f3 (pyStripL x) ++ W))).dropWhile isPySpace)
  rw [dpsp_f4_spfront (f3 (pyStripL x) ++ W) hF]
  rw [rdrop_dropWhile_comm, rdrop_dropWhile_comm]
  rw [rdrop_f4_app_sp (f3 (pyStripL x)).length _ W le_rfl hspW]


lemma P12go_step (fuel : Nat) (c : Char) (w : List Char) :
    P12go (fuel + 1) (c :: w) =
      if c = '\\' then goodRun (w.takeWhile isWL) ∧ P12go fuel (w.dropWhile isWL)
      else P12go fuel w := rfl


lemma P12go_adequate : ∀ (f g : Nat) (w : List Char), w.length ≤ f → w.length ≤ g →
    (P12go f w ↔ P12go g w) := by
  intro f
  induction f with
  | zero =>
    intro g w hf hg
    have : w = [] := by cases w with | nil => rfl | cons a t => simp at hf
    subst this
    cases g <;> exact Iff.rfl
  | succ f ih =>
    intro g w hf hg
    cases w with
    | nil => cases g <;> exact Iff.rfl
    | cons c w' =>
      cases g with
      | zero => simp at hg
      | succ g' =>
        rw [P12go_step, P12go_step]
        simp only [List.length_cons] at hf hg
        by_cases hc : c = '\\'
        · rw [if_pos hc, if_pos hc]
          have hd := dpW_len_le isWL w'
          exact and_congr_right (fun _ => ih g' _ (by omega) (by omega))
        · rw [if_neg hc, if_neg hc]
          exact ih g' w' (by omega) (by omega)


lemma P12_nil : P12 [] := trivial


lemma P12_cons {c : Char} (w : List Char) (hc : c ≠ '\\') : P12 (c :: w) ↔ P12 w := by
  show P12go (w.length + 1) (c :: w) ↔ _
  rw [P12go_step, if_neg hc]
  exact Iff.rfl


lemma P12_bs (t : List Char) :
    P12 ('\\' :: t) ↔ goodRun (t.takeWhile isWL) ∧ P12 (t.dropWhile isWL) := by
  show P12go (t.length + 1) ('\\' :: t) ↔ _
  rw [P12go_step, if_pos rfl]
  exact and_congr_right (fun _ =>
    P12go_adequate t.length (t.dropWhile isWL).length _ (dpW_len_le _ t) le_rfl)


-- ### normRun under an appended space

lemma letter_sp_false : isAsciiLetter ' ' = false := by decide


lemma countL_app_sp (R : List Char) : countL (R ++ [' ']) = countL R := by
  rw [countL_def, countL_def, List.filter_append]
  simp [letter_sp_false]


lemma normRun_app_sp_big {R : List Char} (h : 2 ≤ countL R) :
    normRun (R ++ [' ']) = normRun R := by
  rw [normRun_big _ (by rw [countL_app_sp]; exact h), normRun_big _ h, List.filter_append]
  simp [letter_sp_false]


lemma normRun_app_sp_small {R : List Char} (h : countL R < 2) :
    normRun (R ++ [' ']) = normRun R ++ [' '] := by
  rw [normRun_small _ (by rw [countL_app_sp]; exact h), normRun_small _ h]


lemma normRun_head_letter {R : List Char} {c : Char} (hh : R.head? = some c)
    (hl : isAsciiLetter c = true) : (normRun R).head? = some c := by
  cases R with
  | nil => cases hh
  | cons r R' =>
    have : r = c := by simpa using hh
    subst this
    rw [normRun_eq]
    split
    · rw [List.filter_cons, if_pos hl]
      rfl
    · rfl


-- ### inserting a space after a long letter block

lemma filterL_app_sp_cons (a Y : List Char) :
    (a ++ ' ' :: Y).filter isAsciiLetter = (a ++ Y).filter isAsciiLetter := by
  rw [List.filter_append, List.filter_append, List.filter_cons]
  simp [letter_sp_false]


lemma countL_letter_block {a : List Char} (Y : List Char)
    (ha : ∀ c ∈ a, isAsciiLetter c = true) : countL (a ++ Y) = a.length + countL Y := by
  rw [countL_def, countL_def, List.filter_append, List.length_append]
  rw [List.filter_eq_self.mpr ha]


lemma bridge_insert_sp {a : List Char} (X : List Char)
    (ha : ∀ c ∈ a, isAsciiLetter c = true) (h2 : 2 ≤ a.length) :
    normRun ((a ++ ' ' :: X).takeWhile isWL) = normRun ((a ++ X).takeWhile isWL) ∧
    (a ++ ' ' :: X).dropWhile isWL = (a ++ X).dropWhile isWL := by
  have haWL : a.all isWL := List.all_eq_true.mpr (fun c hc => letter_WL (ha c hc))
  constructor
  · rw [tkW_app _ haWL, tkW_app _ haWL]
    rw [List.takeWhile_cons_of_pos isWL_sp]
    refine normRun_eq_of_letters ?hfil ?hbig
    · exact filterL_app_sp_cons a _
    · rw [countL_letter_block (' ' :: X.takeWhile isWL) ha]
      omega
  · rw [dpW_app _ haWL, dpW_app _ haWL, List.dropWhile_cons_of_pos isWL_sp]


-- ### arrow-word prefix facts

lemma arrow_len {a : List Char} (ha : a ∈ arrowWords) : 2 ≤ a.length := by
  fin_cases ha <;> decide


lemma arrow_prefix_false_s {a X : List Char} (ha : a ∈ arrowWords)
    (hX : X.head? = some 's') : a.isPrefixOf X = false := by
  cases X with
  | nil => cases hX
  | cons x X' =>
    have : x = 's' := by simpa using hX
    subst this
    fin_cases ha <;> simp [List.isPrefixOf]


lemma arrow_prefix_false_n {a X : List Char} (ha : a ∈ arrowWords)
    (hX : X.head? = some 'n') : a.isPrefixOf X = false := by
  cases X with
  | nil => cases hX
  | cons x X' =>
    have : x = 'n' := by simpa using hX
    subst this
    fin_cases ha <;> simp [List.isPrefixOf]


lemma head_of_tkW {t : List Char} {c : Char}
    (h : (t.takeWhile isWL).head? = some c) : t.head? = some c := by
  cases t with
  | nil => cases h
  | cons x t' =>
    by_cases hx : isWL x = true
    · rw [List.takeWhile_cons_of_pos hx] at h
      exact h
    · rw [List.takeWhile_cons_of_neg (by simp [hx])] at h
      cases h


lemma head_app {X : List Char} {c : Char} (Y : List Char) (h : X.head? = some c) :
    (X ++ Y).head? = some c := by
  cases X with
  | nil => cases h
  | cons x X' => simpa using h


-- ### prefix transparency of f1 after the chunk run

lemma prefix_letters_f1 : ∀ (X a s : List Char),
    (∀ c ∈ a, isAsciiLetter c = true) →
    (∀ d, s.head? = some d → isAsciiLetter d = false) →
    a.isPrefixOf (X ++ f1 s) = a.isPrefixOf (X ++ s) := by
  intro X
  induction X with
  | nil =>
    intro a s ha hs
    cases a with
    | nil => simp [List.isPrefixOf]
    | cons a0 a' =>
      cases s with
      | nil => rfl
      | cons c s' =>
        have hc : isAsciiLetter c = false := hs c rfl
        have ha0 : isAsciiLetter a0 = true := ha a0 (List.mem_cons_self _ _)
        have hne : (a0 == c) = false := by
          simp only [beq_eq_false_iff_ne, ne_eq]
          intro hcon
          rw [hcon, hc] at ha0
          cases ha0
        simp only [List.nil_append]
        obtain ⟨z, hf⟩ : ∃ z, f1 (c :: s') = c :: z := by
          have hf1 := f1_head (c :: s')
          cases hfe : f1 (c :: s') with
          | nil => rw [hfe] at hf1; cases hf1
          | cons e z =>
            rw [hfe] at hf1
            have he : e = c := by simpa using hf1
            exact ⟨z, by rw [he]⟩
        rw [hf]
        show ((a0 == c) && a'.isPrefixOf z) = ((a0 == c) && a'.isPrefixOf s')
        rw [hne]
        simp
  | cons x X' ih =>
    intro a s ha hs
    cases a with
    | nil => simp [List.isPrefixOf]
    | cons a0 a' =>
      show ((a0 == x) && a'.isPrefixOf (X' ++ f1 s)) = ((a0 == x) && a'.isPrefixOf (X' ++ s))
      rw [ih a' s (fun c hc => ha c (List.mem_cons_of_mem a0 hc)) hs]


/-- ARROW-SYNC: with a benign run, arrow detection on the chunk content is the
same before and after the `f1` normalization. -/
lemma arrow_sync_f1 {t : List Char} (hg : goodRun (t.takeWhile isWL)) :
    arrowWords.find?
        (fun a => a.isPrefixOf (normRun (t.takeWhile isWL) ++ f1 (t.dropWhile isWL)))
      = arrowWords.find? (fun a => a.isPrefixOf t) := by
  apply find?_congr
  intro a ha
  have hdh : ∀ d, (t.dropWhile isWL).head? = some d → isAsciiLetter d = false := by
    intro d hd
    have := dpW_head_not d hd
    rw [isWL] at this
    simp only [Bool.or_eq_false_iff] at this
    exact this.2
  rcases hg with hnr | hh | hh
  · rw [hnr]
    conv_rhs => rw [← List.takeWhile_append_dropWhile (p := isWL) (l := t)]
    exact prefix_letters_f1 _ a _ (arrow_letters ha) hdh
  · rw [arrow_prefix_false_s ha (head_app _ (normRun_head_letter hh (by decide))),
      arrow_prefix_false_s ha (head_of_tkW hh)]
  · rw [arrow_prefix_false_n ha (head_app _ (normRun_head_letter hh (by decide))),
      arrow_prefix_false_n ha (head_of_tkW hh)]


-- ### L-H : under P12, the arrow pass commutes with the repair pass

lemma LH_ind : ∀ (n : Nat),
    (∀ t : List Char, t.length ≤ n → goodRun (t.takeWhile isWL) →
      P12 (t.dropWhile isWL) →
      normRun ((f3 t).takeWhile isWL) ++ f1 ((f3 t).dropWhile isWL)
        = normRun (t.takeWhile isWL)
            ++ jgo (some (countL (t.takeWhile isWL))) (f1 (t.dropWhile isWL))) ∧
    (∀ w : List Char, w.length ≤ n → P12 w → f1 (f3 w) = jgo none (f1 w)) := by
  intro n
  induction n with
  | zero =>
    constructor
    · intro t ht _ _
      have : t = [] := by cases t with | nil => rfl | cons a b => simp at ht
      subst this
      rfl
    · intro w hw _
      have : w = [] := by cases w with | nil => rfl | cons a b => simp at hw
      subst this
      rfl
  | succ n ih =>
    obtain ⟨ihPsi, ihPhi⟩ := ih
    constructor
    · intro t ht hg hp
      have hall : (t.takeWhile isWL).all isWL := List.all_eq_true.mpr tkW_mem_WL
      have hsplit : f3 t = t.takeWhile isWL ++ f3 (t.dropWhile isWL) := by
        conv_lhs => rw [← List.takeWhile_append_dropWhile (p := isWL) (l := t)]
        exact f3_copy _ (fun c hc => WL_ne_bs (tkW_mem_WL c hc))
      cases hs : t.dropWhile isWL with
      | nil =>
        rw [hs] at hsplit
        rw [f3_nil, List.append_nil] at hsplit
        have h1 : (t.takeWhile isWL).takeWhile isWL = t.takeWhile isWL := by
          have := tkW_app (p := isWL) ([] : List Char) hall
          simpa using this
        have h2 : (t.takeWhile isWL).dropWhile isWL = [] := by
          have := dpW_app (p := isWL) ([] : List Char) hall
          simpa using this
        rw [hsplit, h1, h2, f1_nil]
        rfl
      | cons c s2 =>
        have hcWL : isWL c = false := dpW_head_not c (by rw [hs]; rfl)
        have hlen : s2.length + 1 ≤ t.length := by
          have := dpW_len_le isWL t
          rw [hs] at this
          simpa using this
        rw [hs] at hsplit hp
        by_cases hc : c = '\\'
        · subst hc
          rw [P12_bs] at hp
          obtain ⟨hg2, hp2⟩ := hp
          have hpsi2 := ihPsi s2 (by omega) hg2 hp2
          have hsync := arrow_sync_f1 hg2
          have hJ : jgo (some 0) (normRun (s2.takeWhile isWL) ++ f1 (s2.dropWhile isWL))
              = normRun (s2.takeWhile isWL)
                  ++ jgo (some (countL (s2.takeWhile isWL))) (f1 (s2.dropWhile isWL)) := by
            rw [jgo_walk (normRun_all_WL tkW_mem_WL) 0, normRun_countL, Nat.zero_add]
          rw [f1_bs]
          cases hfind : arrowWords.find? (fun x => x.isPrefixOf s2) with
          | none =>
            have hadj : arrowAdjL (normRun (s2.takeWhile isWL)
                ++ f1 (s2.dropWhile isWL)) = false := by
              unfold arrowAdjL
              rw [hsync, hfind]
              rfl
            rw [jgo_bs_noins _ _ (by rw [hadj]; rfl)]
            rw [hsplit, f3_bs_none _ hfind]
            have htk : (t.takeWhile isWL ++ '\\' :: f3 s2).takeWhile isWL
                = t.takeWhile isWL := by
              rw [tkW_app _ hall, List.takeWhile_cons_of_neg (by simp [bs_not_WL]),
                List.append_nil]
            have hdp : (t.takeWhile isWL ++ '\\' :: f3 s2).dropWhile isWL
                = '\\' :: f3 s2 := by
              rw [dpW_app _ hall, List.dropWhile_cons_of_neg (by simp [bs_not_WL])]
            rw [htk, hdp, f1_bs, hpsi2, hJ]
          | some a =>
            have ha : a ∈ arrowWords := List.mem_of_find?_eq_some hfind
            have hap : a.isPrefixOf s2 = true := by
              have := List.find?_some hfind
              simpa using this
            obtain ⟨rest2, rfl⟩ := List.isPrefixOf_iff_prefix.mp hap
            have hadj : arrowAdjL (normRun ((a ++ rest2).takeWhile isWL)
                ++ f1 ((a ++ rest2).dropWhile isWL)) = true := by
              unfold arrowAdjL
              rw [hsync, hfind]
              rfl
            rw [hsplit, f3_bs_some _ hfind, List.drop_left]
            have htk : (t.takeWhile isWL
                ++ ' ' :: '\\' :: (a ++ ' ' :: f3 rest2)).takeWhile isWL
                = t.takeWhile isWL ++ [' '] := by
              rw [tkW_app _ hall, List.takeWhile_cons_of_pos isWL_sp,
                List.takeWhile_cons_of_neg (by simp [bs_not_WL])]
            have hdp : (t.takeWhile isWL
                ++ ' ' :: '\\' :: (a ++ ' ' :: f3 rest2)).dropWhile isWL
                = '\\' :: (a ++ ' ' :: f3 rest2) := by
              rw [dpW_app _ hall, List.dropWhile_cons_of_pos isWL_sp,
                List.dropWhile_cons_of_neg (by simp [bs_not_WL])]
            rw [htk, hdp, f1_bs]
            have hbr := bridge_insert_sp (f3 rest2) (arrow_letters ha) (arrow_len ha)
            rw [hbr.1, hbr.2]
            rw [show a ++ f3 rest2 = f3 (a ++ rest2) from
              (f3_copy _ (fun c hc => by
                intro hcon
                have := arrow_letters ha c hc
                rw [hcon] at this
                exact absurd this (by decide))).symm]
            rw [hpsi2]
            by_cases hk : 2 ≤ countL (t.takeWhile isWL)
            · rw [jgo_bs_noins _ _ (by rw [hadj]; simp [protSt, hk])]
              rw [hJ, normRun_app_sp_big hk]
            · rw [jgo_bs_ins _ _ (by rw [hadj]; simp [protSt]; omega)]
              rw [hJ, normRun_app_sp_small (by omega), List.append_assoc]
              rfl
        · rw [hsplit, f3_cons _ hc]
          have htk : (t.takeWhile isWL ++ c :: f3 s2).takeWhile isWL
              = t.takeWhile isWL := by
            rw [tkW_app _ hall, List.takeWhile_cons_of_neg (by simp [hcWL]),
              List.append_nil]
          have hdp : (t.takeWhile isWL ++ c :: f3 s2).dropWhile isWL = c :: f3 s2 := by
            rw [dpW_app _ hall, List.dropWhile_cons_of_neg (by simp [hcWL])]
          rw [htk, hdp, f1_cons _ hc, f1_cons _ hc, jgo_cons _ _ hc]
          have hst : stepSt (some (countL (t.takeWhile isWL))) c = none := by
            simp [stepSt, hcWL]
          rw [hst, ihPhi s2 (by omega) ((P12_cons _ hc).mp hp)]
    · intro w hw hp
      cases w with
      | nil => rfl
      | cons c t =>
        simp only [List.length_cons] at hw
        by_cases hc : c = '\\'
        · subst hc
          rw [P12_bs] at hp
          obtain ⟨hg, hpd⟩ := hp
          have hpsi := ihPsi t (by omega) hg hpd
          have hsync := arrow_sync_f1 hg
          have hJ : jgo (some 0) (normRun (t.takeWhile isWL) ++ f1 (t.dropWhile isWL))
              = normRun (t.takeWhile isWL)
                  ++ jgo (some (countL (t.takeWhile isWL))) (f1 (t.dropWhile isWL)) := by
            rw [jgo_walk (normRun_all_WL tkW_mem_WL) 0, normRun_countL, Nat.zero_add]
          rw [f1_bs]
          cases hfind : arrowWords.find? (fun x => x.isPrefixOf t) with
          | none =>
            have hadj : arrowAdjL (normRun (t.takeWhile isWL)
                ++ f1 (t.dropWhile isWL)) = false := by
              unfold arrowAdjL
              rw [hsync, hfind]
              rfl
            rw [jgo_bs_noins _ _ (by rw [hadj]; rfl)]
            rw [f3_bs_none _ hfind, f1_bs, hpsi, hJ]
          | some a =>
            have ha : a ∈ arrowWords := List.mem_of_find?_eq_some hfind
            have hap : a.isPrefixOf t = true := by
              have := List.find?_some hfind
              simpa using this
            obtain ⟨rest, rfl⟩ := List.isPrefixOf_iff_prefix.mp hap
            have hadj : arrowAdjL (normRun ((a ++ rest).takeWhile isWL)
                ++ f1 ((a ++ rest).dropWhile isWL)) = true := by
              unfold arrowAdjL
              rw [hsync, hfind]
              rfl
            rw [jgo_bs_ins _ _ (by rw [hadj]; rfl)]
            rw [f3_bs_some _ hfind, List.drop_left]
            rw [f1_cons _ (by decide : ' ' ≠ '\\'), f1_bs]
            have hbr := bridge_insert_sp (f3 rest) (arrow_letters ha) (arrow_len ha)
            rw [hbr.1, hbr.2]
            rw [show a ++ f3 rest = f3 (a ++ rest) from
              (f3_copy _ (fun c hc => by
                intro hcon
                have := arrow_letters ha c hc
                rw [hcon] at this
                exact absurd this (by decide))).symm]
            rw [hpsi, hJ]
        · rw [f3_cons _ hc, f1_cons _ hc, f1_cons _ hc, jgo_cons _ _ hc]
          have hst : stepSt none c = none := by
            unfold stepSt
            split <;> rfl
          rw [hst, ihPhi t (by omega) ((P12_cons _ hc).mp hp)]


/-- L-H wrapper: on a P12 word the arrow pass before the repair pass equals the
`j` machine after it. -/
lemma f1_f3_j {w : List Char} (h : P12 w) : f1 (f3 w) = jgo none (f1 w) :=
  (LH_ind w.length).2 w le_rfl h


-- ### L-I : the sim/neg spacing pass commutes with the j machine

lemma jgo_head (st : Option Nat) (l : List Char) :
    (jgo st l).head? = l.head? ∨ (jgo st l).head? = some ' ' := by
  cases l with
  | nil => exact Or.inl rfl
  | cons c r =>
    by_cases hc : c = '\\'
    · subst hc
      by_cases hcond : (arrowAdjL r && !protSt st) = true
      · rw [jgo_bs_ins _ _ hcond]
        exact Or.inr rfl
      · rw [jgo_bs_noins _ _ (Bool.eq_false_iff.mpr hcond)]
        exact Or.inl rfl
    · rw [jgo_cons _ _ hc]
      exact Or.inl rfl


lemma arrowAdjL_head_s {X : List Char} (hX : X.head? = some 's') :
    arrowAdjL X = false := by
  unfold arrowAdjL
  rw [List.find?_eq_none.mpr (fun a ha => by
    rw [arrow_prefix_false_s ha hX]; exact Bool.false_ne_true)]
  rfl


lemma arrowAdjL_head_n {X : List Char} (hX : X.head? = some 'n') :
    arrowAdjL X = false := by
  unfold arrowAdjL
  rw [List.find?_eq_none.mpr (fun a ha => by
    rw [arrow_prefix_false_n ha hX]; exact Bool.false_ne_true)]
  rfl


lemma f2_prefix_letters : ∀ (t a : List Char), (∀ c ∈ a, isAsciiLetter c = true) →
    a.isPrefixOf (f2 t) = a.isPrefixOf t := by
  intro t
  induction t with
  | nil => intro a _; rfl
  | cons c t' ih =>
    intro a ha
    cases a with
    | nil => simp [List.isPrefixOf]
    | cons a0 a' =>
      by_cases hc : c = '\\'
      · subst hc
        have ha0 : isAsciiLetter a0 = true := ha a0 (List.mem_cons_self _ _)
        have hne : (a0 == '\\') = false := by
          simp only [beq_eq_false_iff_ne, ne_eq]
          intro hcon
          rw [hcon] at ha0
          exact absurd ha0 (by decide)
        obtain ⟨z, hf⟩ : ∃ z, f2 ('\\' :: t') = '\\' :: z := by
          have h2 := f2_head ('\\' :: t')
          cases hfe : f2 ('\\' :: t') with
          | nil => rw [hfe] at h2; cases h2
          | cons e z =>
            rw [hfe] at h2
            have he : e = '\\' := by simpa using h2
            exact ⟨z, by rw [he]⟩
        rw [hf]
        show ((a0 == '\\') && a'.isPrefixOf z) = ((a0 == '\\') && a'.isPrefixOf t')
        rw [hne]
        simp
      · rw [f2_cons _ hc]
        show ((a0 == c) && a'.isPrefixOf (f2 t')) = ((a0 == c) && a'.isPrefixOf t')
        rw [ih a' (fun x hx => ha x (List.mem_cons_of_mem a0 hx))]


lemma arrowAdjL_f2 (t : List Char) : arrowAdjL (f2 t) = arrowAdjL t := by
  unfold arrowAdjL
  rw [find?_congr _ (fun a ha => f2_prefix_letters t a (arrow_letters ha))]


lemma stepSt_letter {d : Char} (n : Nat) (hd : isAsciiLetter d = true) :
    stepSt (some n) d = some (n + 1) := by
  simp [stepSt, letter_WL hd, hd]


lemma countL_sim : countL ['s', 'i', 'm'] = 3 := by decide


lemma countL_neg : countL ['n', 'e', 'g'] = 3 := by decide


lemma f2_jgo : ∀ (n : Nat) (x : List Char) (st : Option Nat), x.length ≤ n →
    f2 (jgo st x) = jgo st (f2 x) := by
  intro n
  induction n with
  | zero =>
    intro x st hx
    have : x = [] := by cases x with | nil => rfl | cons a b => simp at hx
    subst this
    rfl
  | succ n ih =>
    intro x st hx
    cases x with
    | nil => rfl
    | cons c r =>
      simp only [List.length_cons] at hx
      by_cases hc : c = '\\'
      · subst hc
        by_cases hsim : ['s', 'i', 'm'].isPrefixOf r = true
        · obtain ⟨u, rfl⟩ := List.isPrefixOf_iff_prefix.mp hsim
          simp only [List.cons_append, List.nil_append] at hx ⊢
          have hadjr : arrowAdjL ('s' :: 'i' :: 'm' :: u) = false := arrowAdjL_head_s rfl
          rw [jgo_bs_noins _ _ (by rw [hadjr]; rfl)]
          have hw3 : ∀ B : List Char, jgo (some 0) ('s' :: 'i' :: 'm' :: B)
              = 's' :: 'i' :: 'm' :: jgo (some 3) B := by
            intro B
            have := jgo_walk (A := ['s', 'i', 'm']) (by decide) 0 B
            rw [show (0 + countL ['s', 'i', 'm']) = 3 from by decide] at this
            simpa using this
          rw [hw3]
          by_cases hlet : ∃ d u2, u = d :: u2 ∧ isAsciiLetter d = true
          · obtain ⟨d, u2, rfl, hd⟩ := hlet
            rw [jgo_cons _ _ (WL_ne_bs (letter_WL hd)), stepSt_letter 3 hd]
            rw [f2_bs_sim_letter _ hd, f2_bs_sim_letter _ hd]
            rw [ih u2 (some 4) (by simp only [List.length_cons] at hx; omega)]
            have hA : ∀ x ∈ ['s', 'i', 'm', ' ', d], isWL x = true := by
              intro x hxm
              simp only [List.mem_cons, List.not_mem_nil, or_false] at hxm
              rcases hxm with rfl | rfl | rfl | rfl | rfl
              · decide
              · decide
              · decide
              · decide
              · exact letter_WL hd
            have hcnt : (0 + countL ['s', 'i', 'm', ' ', d]) = 4 := by
              rw [countL_def]
              simp only [List.filter_cons, List.filter_nil, hd,
                show isAsciiLetter 's' = true from by decide,
                show isAsciiLetter 'i' = true from by decide,
                show isAsciiLetter 'm' = true from by decide,
                show isAsciiLetter ' ' = false from by decide]
              rfl
            have hadj2 : arrowAdjL ('s' :: 'i' :: 'm' :: ' ' :: d :: f2 u2) = false :=
              arrowAdjL_head_s rfl
            rw [jgo_bs_noins _ _ (by rw [hadj2]; rfl)]
            have hw5 := jgo_walk (A := ['s', 'i', 'm', ' ', d]) hA 0 (f2 u2)
            rw [hcnt] at hw5
            simpa using hw5.symm
          · have hnol : ∀ d u2, u = d :: u2 → isAsciiLetter d = false := by
              intro d u2 hdu
              by_contra hcon
              exact hlet ⟨d, u2, hdu, Bool.not_eq_false _ ▸ Bool.of_not_eq_false hcon⟩
            have hnol2 : ∀ e r2, ('s' :: 'i' :: 'm' :: jgo (some 3) u).drop 3 = e :: r2 →
                isAsciiLetter e = false := by
              intro e r2 heq
              have hhd : (jgo (some 3) u).head? = some e := by
                rw [show ('s' :: 'i' :: 'm' :: jgo (some 3) u).drop 3
                  = jgo (some 3) u from rfl] at heq
                rw [heq]
                rfl
              rcases jgo_head (some 3) u with hcase | hcase
              · rw [hcase] at hhd
                cases u with
                | nil => cases hhd
                | cons d u2 =>
                  have : d = e := by simpa using hhd
                  subst this
                  exact hnol d u2 rfl
              · rw [hcase] at hhd
                have hsp : ' ' = e := by simpa using hhd
                rw [← hsp]
                decide
            have hnol3 : ∀ e r2, ('s' :: 'i' :: 'm' :: u).drop 3 = e :: r2 →
                isAsciiLetter e = false := by
              intro e r2 heq
              have : u = e :: r2 := heq
              exact hnol e r2 this
            rw [f2_bs_sim_noletter _ (by simp [List.isPrefixOf]) hnol2]
            rw [f2_bs_sim_noletter _ (by simp [List.isPrefixOf]) hnol3]
            rw [show ('s' :: 'i' :: 'm' :: jgo (some 3) u).drop 3 = jgo (some 3) u from rfl]
            rw [show ('s' :: 'i' :: 'm' :: u).drop 3 = u from rfl]
            rw [ih u (some 3) (by simp only [List.length_cons] at hx; omega)]
            have hadj2 : arrowAdjL ('s' :: 'i' :: 'm' :: f2 u) = false :=
              arrowAdjL_head_s rfl
            rw [jgo_bs_noins _ _ (by rw [hadj2]; rfl), hw3]
        · by_cases hneg : ['n', 'e', 'g'].isPrefixOf r = true
          · obtain ⟨u, rfl⟩ := List.isPrefixOf_iff_prefix.mp hneg
            simp only [List.cons_append, List.nil_append] at hx ⊢
            have hadjr : arrowAdjL ('n' :: 'e' :: 'g' :: u) = false := arrowAdjL_head_n rfl
            rw [jgo_bs_noins _ _ (by rw [hadjr]; rfl)]
            have hw3 : ∀ B : List Char, jgo (some 0) ('n' :: 'e' :: 'g' :: B)
                = 'n' :: 'e' :: 'g' :: jgo (some 3) B := by
              intro B
              have := jgo_walk (A := ['n', 'e', 'g']) (by decide) 0 B
              rw [show (0 + countL ['n', 'e', 'g']) = 3 from by decide] at this
              simpa using this
            rw [hw3]
            have hsim2 : ¬ ['s', 'i', 'm'].isPrefixOf ('n' :: 'e' :: 'g' :: jgo (some 3) u) := by
              simp [List.isPrefixOf]
            have hsim3 : ¬ ['s', 'i', 'm'].isPrefixOf ('n' :: 'e' :: 'g' :: u) := by
              simp [List.isPrefixOf]
            by_cases hlet : ∃ d u2, u = d :: u2 ∧ isAsciiLetter d = true
            · obtain ⟨d, u2, rfl, hd⟩ := hlet
              rw [jgo_cons _ _ (WL_ne_bs (letter_WL hd)), stepSt_letter 3 hd]
              rw [f2_bs_neg_letter _ hd, f2_bs_neg_letter _ hd]
              rw [ih u2 (some 4) (by simp only [List.length_cons] at hx; omega)]
              have hA : ∀ x ∈ ['n', 'e', 'g', ' ', d], isWL x = true := by
                intro x hxm
                simp only [List.mem_cons, List.not_mem_nil, or_false] at hxm
                rcases hxm with rfl | rfl | rfl | rfl | rfl
                · decide
                · decide
                · decide
                · decide
                · exact letter_WL hd
              have hcnt : (0 + countL ['n', 'e', 'g', ' ', d]) = 4 := by
                rw [countL_def]
                simp only [List.filter_cons, List.filter_nil, hd,
                  show isAsciiLetter 'n' = true from by decide,
                  show isAsciiLetter 'e' = true from by decide,
                  show isAsciiLetter 'g' = true from by decide,
                  show isAsciiLetter ' ' = false from by decide]
                rfl
              have hadj2 : arrowAdjL ('n' :: 'e' :: 'g' :: ' ' :: d :: f2 u2) = false :=
                arrowAdjL_head_n rfl
              rw [jgo_bs_noins _ _ (by rw [hadj2]; rfl)]
              have hw5 := jgo_walk (A := ['n', 'e', 'g', ' ', d]) hA 0 (f2 u2)
              rw [hcnt] at hw5
              simpa using hw5.symm
            · have hnol : ∀ d u2, u = d :: u2 → isAsciiLetter d = false := by
                intro d u2 hdu
                by_contra hcon
                exact hlet ⟨d, u2, hdu, Bool.not_eq_false _ ▸ Bool.of_not_eq_false hcon⟩
              have hnol2 : ∀ e r2, ('n' :: 'e' :: 'g' :: jgo (some 3) u).drop 3 = e :: r2 →
                  isAsciiLetter e = false := by
                intro e r2 heq
                have hhd : (jgo (some 3) u).head? = some e := by
                  rw [show ('n' :: 'e' :: 'g' :: jgo (some 3) u).drop 3
                    = jgo (some 3) u from rfl] at heq
                  rw [heq]
                  rfl
                rcases jgo_head (some 3) u with hcase | hcase
                · rw [hcase] at hhd
                  cases u with
                  | nil => cases hhd
                  | cons d u2 =>
                    have : d = e := by simpa using hhd
                    subst this
                    exact hnol d u2 rfl
                · rw [hcase] at hhd
                  have hsp : ' ' = e := by simpa using hhd
                  rw [← hsp]
                  decide
              have hnol3 : ∀ e r2, ('n' :: 'e' :: 'g' :: u).drop 3 = e :: r2 →
                  isAsciiLetter e = false := by
                intro e r2 heq
                have : u = e :: r2 := heq
                exact hnol e r2 this
              rw [f2_bs_neg_noletter _ (by simp [List.isPrefixOf]) hnol2]
              rw [f2_bs_neg_noletter _ (by simp [List.isPrefixOf]) hnol3]
              rw [show ('n' :: 'e' :: 'g' :: jgo (some 3) u).drop 3 = jgo (some 3) u from rfl]
              rw [show ('n' :: 'e' :: 'g' :: u).drop 3 = u from rfl]
              rw [ih u (some 3) (by simp only [List.length_cons] at hx; omega)]
              have hadj2 : arrowAdjL ('n' :: 'e' :: 'g' :: f2 u) = false :=
                arrowAdjL_head_n rfl
              rw [jgo_bs_noins _ _ (by rw [hadj2]; rfl), hw3]
          · -- generic backslash chunk
            have hsimj : ¬ ['s', 'i', 'm'].isPrefixOf (jgo (some 0) r) = true := by
              rw [jgo_prefix_letters (by decide) r (some 0)]
              exact hsim
            have hnegj : ¬ ['n', 'e', 'g'].isPrefixOf (jgo (some 0) r) = true := by
              rw [jgo_prefix_letters (by decide) r (some 0)]
              exact hneg
            have hsimf : ¬ ['s', 'i', 'm'].isPrefixOf (f2 r) = true := by
              rw [f2_prefix_letters r _ (by decide)]
              exact hsim
            have hnegf : ¬ ['n', 'e', 'g'].isPrefixOf (f2 r) = true := by
              rw [f2_prefix_letters r _ (by decide)]
              exact hneg
            rw [f2_bs_other r hsim hneg]
            by_cases hcond : (arrowAdjL r && !protSt st) = true
            · rw [jgo_bs_ins _ _ hcond]
              rw [jgo_bs_ins _ _ (by rw [arrowAdjL_f2]; exact hcond)]
              rw [f2_cons _ (by decide : ' ' ≠ '\\'), f2_bs_other _ hsimj hnegj]
              rw [ih r (some 0) (by omega)]
            · rw [jgo_bs_noins _ _ (Bool.eq_false_iff.mpr hcond)]
              rw [jgo_bs_noins _ _ (by
                rw [arrowAdjL_f2]
                exact Bool.eq_false_iff.mpr hcond)]
              rw [f2_bs_other _ hsimj hnegj]
              rw [ih r (some 0) (by omega)]
      · rw [jgo_cons _ _ hc, f2_cons _ hc, f2_cons _ hc, jgo_cons _ _ hc]
        rw [ih r (stepSt st c) (by omega)]


lemma f2_j (l : List Char) : f2 (jgo none l) = jgo none (f2 l) :=
  f2_jgo l.length l none le_rfl


-- ### L-K : the first two passes only produce benign chunks

lemma one_prefix_split {a : Char} (ha : isAsciiLetter a = true) {N F : List Char}
    (hF : ∀ e, F.head? = some e → isAsciiLetter e = false) {rest : List Char}
    (h : (a :: rest).isPrefixOf (N ++ F) = true) :
    ∃ N1, N = a :: N1 ∧ rest.isPrefixOf (N1 ++ F) = true := by
  cases N with
  | nil =>
    exfalso
    simp only [List.nil_append] at h
    cases F with
    | nil =>
      rw [show ((a :: rest).isPrefixOf ([] : List Char)) = false from rfl] at h
      cases h
    | cons e z =>
      have hae : a = e ∧ rest.isPrefixOf z = true := by
        have h2 : ((a == e) && rest.isPrefixOf z) = true := h
        simpa using h2
      cases hae.1
      rw [hF a rfl] at ha
      exact Bool.false_ne_true ha
  | cons n1 N1 =>
    have h1 : a = n1 ∧ rest.isPrefixOf (N1 ++ F) = true := by
      have h2 : ((a == n1) && rest.isPrefixOf (N1 ++ F)) = true := h
      simpa using h2
    cases h1.1
    exact ⟨N1, rfl, h1.2⟩


lemma three_prefix_split {a b c : Char} (ha : isAsciiLetter a = true)
    (hb : isAsciiLetter b = true) (hc : isAsciiLetter c = true) {N F : List Char}
    (hF : ∀ e, F.head? = some e → isAsciiLetter e = false)
    (h : [a, b, c].isPrefixOf (N ++ F) = true) : ∃ N3, N = a :: b :: c :: N3 := by
  obtain ⟨N1, rfl, h1⟩ := one_prefix_split ha hF h
  obtain ⟨N2, rfl, h2⟩ := one_prefix_split hb hF h1
  obtain ⟨N3, rfl, _⟩ := one_prefix_split hc hF h2
  exact ⟨N3, rfl⟩


lemma normRun_cases (R : List Char) :
    (∀ c ∈ normRun R, isAsciiLetter c = true) ∨ countL (normRun R) ≤ 1 := by
  rcases Nat.lt_or_ge (countL R) 2 with h | h
  · right
    rw [normRun_small R h, countL_def] at *
    omega
  · left
    rw [normRun_big R h]
    intro c hc
    exact (List.mem_filter.mp hc).2


lemma P12_f2_f1 : ∀ (n : Nat) (s : List Char), s.length ≤ n → P12 (f2 (f1 s)) := by
  intro n
  induction n with
  | zero =>
    intro s hs
    have : s = [] := by cases s with | nil => rfl | cons a b => simp at hs
    subst this
    exact trivial
  | succ n ih =>
    intro s hs
    cases s with
    | nil => exact trivial
    | cons c t =>
      simp only [List.length_cons] at hs
      by_cases hc : c = '\\'
      · subst hc
        rw [f1_bs]
        have hFh : ∀ e, (f1 (t.dropWhile isWL)).head? = some e →
            isAsciiLetter e = false := by
          intro e he
          rw [f1_head] at he
          have := dpW_head_not e he
          rw [isWL] at this
          simp only [Bool.or_eq_false_iff] at this
          exact this.2
        have hstop := stop_of_head (p := isWL) (B := f2 (f1 (t.dropWhile isWL))) (by
          intro b hb
          rw [f2_head, f1_head] at hb
          exact dpW_head_not b hb)
        have hP : P12 (f2 (f1 (t.dropWhile isWL))) := ih _ (by
          have := dpW_len_le isWL t
          omega)
        by_cases hsim : ['s', 'i', 'm'].isPrefixOf
            (normRun (t.takeWhile isWL) ++ f1 (t.dropWhile isWL)) = true
        · obtain ⟨N3, hN⟩ :=
            three_prefix_split (by decide) (by decide) (by decide) hFh hsim
          have hNlet : ∀ x ∈ normRun (t.takeWhile isWL), isAsciiLetter x = true := by
            rcases normRun_cases (t.takeWhile isWL) with h | h
            · exact h
            · exfalso
              rw [hN, countL_def] at h
              simp only [List.filter_cons,
                show isAsciiLetter 's' = true from by decide,
                show isAsciiLetter 'i' = true from by decide,
                show isAsciiLetter 'm' = true from by decide] at h
              simp only [if_true, List.length_cons] at h
              omega
          rw [hN]
          simp only [List.cons_append]
          cases N3 with
          | nil =>
            simp only [List.nil_append]
            rw [f2_bs_sim_noletter _ (by simp [List.isPrefixOf]) (by
              intro d r2 heq
              have hd : (f1 (t.dropWhile isWL)).head? = some d := by
                rw [show ('s' :: 'i' :: 'm' :: f1 (t.dropWhile isWL)).drop 3
                  = f1 (t.dropWhile isWL) from rfl] at heq
                rw [heq]
                rfl
              exact hFh d hd)]
            rw [show ('s' :: 'i' :: 'm' :: f1 (t.dropWhile isWL)).drop 3
              = f1 (t.dropWhile isWL) from rfl]
            rw [P12_bs]
            constructor
            · right; left
              rw [List.takeWhile_cons_of_pos isWL_s]
              rfl
            · rw [List.dropWhile_cons_of_pos isWL_s, List.dropWhile_cons_of_pos isWL_i,
                List.dropWhile_cons_of_pos isWL_m, hstop.2]
              exact hP
          | cons d N4 =>
            simp only [List.cons_append]
            have hd : isAsciiLetter d = true := hNlet d (by rw [hN]; simp)
            have hN4 : ∀ x ∈ N4, isAsciiLetter x = true :=
              fun x hx => hNlet x (by rw [hN]; simp [hx])
            rw [f2_bs_sim_letter _ hd]
            rw [f2_copy _ (fun x hx => WL_ne_bs (letter_WL (hN4 x hx)))]
            rw [P12_bs]
            constructor
            · right; left
              rw [List.takeWhile_cons_of_pos isWL_s]
              rfl
            · rw [List.dropWhile_cons_of_pos isWL_s, List.dropWhile_cons_of_pos isWL_i,
                List.dropWhile_cons_of_pos isWL_m, List.dropWhile_cons_of_pos isWL_sp,
                List.dropWhile_cons_of_pos (letter_WL hd),
                dpW_app _ (List.all_eq_true.mpr (fun x hx => letter_WL (hN4 x hx))),
                hstop.2]
              exact hP
        · by_cases hneg : ['n', 'e', 'g'].isPrefixOf
              (normRun (t.takeWhile isWL) ++ f1 (t.dropWhile isWL)) = true
          · obtain ⟨N3, hN⟩ :=
              three_prefix_split (by decide) (by decide) (by decide) hFh hneg
            have hNlet : ∀ x ∈ normRun (t.takeWhile isWL), isAsciiLetter x = true := by
              rcases normRun_cases (t.takeWhile isWL) with h | h
              · exact h
              · exfalso
                rw [hN, countL_def] at h
                simp only [List.filter_cons,
                  show isAsciiLetter 'n' = true from by decide,
                  show isAsciiLetter 'e' = true from by decide,
                  show isAsciiLetter 'g' = true from by decide] at h
                simp only [if_true, List.length_cons] at h
                omega
            rw [hN]
            simp only [List.cons_append]
            cases N3 with
            | nil =>
              simp only [List.nil_append]
              rw [f2_bs_neg_noletter _ (by simp [List.isPrefixOf]) (by
                intro d r2 heq
                have hd : (f1 (t.dropWhile isWL)).head? = some d := by
                  rw [show ('n' :: 'e' :: 'g' :: f1 (t.dropWhile isWL)).drop 3
                    = f1 (t.dropWhile isWL) from rfl] at heq
                  rw [heq]
                  rfl
                exact hFh d hd)]
              rw [show ('n' :: 'e' :: 'g' :: f1 (t.dropWhile isWL)).drop 3
                = f1 (t.dropWhile isWL) from rfl]
              rw [P12_bs]
              constructor
              · right; right
                rw [List.takeWhile_cons_of_pos isWL_n]
                rfl
              · rw [List.dropWhile_cons_of_pos isWL_n, List.dropWhile_cons_of_pos isWL_e,
                  List.dropWhile_cons_of_pos isWL_g, hstop.2]
                exact hP
            | cons d N4 =>
              simp only [List.cons_append]
              have hd : isAsciiLetter d = true := hNlet d (by rw [hN]; simp)
              have hN4 : ∀ x ∈ N4, isAsciiLetter x = true :=
                fun x hx => hNlet x (by rw [hN]; simp [hx])
              rw [f2_bs_neg_letter _ hd]
              rw [f2_copy _ (fun x hx => WL_ne_bs (letter_WL (hN4 x hx)))]
              rw [P12_bs]
              constructor
              · right; right
                rw [List.takeWhile_cons_of_pos isWL_n]
                rfl
              · rw [List.dropWhile_cons_of_pos isWL_n, List.dropWhile_cons_of_pos isWL_e,
                  List.dropWhile_cons_of_pos isWL_g, List.dropWhile_cons_of_pos isWL_sp,
                  List.dropWhile_cons_of_pos (letter_WL hd),
                  dpW_app _ (List.all_eq_true.mpr (fun x hx => letter_WL (hN4 x hx))),
                  hstop.2]
                exact hP
          · rw [f2_bs_other _ hsim hneg]
            rw [f2_copy _ (fun x hx => WL_ne_bs (normRun_all_WL tkW_mem_WL x hx))]
            rw [P12_bs]
            constructor
            · left
              rw [tkW_app _ (List.all_eq_true.mpr (normRun_all_WL tkW_mem_WL)),
                hstop.1, List.append_nil, normRun_idem]
            · rw [dpW_app _ (List.all_eq_true.mpr (normRun_all_WL tkW_mem_WL)), hstop.2]
              exact hP
      · rw [f1_cons _ hc, f2_cons _ hc, P12_cons _ hc]
        exact ih t (by omega)


lemma P12_pass (l : List Char) : P12 (f2 (f1 l)) := P12_f2_f1 l.length l le_rfl


-- ### C5 assembly

lemma pass_idem (l : List Char) :
    pyStripL (f4 (f3 (f2 (f1 (pyStripL (f4 (f3 (f2 (f1 l)))))))))
      = pyStripL (f4 (f3 (f2 (f1 l)))) := by
  rw [pyStripL_f1, f4_f1 _ _ le_rfl, pyStripL_f2, f4_f2 _ _ le_rfl]
  rw [f1_f3_j (P12_pass l), f2_j, f1_f2, f1_idem]
  rw [pyStripL_f4_pyStripL, f4_f3_f4 _ _ le_rfl, f4_f3_j _ _ none le_rfl]


/-- C1: the end-to-end `<mrow><mi>cos</mi><mi>x</mi></mrow>` scenario.  The
transducer emits `"\\cosx"` — the function name is concatenated with the
following identifier with no empty-group guard and no space — and the
identifier pass then inserts a second escape character in front of `cos`
(its replacement template prepends `\\` to a name that already follows a
backslash), so the pipeline output `"\\\\cosx"` carries a doubly-escaped
command, contradicting both halves of the claim. -/
theorem cos_x_pipeline_double_escape :
    mathml_to_latex_element
        (.mk "mrow" [] "" [.mk "mi" [] "cos" [], .mk "mi" [] "x" []]) = some "\\cosx"
    ∧ normalize_identifiers "\\cosx" = "\\\\cos x"
    ∧ beautify_latex (normalize_identifiers "\\cosx") = "\\\\cosx"
    ∧ startsWithStr "\\\\" (normalize_identifiers "\\cosx") = true := by
  refine ⟨by decide, by decide, by decide, by decide⟩


/-- C5: the LaTeX repair pass is idempotent — applying `beautify_latex`
twice yields the same string as applying it once, for every input string. -/
theorem beautify_latex_idempotent (s : String) :
    beautify_latex (beautify_latex s) = beautify_latex s :=
  congrArg String.mk (pass_idem s.data)

